import Mathlib

set_option autoImplicit false
set_option linter.unusedVariables false

namespace PrimeProbe

/-! Prime+Probe ring: the shuffle, the probe and the statistics of `prime_and_probe.c`

The first part of the file holds the definitions: the functions of the program and the
predicates used to state their properties.  The second part holds the lemmas and the
theorems about the program.
-/

/-! ## Configuration constants of `prime_and_probe.c` -/

namespace Config

/-- Number of sets in the L1 cache: `#define S 80`. -/
def S : Nat := 80

/-- Number of cache lines in a set: `#define W 8`. -/
def W : Nat := 8

/-- Bytes per cache line: `#define B 64`. -/
def B : Nat := 64

/-- Number of nodes: `#define ARRLEN S * W`. -/
def ARRLEN : Nat := S * W

/-- Rounds of measurement: `#define NUM_MEASUREMENTS 1000`. -/
def NUM_MEASUREMENTS : Nat := 1000

/-- Samples trimmed per set: `#define NUM_OUTLIERS 200`. -/
def NUM_OUTLIERS : Nat := 200

end Config

/-! ## Memory model

A pointer `cacheline *` into the array `arr` is the index of the node it points
to, so `arr` itself (the address of `arr[0]`) is the index `0`.  The contents of
the array are a function from indices to nodes; the padding bytes carry no
information and are left out. -/

/-- One node of the array: `struct cacheline` without its padding. -/
structure cacheline where
  /-- Index of the node `prev` points to. -/
  prev : Nat
  /-- Index of the node `next` points to. -/
  next : Nat
  /-- The `uint64_t time` field. -/
  time : Nat

/-- Contents of the array `arr`. -/
abbrev Arr := Nat → cacheline

/-- The assignment `p->prev = v`. -/
def set_prev (arr : Arr) (p v : Nat) : Arr :=
  Function.update arr p { arr p with prev := v }

/-- The assignment `p->next = v`. -/
def set_next (arr : Arr) (p v : Nat) : Arr :=
  Function.update arr p { arr p with next := v }

/-- The assignment `p->time = v`. -/
def set_time (arr : Arr) (p v : Nat) : Arr :=
  Function.update arr p { arr p with time := v }

/-- The pointer step `p->next`. -/
def nxt (arr : Arr) (p : Nat) : Nat := (arr p).next

/-- The pointer step `p->prev`. -/
def prv (arr : Arr) (p : Nat) : Nat := (arr p).prev

/-! ## `swap_nodes` -/

/-- The function `swap_nodes(arr, ind1, ind2)`: the four neighbours are read first, then
one of the three relinking branches runs its assignments in source order. -/
def swap_nodes (arr : Arr) (ind1 ind2 : Nat) : Arr :=
  let prev1 := (arr ind1).prev
  let next1 := (arr ind1).next
  let prev2 := (arr ind2).prev
  let next2 := (arr ind2).next
  if (arr ind1).next = ind2 then
    let a := set_next arr ind1 next2
    let a := set_prev a next2 ind1
    let a := set_prev a ind2 prev1
    let a := set_next a prev1 ind2
    let a := set_prev a ind1 ind2
    set_next a ind2 ind1
  else if (arr ind2).next = ind1 then
    let a := set_next arr ind2 next1
    let a := set_prev a next1 ind2
    let a := set_prev a ind1 prev2
    let a := set_next a prev2 ind1
    let a := set_prev a ind2 ind1
    set_next a ind1 ind2
  else
    let a := set_prev arr ind1 prev2
    let a := set_next a ind1 next2
    let a := set_next a prev2 ind1
    let a := set_prev a next2 ind1
    let a := set_prev a ind2 prev1
    let a := set_next a ind2 next1
    let a := set_next a prev1 ind2
    set_prev a next1 ind2

/-! ## `swap_whole_sets` -/

/-- The function `swap_whole_sets(arr, set1, set2)`.  The nested walking loops are nested
iterations of the pointer step; the adjacency tests compare the indices `set1`, `set2`. -/
def swap_whole_sets (S W : Nat) (arr : Arr) (set1 set2 : Nat) : Arr :=
  let set1_start := (fun p => (nxt arr)^[W] p)^[set1] 0
  let set1_end := (nxt arr)^[W - 1] set1_start
  let set2_start := (fun p => (nxt arr)^[W] p)^[set2] 0
  let set2_end := (nxt arr)^[W - 1] set2_start
  let set1_prev := (arr set1_start).prev
  let set1_next := (arr set1_end).next
  let set2_prev := (arr set2_start).prev
  let set2_next := (arr set2_end).next
  if (set1 + 1) % S = set2 then
    let a := set_prev arr set2_start set1_prev
    let a := set_next a set1_prev set2_start
    let a := set_next a set1_end set2_next
    let a := set_prev a set2_next set1_end
    let a := set_next a set2_end set1_start
    set_prev a set1_start set2_end
  else if (set2 + 1) % S = set1 then
    let a := set_prev arr set1_start set2_prev
    let a := set_next a set2_prev set1_start
    let a := set_next a set2_end set1_next
    let a := set_prev a set1_next set2_end
    let a := set_next a set1_end set2_start
    set_prev a set2_start set1_end
  else
    let a := set_prev arr set1_start set2_prev
    let a := set_next a set2_prev set1_start
    let a := set_next a set1_end set2_next
    let a := set_prev a set2_next set1_end
    let a := set_prev a set2_start set1_prev
    let a := set_next a set1_prev set2_start
    let a := set_next a set2_end set1_next
    set_prev a set1_next set2_end

/-! ## `shuffle_linked_list` -/

/-- One call made by `shuffle_linked_list`. -/
inductive Call where
  /-- The call `swap_whole_sets(arr, set1, set2)`. -/
  | sets (set1 set2 : Nat)
  /-- The call `swap_nodes(arr, ind1, ind2)`. -/
  | nodes (ind1 ind2 : Nat)

/-- Executes one call on the array. -/
def Call.run (S W : Nat) (arr : Arr) : Call → Arr
  | Call.sets set1 set2 => swap_whole_sets S W arr set1 set2
  | Call.nodes ind1 ind2 => swap_nodes arr ind1 ind2

/-- The calls `shuffle_linked_list` makes, in order.  `rand k` is the value returned by
the `k`-th call of `rand()` (counted from zero): the first loop draws once per index `i`,
the second loop once per pair `(i, j)`, so iteration `(i, j)` of the second loop is draw
number `(S - 1) + i * (W - 1) + j`. -/
def shuffle_calls (S W : Nat) (rand : Nat → Nat) : List Call :=
  (List.range (S - 1)).map (fun i =>
      let r := rand i % (S - (i + 1)) + i + 1
      Call.sets i r)
  ++ (List.range S).flatMap (fun i =>
      (List.range (W - 1)).map (fun j =>
        let r := rand ((S - 1) + i * (W - 1) + j) % (W - (j + 1)) + j + 1
        Call.nodes (i * W + j) (i * W + r)))

/-- The function `shuffle_linked_list(arr)`: runs its calls from first to last. -/
def shuffle_linked_list (S W : Nat) (rand : Nat → Nat) (arr : Arr) : Arr :=
  (shuffle_calls S W rand).foldl (Call.run S W) arr

/-! ## `init` -/

/-- Body of the linking loop of `init` for index `i`, with `ARRLEN = S * W`. -/
def link_step (S W : Nat) (arr : Arr) (i : Nat) : Arr :=
  let a := if i > 0 then set_prev arr i (i - 1) else set_prev arr i (S * W - 1)
  if i + 1 < S * W then set_next a i (i + 1) else set_next a i 0

/-- The linking loop of `init`: `for (int i = 0; i < ARRLEN; i++)`. -/
def init_link (S W : Nat) (arr : Arr) : Arr :=
  (List.range (S * W)).foldl (link_step S W) arr

/-- The effect of `init()` on the array, started on the freshly allocated (arbitrary)
contents `arr`: link, then shuffle.  The warm-up loop touches no node. -/
def init (S W : Nat) (rand : Nat → Nat) (arr : Arr) : Arr :=
  shuffle_linked_list S W rand (init_link S W arr)

/-! ## Ring predicates -/

/-- The nodes `0 .. n-1` form one doubly linked cycle under `next` and `prev`. -/
structure RingInv (n : Nat) (arr : Arr) : Prop where
  /-- `next` stays inside the array. -/
  next_lt : ∀ x, x < n → (arr x).next < n
  /-- `prev` stays inside the array. -/
  prev_lt : ∀ x, x < n → (arr x).prev < n
  /-- `prev` undoes `next`. -/
  prev_next : ∀ x, x < n → (arr (arr x).next).prev = x
  /-- `next` undoes `prev`. -/
  next_prev : ∀ x, x < n → (arr (arr x).prev).next = x
  /-- Following `next` exactly `n` times returns to the start. -/
  period : ∀ x, x < n → (nxt arr)^[n] x = x
  /-- No smaller positive number of steps returns to the start. -/
  minimal : ∀ x, x < n → ∀ k, 0 < k → k < n → (nxt arr)^[k] x ≠ x
  /-- Every node is reached from every node. -/
  connected : ∀ x, x < n → ∀ y, y < n → ∃ k, k < n ∧ (nxt arr)^[k] x = y

/-- The renaming that exchanges the indices `i` and `j` and keeps every other index. -/
def swapIdx (i j x : Nat) : Nat := if x = i then j else if x = j then i else x

/-- The ring `arr'` is the ring `arr` with every node `x` replaced by `τ x` in the cyclic
order: the successor of `τ x` in `arr'` is `τ` of the successor of `x` in `arr`, and the
same for predecessors.  `τ` is its own inverse on the nodes `0 .. n-1`. -/
structure Renamed (n : Nat) (τ : Nat → Nat) (arr arr' : Arr) : Prop where
  /-- The renaming stays inside the array. -/
  lt : ∀ x, x < n → τ x < n
  /-- The renaming is an involution. -/
  invol : ∀ x, x < n → τ (τ x) = x
  /-- Successors are renamed. -/
  next_eq : ∀ x, x < n → (arr' x).next = τ ((arr (τ x)).next)
  /-- Predecessors are renamed. -/
  prev_eq : ∀ x, x < n → (arr' x).prev = τ ((arr (τ x)).prev)

/-- The renaming that exchanges the nodes of address group `A` with the nodes of address
group `B`, offset by offset, and keeps every other node. -/
def blockSwap (W A B x : Nat) : Nat :=
  if x / W = A then B * W + x % W else if x / W = B then A * W + x % W else x

/-- Inside every address group the `next` links are still the allocation-order links:
a node that is not the last of its group points to the node allocated after it. -/
def Intact (W n : Nat) (arr : Arr) : Prop :=
  ∀ x, x < n → x % W + 1 < W → (arr x).next = x + 1

/-- Two different blocks of an intact ring: `a` and `b` are their first nodes, `p1`, `p2`
the nodes before them and `n1`, `n2` the nodes after their last nodes `a + 7`, `b + 7`. -/
structure BlockPair (arr : Arr) (a b p1 p2 n1 n2 : Nat) : Prop where
  ha8 : a % 8 = 0
  ha : a < 640
  hb8 : b % 8 = 0
  hb : b < 640
  hab : a ≠ b
  hp1 : (arr a).prev = p1
  hp2 : (arr b).prev = p2
  hn1 : (arr (a + 7)).next = n1
  hn2 : (arr (b + 7)).next = n2
  hp1n : (arr p1).next = a
  hp2n : (arr p2).next = b
  hn1p : (arr n1).prev = a + 7
  hn2p : (arr n2).prev = b + 7
  hp18 : p1 % 8 = 7
  hp1lt : p1 < 640
  hp28 : p2 % 8 = 7
  hp2lt : p2 < 640
  hn18 : n1 % 8 = 0
  hn1lt : n1 < 640
  hn28 : n2 % 8 = 0
  hn2lt : n2 < 640
  n1a : n1 ≠ a
  n2b : n2 ≠ b
  n1n2 : n1 ≠ n2
  p1a : p1 ≠ a + 7
  p2b : p2 ≠ b + 7
  p1p2 : p1 ≠ p2

/-- Ring positions counted from the node `s` are split into `S` aligned runs of `W`
positions; run `b` is occupied by nodes of the address group `G b` only, distinct runs hold
distinct groups, every group has a run, and `s` itself belongs to group `0`. -/
structure Layout (S W : Nat) (arr : Arr) (s : Nat) (G : Nat → Nat) : Prop where
  /-- The base node is a node of the array. -/
  base_lt : s < S * W
  /-- Runs are labelled with groups. -/
  group_lt : ∀ b, b < S → G b < S
  /-- Distinct runs carry distinct groups. -/
  inj : ∀ b, b < S → ∀ c, c < S → G b = G c → b = c
  /-- Every group labels a run. -/
  surj : ∀ g, g < S → ∃ b, b < S ∧ G b = g
  /-- The first run is the run of group `0`. -/
  first : G 0 = 0
  /-- Every node of run `b` belongs to group `G b`. -/
  run : ∀ b, b < S → ∀ k, k < W → (nxt arr)^[b * W + k] s / W = G b

/-- The arguments `shuffle_linked_list` passes to `swap_whole_sets`. -/
def SetsCall (c : Call) : Prop := ∃ i r, c = Call.sets i r ∧ i < r ∧ r < 80

/-- The arguments `shuffle_linked_list` passes to `swap_nodes`: two different nodes of
one address group. -/
def NodesCall (c : Call) : Prop :=
  ∃ x y, c = Call.nodes x y ∧ x < 640 ∧ y < 640 ∧ x ≠ y ∧ x / 8 = y / 8

/-! ## `soft_init`, `prime`, `probe`, `measure_once` -/

/-- The function `soft_init()`: `arr[i*W + W-1].time = 0` for `i = 0 .. S-1`. -/
def soft_init (S W : Nat) (arr : Arr) : Arr :=
  (List.range S).foldl (fun a i => set_time a (i * W + W - 1) 0) arr

/-- The loop of `prime()`, `do curr = curr->next; while (curr != arr)`, run for at most
`fuel` iterations from the cursor `curr`.  The result is the cursor on exit together with
the number of iterations made; `none` when the fuel runs out first. -/
def prime_loop (arr : Arr) : Nat → Nat → Nat → Option (Nat × Nat)
  | 0, _, _ => none
  | fuel + 1, curr, steps =>
    let curr' := (arr curr).next
    if curr' ≠ 0 then prime_loop arr fuel curr' (steps + 1) else some (curr', steps + 1)

/-- The function `prime()`: the cursor starts on `arr`.  It writes nothing. -/
def prime (arr : Arr) (fuel : Nat) : Option (Nat × Nat) := prime_loop arr fuel 0 0

/-- State of `probe()` between two iterations of its loop: the array, the cursor `curr`
and the number of cycle-counter reads made so far. -/
structure ProbeState where
  /-- Contents of the array. -/
  arr : Arr
  /-- The cursor `curr`. -/
  curr : Nat
  /-- How many times the cycle counter has been read. -/
  reads : Nat

/-- One iteration of the loop of `probe()`.  `tsc k` is the value returned by the `k`-th
read of the cycle counter, taken as a 64-bit unsigned value; `end - start` is the 64-bit
unsigned difference and the division by `W` is the unsigned integer division. -/
def probe_body (W : Nat) (tsc : Nat → Nat) (st : ProbeState) : ProbeState :=
  let start := tsc st.reads % 2 ^ 64
  let curr := (prv st.arr)^[W - 1] st.curr
  let end_ := tsc (st.reads + 1) % 2 ^ 64
  let arr := set_time st.arr curr ((end_ + 2 ^ 64 - start) % 2 ^ 64 / W)
  { arr := arr, curr := (arr curr).prev, reads := st.reads + 2 }

/-- The loop of `probe()`, `do ... while (curr != arr)`, run for at most `fuel`
iterations; `none` when the fuel runs out first. -/
def probe_loop (W : Nat) (tsc : Nat → Nat) : Nat → ProbeState → Option ProbeState
  | 0, _ => none
  | fuel + 1, st =>
    let st' := probe_body W tsc st
    if st'.curr ≠ 0 then probe_loop W tsc fuel st' else some st'

/-- The function `probe()`: the cursor starts on `arr`; `reads` counter reads were made
before the call. -/
def probe (W : Nat) (tsc : Nat → Nat) (fuel : Nat) (arr : Arr) (reads : Nat) :
    Option ProbeState :=
  probe_loop W tsc fuel { arr := arr, curr := 0, reads := reads }

/-- The function `measure_once(times)`: `prime()`, `probe()`, then the copy loop
`times[i] = arr[i*W + W-1].time`.  The result is the state left by `probe` and the row
`times`. -/
def measure_once (S W : Nat) (tsc : Nat → Nat) (fuel : Nat) (arr : Arr) (reads : Nat) :
    Option (ProbeState × List Nat) :=
  match prime arr fuel with
  | none => none
  | some _ =>
    match probe W tsc fuel arr reads with
    | none => none
    | some st => some (st, (List.range S).map (fun i => (st.arr (i * W + W - 1)).time))

/-- The node on which iteration `k` (counted from zero) of the loop of `probe()` stores its
value when the walk starts on `arr` in the ring `arr`: `8 k + 7` steps of `prev` from
node `0`. -/
def chunk_last (arr : Arr) (k : Nat) : Nat := (prv arr)^[8 * k + 7] 0

/-- The value iteration `k` of the loop of `probe()` stores, for `W = 8`, when `reads`
counter reads were made before the call. -/
def chunk_latency (tsc : Nat → Nat) (reads k : Nat) : Nat :=
  (tsc (reads + 2 * k + 1) % 2 ^ 64 + 2 ^ 64 - tsc (reads + 2 * k) % 2 ^ 64) % 2 ^ 64 / 8

/-- The array with its `time` fields replaced by `tm`; the links are kept. -/
def with_times (arr : Arr) (tm : Nat → Nat) : Arr :=
  fun x => { arr x with time := tm x }

/-! ## Double-precision arithmetic

A `double` is modelled by the rational number it denotes, and the arithmetic is that of
IEEE 754 binary64 in the default rounding mode: every operation computes the exact
rational result and rounds it to the nearest number with a 53-bit significand, ties to the
even significand.  The exponent range is not bounded: in `calc_mean_var` every
intermediate value is `0` or has a magnitude between `2^-124` and `2^138`, far inside the
range of normal doubles, so neither overflow nor gradual underflow occurs.  The library
call `pow(x, 2)` is taken to return the correctly rounded square. -/

/-- Nearest integer, ties to the even neighbour. -/
def round_even (q : ℚ) : ℤ :=
  if q - ⌊q⌋ < 1 / 2 then ⌊q⌋
  else if 1 / 2 < q - ⌊q⌋ then ⌊q⌋ + 1
  else if ⌊q⌋ % 2 = 0 then ⌊q⌋ else ⌊q⌋ + 1

/-- Rounding of an exact result to `double`: the significand `q / 2^e` is scaled into
`[2^52, 2^53)` and rounded to an integer. -/
def to_double (q : ℚ) : ℚ :=
  if q = 0 then 0
  else (round_even (q / (2 : ℚ) ^ (Int.log 2 |q| - 52)) : ℚ) * (2 : ℚ) ^ (Int.log 2 |q| - 52)

/-- Conversion `(double) x` of a `uint64_t`. -/
def of_u64 (x : Nat) : ℚ := to_double (x : ℚ)

/-- Addition of doubles. -/
def fadd (x y : ℚ) : ℚ := to_double (x + y)

/-- Subtraction of doubles. -/
def fsub (x y : ℚ) : ℚ := to_double (x - y)

/-- Division of doubles. -/
def fdiv (x y : ℚ) : ℚ := to_double (x / y)

/-- The call `pow(x, 2)`: the square, correctly rounded. -/
def fpow2 (x : ℚ) : ℚ := to_double (x * x)

/-! ## `uint64_t_cmp`, `qsort`, `calc_mean_var` -/

/-- Conversion of a signed 64-bit value to `int`: reduction modulo `2^32` into
`[-2^31, 2^31)`. -/
def to_int32 (z : Int) : Int := (z + 2 ^ 31) % 2 ^ 32 - 2 ^ 31

/-- The comparator `uint64_t_cmp(a, b)`.  Its arguments are pointers to `uint64_t`
elements, given here by the positions `a`, `b` of the elements they point to (in units of
one element); the result is the pointer difference `a - b` converted to `int`.  The values
stored at `a` and `b` are not read. -/
def uint64_t_cmp (a b : Nat) : Int := to_int32 ((a : Int) - (b : Int))

/-- Exchange of the elements at positions `i` and `j` of an array. -/
def swap_elems (l : List Nat) (i j : Nat) : List Nat :=
  (l.set i (l.getD j 0)).set j (l.getD i 0)

/-- Inner loop of the sorting routine: the element at position `j` moves down while the
comparator, called on the array contents and the positions of the two neighbours, reports
them out of order. -/
def qsort_sink (compar : List Nat → Nat → Nat → Int) : Nat → List Nat → List Nat
  | 0, l => l
  | j + 1, l =>
    if compar l j (j + 1) > 0 then qsort_sink compar j (swap_elems l j (j + 1)) else l

/-- The C library routine `qsort(base, nmemb, sizeof(uint64_t), compar)`, which is not part
of the repository, as an in-place insertion sort.  Like the library routine it learns
about the order only through `compar`, which it calls with the addresses (here: the
positions) of two elements of the array; a comparator may read the elements through the
array contents it is handed. -/
def qsort (base : List Nat) (nmemb : Nat) (compar : List Nat → Nat → Nat → Int) : List Nat :=
  (List.range nmemb).foldl (fun l i => qsort_sink compar i l) base

/-- Column `i` of the matrix after the sorting loop of `calc_mean_var`:
`sorted_times[i][j] = all_times[j][i]` for `j < NUM_MEASUREMENTS`, then `qsort` with
`uint64_t_cmp`.  Entries are `uint64_t` values. -/
def sorted_times (all_times : Nat → Nat → Nat) (i : Nat) : List Nat :=
  qsort ((List.range Config.NUM_MEASUREMENTS).map (fun j => all_times j i % 2 ^ 64))
    Config.NUM_MEASUREMENTS (fun _ a b => uint64_t_cmp a b)

/-- The value `E_arr[i]` computed by `calc_mean_var`: the accumulation loop over
`j < NUM_MEASUREMENTS - NUM_OUTLIERS`, then the division. -/
def E_arr (all_times : Nat → Nat → Nat) (i : Nat) : ℚ :=
  fdiv
    ((List.range (Config.NUM_MEASUREMENTS - Config.NUM_OUTLIERS)).foldl
      (fun acc j => fadd acc (of_u64 ((sorted_times all_times i).getD j 0))) 0)
    ((Config.NUM_MEASUREMENTS - Config.NUM_OUTLIERS : Nat) : ℚ)

/-- The value `V_arr[i]` computed by `calc_mean_var`: the accumulation loop of
`pow((double)(sorted_times[i][j] - E_arr[i]), 2)`, then the division. -/
def V_arr (all_times : Nat → Nat → Nat) (i : Nat) : ℚ :=
  fdiv
    ((List.range (Config.NUM_MEASUREMENTS - Config.NUM_OUTLIERS)).foldl
      (fun acc j =>
        fadd acc (fpow2 (fsub (of_u64 ((sorted_times all_times i).getD j 0))
          (E_arr all_times i)))) 0)
    ((Config.NUM_MEASUREMENTS - Config.NUM_OUTLIERS : Nat) : ℚ)

/-- The function `calc_mean_var(E_arr, V_arr, all_times)`: the pair of output arrays. -/
def calc_mean_var (all_times : Nat → Nat → Nat) : (Nat → ℚ) × (Nat → ℚ) :=
  (E_arr all_times, V_arr all_times)

/-- The values `calc_mean_var` retains for column `i`: the first
`NUM_MEASUREMENTS - NUM_OUTLIERS` entries of the column as the sorting step left it. -/
def retained (all_times : Nat → Nat → Nat) (i : Nat) : List Nat :=
  (sorted_times all_times i).take (Config.NUM_MEASUREMENTS - Config.NUM_OUTLIERS)

/-- Arithmetic mean of a list of `uint64_t` values as a `double` computation: the values
are converted and added up from first to last, the sum is divided by their number. -/
def mean_of (xs : List Nat) : ℚ :=
  fdiv (xs.foldl (fun acc x => fadd acc (of_u64 x)) 0) (xs.length : ℚ)

/-- Population variance of a list of `uint64_t` values around `mean` as a `double`
computation: the squared deviations are added up from first to last and the sum is
divided by the number of values (not by that number minus one). -/
def population_variance_of (xs : List Nat) (mean : ℚ) : ℚ :=
  fdiv (xs.foldl (fun acc x => fadd acc (fpow2 (fsub (of_u64 x) mean))) 0) (xs.length : ℚ)

/-- Arithmetic mean of a list of values in exact rational arithmetic. -/
def exact_mean (xs : List Nat) : ℚ :=
  (xs.map (fun (x : Nat) => (x : ℚ))).sum / (xs.length : ℚ)

/-- Population variance of a list of values in exact rational arithmetic: the sum of the
squared deviations from the exact mean, divided by the number of values. -/
def exact_population_variance (xs : List Nat) : ℚ :=
  (xs.map (fun (x : Nat) => ((x : ℚ) - exact_mean xs) ^ 2)).sum / (xs.length : ℚ)

/-- A ring of two nodes, `0 <-> 1`, every `time` field zero. -/
def ring2 : Arr := fun x => if x = 0 then ⟨1, 1, 0⟩ else ⟨0, 0, 0⟩

/-- Freshly allocated memory with every field zero. -/
def zero_mem : Arr := fun _ => ⟨0, 0, 0⟩

/-- Cycle counter that advances by `80` between two reads. -/
def steady_tsc (k : Nat) : Nat := 80 * k

/-- Cycle counter that reads `0` first and `56` from then on. -/
def pulse_tsc (k : Nat) : Nat := if k = 0 then 0 else 56

/-- The matrix whose every column holds `14` in rows `0 .. 199` and `10` in rows
`200 .. 999`. -/
def outliers_first (j _i : Nat) : Nat := if j < 200 then 14 else 10

/-- Calls of the pass inside the groups that touch no node of group `0`. -/
def HighNodesCall (c : Call) : Prop :=
  ∃ x y, c = Call.nodes x y ∧ 8 ≤ x ∧ x < 640 ∧ 8 ≤ y ∧ y < 640 ∧ x ≠ y

/-! ## `init` and the pointer returned by the allocator -/

/-- The ring `a` is the ring `c` with every node `t` replaced by the node `σ t`: the
successor of `σ t` in `a` is `σ` of the successor of `t` in `c`, and the same for
predecessors. -/
def Renumbered (n : Nat) (σ : Nat → Nat) (a c : Arr) : Prop :=
  ∀ t, t < n → (a (σ t)).next = σ ((c t).next) ∧ (a (σ t)).prev = σ ((c t).prev)

/-! ## The draws of `shuffle_linked_list` -/

/-- The index drawn in the group-level pass at step `i`, `rand() % (S - (i+1)) + i+1`,
for the `rand()` output `v`.  All operands are non-negative `int`s below `2^31`. -/
def set_draw (S i v : Nat) : Nat := v % (S - (i + 1)) + i + 1

/-- The index drawn in the pass inside the groups at local position `j`,
`rand() % (W - (j+1)) + j+1`, for the `rand()` output `v`. -/
def line_draw (W j v : Nat) : Nat := v % (W - (j + 1)) + j + 1

/-! ## The measurement loop of `main` -/

/-- State of `main` between two rounds of its measurement loop: the array, the number of
cycle-counter reads made so far, and the rows of `all_times` filled so far. -/
structure MainState where
  /-- Contents of the array. -/
  arr : Arr
  /-- How many times the cycle counter has been read. -/
  reads : Nat
  /-- The rows `all_times[0]`, `all_times[1]`, ... filled so far. -/
  all_times : List (List Nat)

/-- One round of the loop of `main`: `soft_init(); measure_once(all_times[i]);`. -/
def main_round (S W : Nat) (tsc : Nat → Nat) (fuel : Nat) (ms : MainState) :
    Option MainState :=
  match measure_once S W tsc fuel (soft_init S W ms.arr) ms.reads with
  | none => none
  | some (st, times) =>
    some { arr := st.arr, reads := st.reads, all_times := ms.all_times ++ [times] }

/-- The loop `for (i = 0; i < n; i++) { soft_init(); measure_once(all_times[i]); }` of
`main`; `none` when a call runs out of fuel. -/
def main_loop (S W : Nat) (tsc : Nat → Nat) (fuel : Nat) : Nat → MainState → Option MainState
  | 0, ms => some ms
  | n + 1, ms =>
    match main_round S W tsc fuel ms with
    | none => none
    | some ms' => main_loop S W tsc fuel n ms'

/-- A row copied in a round that started with `reads` counter reads made, on a ring with
the links of `ring`: it has `80` entries, and entry `i`, read from node `arr[i*8 + 7]`, is
the latency stored in this round by the chunk of `probe` that ends on that node, or `0`
when no chunk ends there. -/
def RowOfRound (ring : Arr) (tsc : Nat → Nat) (reads : Nat) (row : List Nat) : Prop :=
  row.length = 80 ∧
  ∀ i, i < 80 →
    (row[i]? = some 0 ∧ ∀ k, k < 80 → chunk_last ring k ≠ i * 8 + 7) ∨
    (∃ k, k < 80 ∧ chunk_last ring k = i * 8 + 7 ∧
      row[i]? = some (chunk_latency tsc reads k))

/-- A column of two values, the larger one first. -/
def two_values : List Nat := [5, 3]

/-! # Lemmas and theorems -/

/-! ## Field access after an assignment -/

@[simp] theorem set_prev_prev (arr : Arr) (p v x : Nat) :
    (set_prev arr p v x).prev = if x = p then v else (arr x).prev := by
  unfold set_prev
  by_cases h : x = p
  · subst h; simp
  · simp [Function.update_noteq h, h]

@[simp] theorem set_prev_next (arr : Arr) (p v x : Nat) :
    (set_prev arr p v x).next = (arr x).next := by
  unfold set_prev
  by_cases h : x = p
  · subst h; simp
  · simp [Function.update_noteq h]

@[simp] theorem set_prev_time (arr : Arr) (p v x : Nat) :
    (set_prev arr p v x).time = (arr x).time := by
  unfold set_prev
  by_cases h : x = p
  · subst h; simp
  · simp [Function.update_noteq h]

@[simp] theorem set_next_next (arr : Arr) (p v x : Nat) :
    (set_next arr p v x).next = if x = p then v else (arr x).next := by
  unfold set_next
  by_cases h : x = p
  · subst h; simp
  · simp [Function.update_noteq h, h]

@[simp] theorem set_next_prev (arr : Arr) (p v x : Nat) :
    (set_next arr p v x).prev = (arr x).prev := by
  unfold set_next
  by_cases h : x = p
  · subst h; simp
  · simp [Function.update_noteq h]

@[simp] theorem set_next_time (arr : Arr) (p v x : Nat) :
    (set_next arr p v x).time = (arr x).time := by
  unfold set_next
  by_cases h : x = p
  · subst h; simp
  · simp [Function.update_noteq h]

@[simp] theorem set_time_time (arr : Arr) (p v x : Nat) :
    (set_time arr p v x).time = if x = p then v else (arr x).time := by
  unfold set_time
  by_cases h : x = p
  · subst h; simp
  · simp [Function.update_noteq h, h]

@[simp] theorem set_time_prev (arr : Arr) (p v x : Nat) :
    (set_time arr p v x).prev = (arr x).prev := by
  unfold set_time
  by_cases h : x = p
  · subst h; simp
  · simp [Function.update_noteq h]

@[simp] theorem set_time_next (arr : Arr) (p v x : Nat) :
    (set_time arr p v x).next = (arr x).next := by
  unfold set_time
  by_cases h : x = p
  · subst h; simp
  · simp [Function.update_noteq h]

/-! ## The linking loop -/

theorem link_step_next (S W : Nat) (arr : Arr) (i x : Nat) :
    (link_step S W arr i x).next =
      if x = i then (if i + 1 < S * W then i + 1 else 0) else (arr x).next := by
  unfold link_step
  by_cases h1 : i + 1 < S * W <;> by_cases h2 : i > 0 <;> by_cases h3 : x = i <;> simp [h1, h2, h3]

theorem link_step_prev (S W : Nat) (arr : Arr) (i x : Nat) :
    (link_step S W arr i x).prev =
      if x = i then (if i > 0 then i - 1 else S * W - 1) else (arr x).prev := by
  unfold link_step
  by_cases h1 : i + 1 < S * W <;> by_cases h2 : i > 0 <;> by_cases h3 : x = i <;> simp [h1, h2, h3]

theorem link_step_time (S W : Nat) (arr : Arr) (i x : Nat) :
    (link_step S W arr i x).time = (arr x).time := by
  unfold link_step
  by_cases h1 : i + 1 < S * W <;> by_cases h2 : i > 0 <;> simp [h1, h2]

/-- State of the array after the first `k` iterations of the linking loop. -/
theorem link_loop_upto (S W : Nat) (arr : Arr) (k x : Nat) :
    (((List.range k).foldl (link_step S W) arr) x).next =
        (if x < k then (if x + 1 < S * W then x + 1 else 0) else (arr x).next) ∧
    (((List.range k).foldl (link_step S W) arr) x).prev =
        (if x < k then (if x > 0 then x - 1 else S * W - 1) else (arr x).prev) ∧
    (((List.range k).foldl (link_step S W) arr) x).time = (arr x).time := by
  induction k with
  | zero => simp
  | succ k ih =>
    rw [List.range_succ, List.foldl_append]
    simp only [List.foldl_cons, List.foldl_nil]
    rw [link_step_next, link_step_prev, link_step_time]
    obtain ⟨h1, h2, h3⟩ := ih
    rw [h1, h2, h3]
    refine ⟨?_, ?_, rfl⟩
    · by_cases hx : x = k
      · subst hx; simp
      · by_cases hlt : x < k
        · have : x < k + 1 := by omega
          simp [hx, hlt, this]
        · have : ¬ x < k + 1 := by omega
          simp [hx, hlt, this]
    · by_cases hx : x = k
      · subst hx; simp
      · by_cases hlt : x < k
        · have : x < k + 1 := by omega
          simp [hx, hlt, this]
        · have : ¬ x < k + 1 := by omega
          simp [hx, hlt, this]

theorem init_link_next (S W : Nat) (arr : Arr) (x : Nat) (hx : x < S * W) :
    (init_link S W arr x).next = (x + 1) % (S * W) := by
  unfold init_link
  rw [(link_loop_upto S W arr (S * W) x).1]
  simp only [hx, if_true]
  by_cases h : x + 1 < S * W
  · simp [h, Nat.mod_eq_of_lt h]
  · have : x + 1 = S * W := by omega
    simp [this]

theorem init_link_prev (S W : Nat) (arr : Arr) (x : Nat) (hx : x < S * W) :
    (init_link S W arr x).prev = (x + (S * W - 1)) % (S * W) := by
  unfold init_link
  rw [(link_loop_upto S W arr (S * W) x).2.1]
  simp only [hx, if_true]
  by_cases h : x > 0
  · simp only [h, if_true]
    have : x + (S * W - 1) = (x - 1) + S * W := by omega
    rw [this, Nat.add_mod_right, Nat.mod_eq_of_lt (by omega)]
  · have : x = 0 := by omega
    subst this
    simp only [gt_iff_lt, lt_self_iff_false, if_false, Nat.zero_add]
    rw [Nat.mod_eq_of_lt (by omega)]

theorem init_link_time (S W : Nat) (arr : Arr) (x : Nat) :
    (init_link S W arr x).time = (arr x).time := by
  unfold init_link
  exact (link_loop_upto S W arr (S * W) x).2.2

/-- On the freshly linked ring, `k` steps of `next` from node `x` lead to `(x + k) mod N`. -/
theorem init_link_iterate (S W : Nat) (arr : Arr) (k x : Nat) (hx : x < S * W) :
    (nxt (init_link S W arr))^[k] x = (x + k) % (S * W) := by
  induction k with
  | zero => simp [Nat.mod_eq_of_lt hx]
  | succ k ih =>
    rw [Function.iterate_succ_apply', ih]
    unfold nxt
    rw [init_link_next S W arr _ (Nat.mod_lt _ (by omega))]
    rw [Nat.mod_add_mod, Nat.add_assoc]

theorem ringInv_init_link (S W : Nat) (arr : Arr) : RingInv (S * W) (init_link S W arr) := by
  refine ⟨?_, ?_, ?_, ?_, ?_, ?_, ?_⟩
  · intro x hx
    rw [init_link_next S W arr x hx]
    exact Nat.mod_lt _ (by omega)
  · intro x hx
    rw [init_link_prev S W arr x hx]
    exact Nat.mod_lt _ (by omega)
  · intro x hx
    rw [init_link_next S W arr x hx, init_link_prev S W arr _ (Nat.mod_lt _ (by omega))]
    rw [Nat.mod_add_mod]
    have : x + 1 + (S * W - 1) = x + S * W := by omega
    rw [this, Nat.add_mod_right, Nat.mod_eq_of_lt hx]
  · intro x hx
    rw [init_link_prev S W arr x hx, init_link_next S W arr _ (Nat.mod_lt _ (by omega))]
    rw [Nat.mod_add_mod]
    have : x + (S * W - 1) + 1 = x + S * W := by omega
    rw [this, Nat.add_mod_right, Nat.mod_eq_of_lt hx]
  · intro x hx
    rw [init_link_iterate S W arr _ x hx, Nat.add_mod_right, Nat.mod_eq_of_lt hx]
  · intro x hx k hk0 hkn
    rw [init_link_iterate S W arr _ x hx]
    intro h
    by_cases hc : x + k < S * W
    · rw [Nat.mod_eq_of_lt hc] at h; omega
    · have e : x + k = (x + k - S * W) + S * W := by omega
      rw [e, Nat.add_mod_right, Nat.mod_eq_of_lt (by omega)] at h
      omega
  · intro x hx y hy
    refine ⟨(y + (S * W - x)) % (S * W), Nat.mod_lt _ (by omega), ?_⟩
    rw [init_link_iterate S W arr _ x hx, Nat.add_mod_mod]
    have : x + (y + (S * W - x)) = y + S * W := by omega
    rw [this, Nat.add_mod_right, Nat.mod_eq_of_lt hy]

/-! ## Rings -/

theorem RingInv.iterate_lt {n : Nat} {arr : Arr} (h : RingInv n arr) (k x : Nat) (hx : x < n) :
    (nxt arr)^[k] x < n := by
  induction k with
  | zero => simpa using hx
  | succ k ih =>
    rw [Function.iterate_succ_apply']
    exact h.next_lt _ ih

theorem RingInv.prv_iterate_lt {n : Nat} {arr : Arr} (h : RingInv n arr) (k x : Nat)
    (hx : x < n) : (prv arr)^[k] x < n := by
  induction k with
  | zero => simpa using hx
  | succ k ih =>
    rw [Function.iterate_succ_apply']
    exact h.prev_lt _ ih

theorem RingInv.next_inj {n : Nat} {arr : Arr} (h : RingInv n arr) {x y : Nat} (hx : x < n)
    (hy : y < n) (e : (arr x).next = (arr y).next) : x = y := by
  rw [← h.prev_next x hx, ← h.prev_next y hy, e]

theorem RingInv.prev_inj {n : Nat} {arr : Arr} (h : RingInv n arr) {x y : Nat} (hx : x < n)
    (hy : y < n) (e : (arr x).prev = (arr y).prev) : x = y := by
  rw [← h.next_prev x hx, ← h.next_prev y hy, e]

theorem RingInv.next_eq_iff {n : Nat} {arr : Arr} (h : RingInv n arr) {x y : Nat} (hx : x < n)
    (hy : y < n) : (arr x).next = y ↔ x = (arr y).prev := by
  constructor
  · intro e; rw [← e, h.prev_next x hx]
  · intro e; rw [e, h.next_prev y hy]

theorem RingInv.prev_eq_iff {n : Nat} {arr : Arr} (h : RingInv n arr) {x y : Nat} (hx : x < n)
    (hy : y < n) : (arr x).prev = y ↔ x = (arr y).next := by
  constructor
  · intro e; rw [← e, h.next_prev x hx]
  · intro e; rw [e, h.prev_next y hy]

theorem RingInv.next_ne_self {n : Nat} {arr : Arr} (h : RingInv n arr) (hn : 2 ≤ n) {x : Nat}
    (hx : x < n) : (arr x).next ≠ x := by
  have := h.minimal x hx 1 (by omega) (by omega)
  simpa [nxt] using this

theorem RingInv.prev_ne_self {n : Nat} {arr : Arr} (h : RingInv n arr) (hn : 2 ≤ n) {x : Nat}
    (hx : x < n) : (arr x).prev ≠ x := by
  intro e
  have := h.next_prev x hx
  rw [e] at this
  exact h.next_ne_self hn hx this

theorem RingInv.next_next_ne_self {n : Nat} {arr : Arr} (h : RingInv n arr) (hn : 3 ≤ n)
    {x : Nat} (hx : x < n) : (arr (arr x).next).next ≠ x := by
  have := h.minimal x hx 2 (by omega) (by omega)
  simpa [nxt] using this

/-- Steps with `prev` undo steps with `next`. -/
theorem RingInv.prv_iterate_nxt_iterate {n : Nat} {arr : Arr} (h : RingInv n arr) (k x : Nat)
    (hx : x < n) : (prv arr)^[k] ((nxt arr)^[k] x) = x := by
  induction k generalizing x with
  | zero => rfl
  | succ k ih =>
    rw [Function.iterate_succ_apply (prv arr), Function.iterate_succ_apply' (nxt arr)]
    have : prv arr (nxt arr ((nxt arr)^[k] x)) = (nxt arr)^[k] x :=
      h.prev_next _ (h.iterate_lt k x hx)
    rw [this]
    exact ih x hx

theorem RingInv.nxt_iterate_prv_iterate {n : Nat} {arr : Arr} (h : RingInv n arr) (k x : Nat)
    (hx : x < n) : (nxt arr)^[k] ((prv arr)^[k] x) = x := by
  induction k generalizing x with
  | zero => rfl
  | succ k ih =>
    rw [Function.iterate_succ_apply (nxt arr), Function.iterate_succ_apply' (prv arr)]
    have : nxt arr (prv arr ((prv arr)^[k] x)) = (prv arr)^[k] x :=
      h.next_prev _ (h.prv_iterate_lt k x hx)
    rw [this]
    exact ih x hx

/-- Stepping is periodic with period `n`. -/
theorem RingInv.iterate_mod {n : Nat} {arr : Arr} (h : RingInv n arr) (k x : Nat) (hx : x < n) :
    (nxt arr)^[k] x = (nxt arr)^[k % n] x := by
  induction k using Nat.strong_induction_on with
  | _ k ih =>
    by_cases hk : k < n
    · rw [Nat.mod_eq_of_lt hk]
    · have e : k = (k - n) + n := by omega
      have hn : 0 < n := by omega
      rw [e, Function.iterate_add_apply, h.period x hx, Nat.add_mod_right]
      exact ih (k - n) (by omega)

/-- Two step counts lead from `x` to the same node exactly when they agree modulo `n`. -/
theorem RingInv.iterate_eq_iff {n : Nat} {arr : Arr} (h : RingInv n arr) (a b x : Nat)
    (hx : x < n) : (nxt arr)^[a] x = (nxt arr)^[b] x ↔ a % n = b % n := by
  have key : ∀ a b, a < n → b < n → a ≤ b → (nxt arr)^[a] x = (nxt arr)^[b] x → a = b := by
    intro a b _ hb hab e
    by_contra hne
    have e2 : b = (b - a) + a := by omega
    rw [e2, Function.iterate_add_apply] at e
    exact h.minimal _ (h.iterate_lt a x hx) (b - a) (by omega) (by omega) e.symm
  have hn : 0 < n := by omega
  constructor
  · intro e
    rw [h.iterate_mod a x hx, h.iterate_mod b x hx] at e
    rcases Nat.le_total (a % n) (b % n) with hab | hab
    · exact key _ _ (Nat.mod_lt _ hn) (Nat.mod_lt _ hn) hab e
    · exact (key _ _ (Nat.mod_lt _ hn) (Nat.mod_lt _ hn) hab e.symm).symm
  · intro e
    rw [h.iterate_mod a x hx, h.iterate_mod b x hx, e]

/-- Backward steps expressed as forward steps. -/
theorem RingInv.prv_iterate_eq {n : Nat} {arr : Arr} (h : RingInv n arr) (k x : Nat)
    (hx : x < n) (hk : k ≤ n) : (prv arr)^[k] x = (nxt arr)^[n - k] x := by
  have h1 : (nxt arr)^[k] ((nxt arr)^[n - k] x) = x := by
    rw [← Function.iterate_add_apply]
    have : k + (n - k) = n := by omega
    rw [this, h.period x hx]
  have h2 := h.prv_iterate_nxt_iterate k ((nxt arr)^[n - k] x) (h.iterate_lt _ x hx)
  rw [h1] at h2
  exact h2

/-! ## Renaming the nodes of a ring -/

theorem Renamed.iterate {n : Nat} {τ : Nat → Nat} {arr arr' : Arr} (h : RingInv n arr)
    (c : Renamed n τ arr arr') (k x : Nat) (hx : x < n) :
    (nxt arr')^[k] x = τ ((nxt arr)^[k] (τ x)) := by
  induction k with
  | zero => simp [c.invol x hx]
  | succ k ih =>
    rw [Function.iterate_succ_apply', Function.iterate_succ_apply', ih]
    have hlt : (nxt arr)^[k] (τ x) < n := h.iterate_lt k _ (c.lt x hx)
    show (arr' _).next = τ ((arr _).next)
    rw [c.next_eq _ (c.lt _ hlt), c.invol _ hlt]

/-- Renaming the nodes of a single cycle gives a single cycle. -/
theorem Renamed.ringInv {n : Nat} {τ : Nat → Nat} {arr arr' : Arr} (h : RingInv n arr)
    (c : Renamed n τ arr arr') : RingInv n arr' := by
  refine ⟨?_, ?_, ?_, ?_, ?_, ?_, ?_⟩
  · intro x hx
    rw [c.next_eq x hx]
    exact c.lt _ (h.next_lt _ (c.lt x hx))
  · intro x hx
    rw [c.prev_eq x hx]
    exact c.lt _ (h.prev_lt _ (c.lt x hx))
  · intro x hx
    have h1 : (arr (τ x)).next < n := h.next_lt _ (c.lt x hx)
    rw [c.next_eq x hx, c.prev_eq _ (c.lt _ h1), c.invol _ h1, h.prev_next _ (c.lt x hx),
      c.invol x hx]
  · intro x hx
    have h1 : (arr (τ x)).prev < n := h.prev_lt _ (c.lt x hx)
    rw [c.prev_eq x hx, c.next_eq _ (c.lt _ h1), c.invol _ h1, h.next_prev _ (c.lt x hx),
      c.invol x hx]
  · intro x hx
    rw [c.iterate h n x hx, h.period _ (c.lt x hx), c.invol x hx]
  · intro x hx k hk0 hkn e
    rw [c.iterate h k x hx] at e
    have := congrArg τ e
    rw [c.invol _ (h.iterate_lt k _ (c.lt x hx))] at this
    exact h.minimal _ (c.lt x hx) k hk0 hkn this
  · intro x hx y hy
    obtain ⟨k, hk, e⟩ := h.connected _ (c.lt x hx) _ (c.lt y hy)
    exact ⟨k, hk, by rw [c.iterate h k x hx, e, c.invol y hy]⟩

theorem swapIdx_lt {n i j x : Nat} (hi : i < n) (hj : j < n) (hx : x < n) :
    swapIdx i j x < n := by
  unfold swapIdx
  split_ifs <;> assumption

theorem swapIdx_invol (i j x : Nat) : swapIdx i j (swapIdx i j x) = x := by
  unfold swapIdx
  by_cases h1 : x = i
  · subst h1
    by_cases h2 : j = x <;> simp [h2]
  · by_cases h2 : x = j
    · subst h2; simp [h1]
    · simp [h1, h2]

/-! ## `swap_nodes` renames the ring -/

theorem swap_nodes_renamed {n : Nat} {arr : Arr} (h : RingInv n arr) (hn : 3 ≤ n) {i j : Nat}
    (hi : i < n) (hj : j < n) (hij : i ≠ j) :
    Renamed n (swapIdx i j) arr (swap_nodes arr i j) := by
  have hn2 : 2 ≤ n := by omega
  have hNi := h.next_ne_self hn2 hi
  have hNj := h.next_ne_self hn2 hj
  have hPi := h.prev_ne_self hn2 hi
  have hPj := h.prev_ne_self hn2 hj
  have hNNi := h.next_next_ne_self hn hi
  have hNNj := h.next_next_ne_self hn hj
  have hni : ∀ x, x < n → ((arr x).next = i ↔ x = (arr i).prev) := fun x hx => h.next_eq_iff hx hi
  have hnj : ∀ x, x < n → ((arr x).next = j ↔ x = (arr j).prev) := fun x hx => h.next_eq_iff hx hj
  have hpi : ∀ x, x < n → ((arr x).prev = i ↔ x = (arr i).next) := fun x hx => h.prev_eq_iff hx hi
  have hpj : ∀ x, x < n → ((arr x).prev = j ↔ x = (arr j).next) := fun x hx => h.prev_eq_iff hx hj
  refine ⟨fun x hx => swapIdx_lt hi hj hx, fun x _ => swapIdx_invol i j x, ?_, ?_⟩
  · intro x hx
    by_cases c1 : (arr i).next = j
    · have hP2 : (arr j).prev = i := by rw [← c1, h.prev_next i hi]
      have hN2i : (arr j).next ≠ i := by rw [← c1]; exact hNNi
      have hP1j : (arr i).prev ≠ j := by
        intro e; apply hN2i; rw [← e, h.next_prev i hi]
      simp only [swap_nodes, c1, if_true, set_next_next, set_prev_next]
      by_cases hxj : x = j
      · subst hxj
        simp [swapIdx, c1, hij, Ne.symm hij]
      · by_cases hxp : x = (arr i).prev
        · subst hxp
          simp [swapIdx, hxj, hPi, h.next_prev i hi, hij]
        · by_cases hxi : x = i
          · subst hxi
            simp [swapIdx, hij, hN2i, hNj, Ne.symm hPi, Ne.symm hNi]
          · have e1 : (arr x).next ≠ x ∨ True := Or.inr trivial
            have a1 : (arr x).next ≠ i := fun e => hxp ((hni x hx).1 e)
            have a2 : (arr x).next ≠ j := fun e => hxi (by rw [(hnj x hx).1 e, hP2])
            simp [swapIdx, hxj, hxp, hxi, a1, a2]
    · by_cases c2 : (arr j).next = i
      · have hP1 : (arr i).prev = j := by rw [← c2, h.prev_next j hj]
        have hN1j : (arr i).next ≠ j := c1
        have hP2i : (arr j).prev ≠ i := by
          intro e; apply hN1j; rw [← e, h.next_prev j hj]
        simp only [swap_nodes, c1, c2, if_true, if_false, set_next_next, set_prev_next]
        by_cases hxi : x = i
        · subst hxi
          simp [swapIdx, c2, hij, Ne.symm hij]
        · by_cases hxp : x = (arr j).prev
          · subst hxp
            simp [swapIdx, hxi, hPj, h.next_prev j hj, hij, Ne.symm hij]
          · by_cases hxj : x = j
            · subst hxj
              simp [swapIdx, hij, Ne.symm hij, hN1j, hNi, Ne.symm hPj, Ne.symm hNj]
            · have a1 : (arr x).next ≠ j := fun e => hxp ((hnj x hx).1 e)
              have a2 : (arr x).next ≠ i := fun e => hxj (by rw [(hni x hx).1 e, hP1])
              simp [swapIdx, hxj, hxp, hxi, a1, a2]
      · have hP1j : (arr i).prev ≠ j := by
          intro e; apply c2; rw [← e, h.next_prev i hi]
        have hP2i : (arr j).prev ≠ i := by
          intro e; apply c1; rw [← e, h.next_prev j hj]
        have hPP : (arr i).prev ≠ (arr j).prev := fun e => hij (h.prev_inj hi hj e)
        simp only [swap_nodes, c1, c2, if_false, set_next_next, set_prev_next]
        by_cases hxp1 : x = (arr i).prev
        · subst hxp1
          simp [swapIdx, hPi, hP1j, h.next_prev i hi, hij]
        · by_cases hxj : x = j
          · subst hxj
            simp [swapIdx, hij, Ne.symm hij, c1, hNi, hxp1]
          · by_cases hxp2 : x = (arr j).prev
            · subst hxp2
              simp [swapIdx, hPj, hP2i, h.next_prev j hj, hij, Ne.symm hij, hxp1, hxj]
            · by_cases hxi : x = i
              · subst hxi
                simp [swapIdx, hij, Ne.symm hij, c2, hNj, hxp1, hxp2]
              · have a1 : (arr x).next ≠ i := fun e => hxp1 ((hni x hx).1 e)
                have a2 : (arr x).next ≠ j := fun e => hxp2 ((hnj x hx).1 e)
                simp [swapIdx, hxj, hxp1, hxp2, hxi, a1, a2]
  · intro x hx
    by_cases c1 : (arr i).next = j
    · have hP2 : (arr j).prev = i := by rw [← c1, h.prev_next i hi]
      have hN2i : (arr j).next ≠ i := by rw [← c1]; exact hNNi
      have hP1j : (arr i).prev ≠ j := by
        intro e; apply hN2i; rw [← e, h.next_prev i hi]
      simp only [swap_nodes, c1, if_true, set_next_prev, set_prev_prev]
      by_cases hxi : x = i
      · subst hxi
        simp [swapIdx, hP2, hij, Ne.symm hij]
      · by_cases hxj : x = j
        · subst hxj
          simp [swapIdx, hxi, hPi, hP1j, hij, Ne.symm hij]
        · by_cases hxn : x = (arr j).next
          · subst hxn
            simp [swapIdx, hxi, hxj, h.prev_next j hj, hij, Ne.symm hij]
          · have a1 : (arr x).prev ≠ i := fun e => hxj (by rw [(hpi x hx).1 e, c1])
            have a2 : (arr x).prev ≠ j := fun e => hxn ((hpj x hx).1 e)
            simp [swapIdx, hxj, hxn, hxi, a1, a2]
    · by_cases c2 : (arr j).next = i
      · have hP1 : (arr i).prev = j := by rw [← c2, h.prev_next j hj]
        have hN1j : (arr i).next ≠ j := c1
        have hP2i : (arr j).prev ≠ i := by
          intro e; apply hN1j; rw [← e, h.next_prev j hj]
        simp only [swap_nodes, c1, c2, if_true, if_false, set_next_prev, set_prev_prev]
        by_cases hxj : x = j
        · subst hxj
          simp [swapIdx, hP1, hij, Ne.symm hij]
        · by_cases hxi : x = i
          · subst hxi
            simp [swapIdx, hxj, hPj, hP2i, hij, Ne.symm hij]
          · by_cases hxn : x = (arr i).next
            · subst hxn
              simp [swapIdx, hxi, hxj, h.prev_next i hi, hij, Ne.symm hij]
            · have a1 : (arr x).prev ≠ j := fun e => hxi (by rw [(hpj x hx).1 e, c2])
              have a2 : (arr x).prev ≠ i := fun e => hxn ((hpi x hx).1 e)
              simp [swapIdx, hxj, hxn, hxi, a1, a2]
      · have hP1j : (arr i).prev ≠ j := by
          intro e; apply c2; rw [← e, h.next_prev i hi]
        have hP2i : (arr j).prev ≠ i := by
          intro e; apply c1; rw [← e, h.next_prev j hj]
        have hNN : (arr i).next ≠ (arr j).next := fun e => hij (h.next_inj hi hj e)
        simp only [swap_nodes, c1, c2, if_false, set_next_prev, set_prev_prev]
        by_cases hxn1 : x = (arr i).next
        · subst hxn1
          simp [swapIdx, hNi, c1, h.prev_next i hi, hij, Ne.symm hij]
        · by_cases hxj : x = j
          · subst hxj
            simp [swapIdx, hij, Ne.symm hij, hP1j, hPi, hxn1]
          · by_cases hxn2 : x = (arr j).next
            · subst hxn2
              simp [swapIdx, hNj, c2, h.prev_next j hj, hij, Ne.symm hij, hxn1, hxj]
            · by_cases hxi : x = i
              · subst hxi
                simp [swapIdx, hij, Ne.symm hij, hP2i, hPj, hxn1, hxn2]
              · have a1 : (arr x).prev ≠ i := fun e => hxn1 ((hpi x hx).1 e)
                have a2 : (arr x).prev ≠ j := fun e => hxn2 ((hpj x hx).1 e)
                simp [swapIdx, hxj, hxn1, hxn2, hxi, a1, a2]

/-! ## Blocks of an intact ring (geometry `S = 80`, `W = 8`) -/

theorem nested_walk (arr : Arr) (W k p : Nat) :
    (fun q => (nxt arr)^[W] q)^[k] p = (nxt arr)^[k * W] p := by
  induction k generalizing p with
  | zero => simp
  | succ k ih =>
    rw [Function.iterate_succ_apply, ih, ← Function.iterate_add_apply]
    congr 1
    ring

theorem end_next_mod {arr : Arr} (h : RingInv 640 arr) (hI : Intact 8 640 arr) {x : Nat}
    (hx : x < 640) (hm : x % 8 = 7) : (arr x).next % 8 = 0 := by
  by_contra hc
  have hy : (arr x).next < 640 := h.next_lt x hx
  have h1 : (arr ((arr x).next - 1)).next = (arr x).next - 1 + 1 :=
    hI _ (by omega) (by omega)
  have h2 : (arr x).next - 1 + 1 = (arr x).next := by omega
  rw [h2] at h1
  have := h.next_inj (by omega) hx h1
  omega

theorem start_prev_mod {arr : Arr} (h : RingInv 640 arr) (hI : Intact 8 640 arr) {x : Nat}
    (hx : x < 640) (hm : x % 8 = 0) : (arr x).prev % 8 = 7 := by
  by_contra hc
  have hy : (arr x).prev < 640 := h.prev_lt x hx
  have h1 : (arr (arr x).prev).next = (arr x).prev + 1 := hI _ hy (by omega)
  rw [h.next_prev x hx] at h1
  omega

theorem block_iterate {arr : Arr} (hI : Intact 8 640 arr) {a : Nat} (ha : a < 640)
    (hm : a % 8 = 0) (k : Nat) (hk : k < 8) : (nxt arr)^[k] a = a + k := by
  induction k with
  | zero => rfl
  | succ k ih =>
    rw [Function.iterate_succ_apply', ih (by omega)]
    show (arr (a + k)).next = a + (k + 1)
    rw [hI (a + k) (by omega) (by omega)]
    ring

theorem walk_start {arr : Arr} (h : RingInv 640 arr) (hI : Intact 8 640 arr) (t : Nat) :
    (nxt arr)^[t * 8] 0 % 8 = 0 ∧ (nxt arr)^[t * 8] 0 < 640 := by
  induction t with
  | zero => simp
  | succ t ih =>
    have e : (t + 1) * 8 = 1 + (7 + t * 8) := by ring
    rw [e, Function.iterate_add_apply, Function.iterate_add_apply, block_iterate hI ih.2 ih.1 7 (by omega)]
    refine ⟨?_, ?_⟩
    · exact end_next_mod h hI (by omega) (by omega)
    · exact h.next_lt _ (by omega)

theorem walk_offset {arr : Arr} (h : RingInv 640 arr) (hI : Intact 8 640 arr) (t k : Nat)
    (hk : k < 8) : (nxt arr)^[t * 8 + k] 0 = (nxt arr)^[t * 8] 0 + k := by
  rw [Nat.add_comm, Function.iterate_add_apply]
  exact block_iterate hI (walk_start h hI t).2 (walk_start h hI t).1 k hk

theorem blockSwap_lt {A B x : Nat} (hA : A < 80) (hB : B < 80) (hx : x < 640) :
    blockSwap 8 A B x < 640 := by
  unfold blockSwap
  split_ifs <;> omega

theorem blockSwap_invol (A B x : Nat) : blockSwap 8 A B (blockSwap 8 A B x) = x := by
  by_cases h1 : x / 8 = A
  · have e : blockSwap 8 A B x = B * 8 + x % 8 := by
      unfold blockSwap; rw [if_pos h1]
    rw [e]
    unfold blockSwap
    split_ifs <;> omega
  · by_cases h2 : x / 8 = B
    · have e : blockSwap 8 A B x = A * 8 + x % 8 := by
        unfold blockSwap; rw [if_neg h1, if_pos h2]
      rw [e]
      unfold blockSwap
      split_ifs <;> omega
    · have e : blockSwap 8 A B x = x := by
        unfold blockSwap; rw [if_neg h1, if_neg h2]
      rw [e, e]

theorem blockSwap_left {a b : Nat} (ha : a % 8 = 0) (_hb : b % 8 = 0) (k : Nat) (hk : k < 8) :
    blockSwap 8 (a / 8) (b / 8) (a + k) = b + k := by
  unfold blockSwap
  rw [if_pos (by omega)]
  omega

theorem blockSwap_right {a b : Nat} (ha : a % 8 = 0) (hb : b % 8 = 0) (k : Nat) (hk : k < 8) :
    blockSwap 8 (a / 8) (b / 8) (b + k) = a + k := by
  unfold blockSwap
  split_ifs <;> omega

theorem blockSwap_other {a b : Nat} (ha : a % 8 = 0) (hb : b % 8 = 0) (y : Nat)
    (h1 : y < a ∨ a + 8 ≤ y) (h2 : y < b ∨ b + 8 ≤ y) :
    blockSwap 8 (a / 8) (b / 8) y = y := by
  unfold blockSwap
  rw [if_neg (by omega), if_neg (by omega)]

/-- The two blocks walked to by `swap_whole_sets`, and when they are neighbours. -/
theorem two_blocks {arr : Arr} (h : RingInv 640 arr) (hI : Intact 8 640 arr)
    {set1 set2 : Nat} (h12 : set1 < set2) (h2 : set2 < 80) :
    ∃ a b p1 p2 n1 n2 : Nat,
      a = (nxt arr)^[set1 * 8] 0 ∧ b = (nxt arr)^[set2 * 8] 0 ∧
      (nxt arr)^[7] a = a + 7 ∧ (nxt arr)^[7] b = b + 7 ∧
      BlockPair arr a b p1 p2 n1 n2 ∧
      (n1 = b ↔ set1 + 1 = set2) ∧ (n2 = a ↔ (set2 = 79 ∧ set1 = 0)) ∧
      (p2 = a + 7 ↔ set1 + 1 = set2) ∧ (p1 = b + 7 ↔ (set2 = 79 ∧ set1 = 0)) := by
  have z : (0 : Nat) < 640 := by omega
  obtain ⟨ha8, ha⟩ := walk_start h hI set1
  obtain ⟨hb8, hb⟩ := walk_start h hI set2
  have hab : (nxt arr)^[set1 * 8] 0 ≠ (nxt arr)^[set2 * 8] 0 := by
    intro e
    have := (h.iterate_eq_iff _ _ 0 z).1 e
    omega
  have hE1 := block_iterate hI ha ha8 7 (by omega)
  have hE2 := block_iterate hI hb hb8 7 (by omega)
  have hn1 : (arr ((nxt arr)^[set1 * 8] 0 + 7)).next = (nxt arr)^[(set1 + 1) * 8] 0 := by
    have e : (set1 + 1) * 8 = 1 + (7 + set1 * 8) := by ring
    rw [e, Function.iterate_add_apply, Function.iterate_add_apply, hE1]
    rfl
  have hn2 : (arr ((nxt arr)^[set2 * 8] 0 + 7)).next = (nxt arr)^[(set2 + 1) * 8] 0 := by
    have e : (set2 + 1) * 8 = 1 + (7 + set2 * 8) := by ring
    rw [e, Function.iterate_add_apply, Function.iterate_add_apply, hE2]
    rfl
  obtain ⟨hn18, hn1lt⟩ := walk_start h hI (set1 + 1)
  obtain ⟨hn28, hn2lt⟩ := walk_start h hI (set2 + 1)
  have q1 : (nxt arr)^[(set1 + 1) * 8] 0 = (nxt arr)^[set2 * 8] 0 ↔ set1 + 1 = set2 := by
    rw [h.iterate_eq_iff _ _ 0 z]; omega
  have q2 : (nxt arr)^[(set2 + 1) * 8] 0 = (nxt arr)^[set1 * 8] 0 ↔ (set2 = 79 ∧ set1 = 0) := by
    rw [h.iterate_eq_iff _ _ 0 z]; omega
  have q3 : (nxt arr)^[(set1 + 1) * 8] 0 ≠ (nxt arr)^[set1 * 8] 0 := by
    rw [Ne, h.iterate_eq_iff _ _ 0 z]; omega
  have q4 : (nxt arr)^[(set2 + 1) * 8] 0 ≠ (nxt arr)^[set2 * 8] 0 := by
    rw [Ne, h.iterate_eq_iff _ _ 0 z]; omega
  have q5 : (nxt arr)^[(set1 + 1) * 8] 0 ≠ (nxt arr)^[(set2 + 1) * 8] 0 := by
    rw [Ne, h.iterate_eq_iff _ _ 0 z]; omega
  have hp18 := start_prev_mod h hI ha ha8
  have hp28 := start_prev_mod h hI hb hb8
  have hp1lt := h.prev_lt _ ha
  have hp2lt := h.prev_lt _ hb
  have hp1n := h.next_prev _ ha
  have hp2n := h.next_prev _ hb
  have ha7 : (nxt arr)^[set1 * 8] 0 + 7 < 640 := by omega
  have hb7 : (nxt arr)^[set2 * 8] 0 + 7 < 640 := by omega
  have hn1p := h.prev_next _ ha7
  have hn2p := h.prev_next _ hb7
  rw [hn1] at hn1p
  rw [hn2] at hn2p
  have r1 : (arr ((nxt arr)^[set1 * 8] 0)).prev ≠ (nxt arr)^[set1 * 8] 0 + 7 := by
    intro e
    apply q3
    rw [← hn1, ← e, hp1n]
  have r2 : (arr ((nxt arr)^[set2 * 8] 0)).prev ≠ (nxt arr)^[set2 * 8] 0 + 7 := by
    intro e
    apply q4
    rw [← hn2, ← e, hp2n]
  have r3 : (arr ((nxt arr)^[set1 * 8] 0)).prev ≠ (arr ((nxt arr)^[set2 * 8] 0)).prev := by
    intro e
    apply hab
    rw [← hp1n, ← hp2n, e]
  refine ⟨_, _, _, _, _, _, rfl, rfl, hE1, hE2,
    ⟨ha8, ha, hb8, hb, hab, rfl, rfl, hn1, hn2,
    hp1n, hp2n, hn1p, hn2p, hp18, hp1lt, hp28, hp2lt, hn18, hn1lt, hn28, hn2lt,
    q3, q4, q5, r1, r2, r3⟩, q1, q2, ?_, ?_⟩
  · rw [← q1]
    constructor
    · intro e
      rw [← hp2n, e, hn1]
    · intro e
      rw [← hn1p, e]
  · rw [← q2]
    constructor
    · intro e
      rw [← hp1n, e, hn2]
    · intro e
      rw [← hn2p, e]

theorem intact_prev {arr : Arr} (h : RingInv 640 arr) (hI : Intact 8 640 arr) {x : Nat}
    (hx : x < 640) (hm : x % 8 ≠ 0) : (arr x).prev = x - 1 := by
  have h1 : (arr (x - 1)).next = x - 1 + 1 := hI (x - 1) (by omega) (by omega)
  have h2 : x - 1 + 1 = x := by omega
  rw [h2] at h1
  have := h.prev_next (x - 1) (by omega)
  rw [h1] at this
  exact this

/-! Case tables for the relinked fields: only arithmetic on indices. -/

theorem next_table_adjacent (x a b p1 p2 n1 n2 v : Nat) (e1 : n1 = b) (e2 : p2 = a + 7)
    (d1 : n2 ≠ a) (d2 : a ≠ b) :
    (if x = b + 7 then a else if x = a + 7 then n2 else if x = p1 then b else v) =
      (if x = a + 7 then (if n2 = a then b else n2)
        else if x = b + 7 then (if n1 = b then a else n1)
        else if x = p1 then b else if x = p2 then a else v) := by
  split_ifs <;> omega

theorem next_table_wrapped (x a b p1 p2 n1 n2 v : Nat) (e1 : n2 = a) (e2 : p1 = b + 7)
    (d1 : n1 ≠ b) :
    (if x = a + 7 then b else if x = b + 7 then n1 else if x = p2 then a else v) =
      (if x = a + 7 then (if n2 = a then b else n2)
        else if x = b + 7 then (if n1 = b then a else n1)
        else if x = p1 then b else if x = p2 then a else v) := by
  split_ifs <;> omega

theorem next_table_apart (x a b p1 p2 n1 n2 v : Nat) (d1 : n1 ≠ b) (d2 : n2 ≠ a)
    (d3 : a ≠ b) (d4 : p1 ≠ a + 7) (d5 : p1 ≠ b + 7) (d6 : p2 ≠ a + 7) (d7 : p2 ≠ b + 7)
    (d8 : p1 ≠ p2) :
    (if x = b + 7 then n1 else if x = p1 then b else if x = a + 7 then n2
        else if x = p2 then a else v) =
      (if x = a + 7 then (if n2 = a then b else n2)
        else if x = b + 7 then (if n1 = b then a else n1)
        else if x = p1 then b else if x = p2 then a else v) := by
  split_ifs <;> omega

theorem prev_table_adjacent (x a b p1 p2 n1 n2 v : Nat) (e1 : n1 = b) (e2 : p2 = a + 7)
    (d1 : p1 ≠ b + 7) (d4 : n2 ≠ b) :
    (if x = a then b + 7 else if x = n2 then a + 7 else if x = b then p1 else v) =
      (if x = a then (if p2 = a + 7 then b + 7 else p2)
        else if x = b then (if p1 = b + 7 then a + 7 else p1)
        else if x = n1 then b + 7 else if x = n2 then a + 7 else v) := by
  split_ifs <;> omega

theorem prev_table_wrapped (x a b p1 p2 n1 n2 v : Nat) (e1 : n2 = a) (e2 : p1 = b + 7)
    (d1 : p2 ≠ a + 7) (d2 : a ≠ b) (d3 : n1 ≠ a) (d4 : n1 ≠ b) :
    (if x = b then a + 7 else if x = n1 then b + 7 else if x = a then p2 else v) =
      (if x = a then (if p2 = a + 7 then b + 7 else p2)
        else if x = b then (if p1 = b + 7 then a + 7 else p1)
        else if x = n1 then b + 7 else if x = n2 then a + 7 else v) := by
  split_ifs <;> omega

theorem prev_table_apart (x a b p1 p2 n1 n2 v : Nat) (d1 : p1 ≠ b + 7) (d2 : p2 ≠ a + 7)
    (d3 : a ≠ b) (d4 : n1 ≠ a) (d5 : n1 ≠ b) (d6 : n2 ≠ a) (d7 : n2 ≠ b) (d8 : n1 ≠ n2) :
    (if x = n1 then b + 7 else if x = b then p1 else if x = n2 then a + 7
        else if x = a then p2 else v) =
      (if x = a then (if p2 = a + 7 then b + 7 else p2)
        else if x = b then (if p1 = b + 7 then a + 7 else p1)
        else if x = n1 then b + 7 else if x = n2 then a + 7 else v) := by
  split_ifs <;> omega

/-- Successor of a renamed node, read in the ring before the exchange. -/
theorem renamed_next_value {arr : Arr} (h : RingInv 640 arr) (hI : Intact 8 640 arr)
    {a b p1 p2 n1 n2 : Nat} (bp : BlockPair arr a b p1 p2 n1 n2) (x : Nat) (hx : x < 640) :
    blockSwap 8 (a / 8) (b / 8) ((arr (blockSwap 8 (a / 8) (b / 8) x)).next) =
      if x = a + 7 then (if n2 = a then b else n2)
      else if x = b + 7 then (if n1 = b then a else n1)
      else if x = p1 then b
      else if x = p2 then a
      else (arr x).next := by
  obtain ⟨ha8, ha, hb8, hb, hab, hp1, hp2, hn1, hn2, hp1n, hp2n, hn1p, hn2p, hp18, hp1lt,
    hp28, hp2lt, hn18, hn1lt, hn28, hn2lt, q3, q4, q5, q6, q7, q8⟩ := bp
  have bsL := blockSwap_left ha8 hb8
  have bsR := blockSwap_right ha8 hb8
  have bsO := blockSwap_other ha8 hb8
  by_cases k1 : x = a + 7
  · rw [if_pos k1, k1, bsL 7 (by omega), hn2]
    by_cases k : n2 = a
    · rw [if_pos k, k]; simpa using bsL 0 (by omega)
    · rw [if_neg k]; exact bsO _ (by omega) (by omega)
  · rw [if_neg k1]
    by_cases k2 : x = b + 7
    · rw [if_pos k2, k2, bsR 7 (by omega), hn1]
      by_cases k : n1 = b
      · rw [if_pos k, k]; simpa using bsR 0 (by omega)
      · rw [if_neg k]; exact bsO _ (by omega) (by omega)
    · rw [if_neg k2]
      by_cases k3 : x = p1
      · rw [if_pos k3, k3, bsO p1 (by omega) (by omega), hp1n]
        simpa using bsL 0 (by omega)
      · rw [if_neg k3]
        by_cases k4 : x = p2
        · rw [if_pos k4, k4, bsO p2 (by omega) (by omega), hp2n]
          simpa using bsR 0 (by omega)
        · rw [if_neg k4]
          by_cases k5 : x % 8 = 7
          · have hnx8 := end_next_mod h hI hx k5
            have hnxlt := h.next_lt x hx
            have hna : (arr x).next ≠ a := fun e =>
              k3 (by rw [← hp1, ← e, h.prev_next x hx])
            have hnb : (arr x).next ≠ b := fun e =>
              k4 (by rw [← hp2, ← e, h.prev_next x hx])
            rw [bsO x (by omega) (by omega)]
            exact bsO _ (by omega) (by omega)
          · have hxn : (arr x).next = x + 1 := hI x hx (by omega)
            by_cases m1 : a ≤ x ∧ x < a + 8
            · have ex : x = a + (x - a) := by omega
              rw [hxn]
              rw [ex, bsL (x - a) (by omega), hI _ (by omega) (by omega)]
              have := bsR (x - a + 1) (by omega)
              rw [Nat.add_assoc, Nat.add_assoc]
              exact this
            · by_cases m2 : b ≤ x ∧ x < b + 8
              · have ex : x = b + (x - b) := by omega
                rw [hxn]
                rw [ex, bsR (x - b) (by omega), hI _ (by omega) (by omega)]
                have := bsL (x - b + 1) (by omega)
                rw [Nat.add_assoc, Nat.add_assoc]
                exact this
              · rw [bsO x (by omega) (by omega), hxn]
                exact bsO _ (by omega) (by omega)

/-- Predecessor of a renamed node, read in the ring before the exchange. -/
theorem renamed_prev_value {arr : Arr} (h : RingInv 640 arr) (hI : Intact 8 640 arr)
    {a b p1 p2 n1 n2 : Nat} (bp : BlockPair arr a b p1 p2 n1 n2) (x : Nat) (hx : x < 640) :
    blockSwap 8 (a / 8) (b / 8) ((arr (blockSwap 8 (a / 8) (b / 8) x)).prev) =
      if x = a then (if p2 = a + 7 then b + 7 else p2)
      else if x = b then (if p1 = b + 7 then a + 7 else p1)
      else if x = n1 then b + 7
      else if x = n2 then a + 7
      else (arr x).prev := by
  obtain ⟨ha8, ha, hb8, hb, hab, hp1, hp2, hn1, hn2, hp1n, hp2n, hn1p, hn2p, hp18, hp1lt,
    hp28, hp2lt, hn18, hn1lt, hn28, hn2lt, q3, q4, q5, q6, q7, q8⟩ := bp
  have bsL := blockSwap_left ha8 hb8
  have bsR := blockSwap_right ha8 hb8
  have bsO := blockSwap_other ha8 hb8
  have bsL0 : blockSwap 8 (a / 8) (b / 8) a = b := by simpa using bsL 0 (by omega)
  have bsR0 : blockSwap 8 (a / 8) (b / 8) b = a := by simpa using bsR 0 (by omega)
  by_cases k1 : x = a
  · rw [if_pos k1, k1, bsL0, hp2]
    by_cases k : p2 = a + 7
    · rw [if_pos k, k]; exact bsL 7 (by omega)
    · rw [if_neg k]; exact bsO _ (by omega) (by omega)
  · rw [if_neg k1]
    by_cases k2 : x = b
    · rw [if_pos k2, k2, bsR0, hp1]
      by_cases k : p1 = b + 7
      · rw [if_pos k, k]; exact bsR 7 (by omega)
      · rw [if_neg k]; exact bsO _ (by omega) (by omega)
    · rw [if_neg k2]
      by_cases k3 : x = n1
      · rw [if_pos k3, k3, bsO n1 (by omega) (by omega), hn1p]
        exact bsL 7 (by omega)
      · rw [if_neg k3]
        by_cases k4 : x = n2
        · rw [if_pos k4, k4, bsO n2 (by omega) (by omega), hn2p]
          exact bsR 7 (by omega)
        · rw [if_neg k4]
          by_cases k5 : x % 8 = 0
          · have hpx8 := start_prev_mod h hI hx k5
            have hpxlt := h.prev_lt x hx
            have hna : (arr x).prev ≠ a + 7 := fun e =>
              k3 (by rw [← hn1, ← e, h.next_prev x hx])
            have hnb : (arr x).prev ≠ b + 7 := fun e =>
              k4 (by rw [← hn2, ← e, h.next_prev x hx])
            rw [bsO x (by omega) (by omega)]
            exact bsO _ (by omega) (by omega)
          · have hxp : (arr x).prev = x - 1 := intact_prev h hI hx k5
            by_cases m1 : a ≤ x ∧ x < a + 8
            · have e1 : blockSwap 8 (a / 8) (b / 8) x = b + (x - a) := by
                have := bsL (x - a) (by omega)
                rwa [show a + (x - a) = x by omega] at this
              rw [hxp, e1, intact_prev h hI (by omega) (by omega)]
              have := bsR (x - a - 1) (by omega)
              rw [show b + (x - a) - 1 = b + (x - a - 1) by omega, this]
              omega
            · by_cases m2 : b ≤ x ∧ x < b + 8
              · have e1 : blockSwap 8 (a / 8) (b / 8) x = a + (x - b) := by
                  have := bsR (x - b) (by omega)
                  rwa [show b + (x - b) = x by omega] at this
                rw [hxp, e1, intact_prev h hI (by omega) (by omega)]
                have := bsL (x - b - 1) (by omega)
                rw [show a + (x - b) - 1 = a + (x - b - 1) by omega, this]
                omega
              · rw [bsO x (by omega) (by omega), hxp]
                exact bsO _ (by omega) (by omega)

theorem swap_whole_sets_unfold (arr : Arr) (set1 set2 a b p1 p2 n1 n2 : Nat)
    (hadef : a = (nxt arr)^[set1 * 8] 0) (hbdef : b = (nxt arr)^[set2 * 8] 0)
    (hE1 : (nxt arr)^[7] a = a + 7) (hE2 : (nxt arr)^[7] b = b + 7)
    (hp1 : (arr a).prev = p1) (hp2 : (arr b).prev = p2)
    (hn1 : (arr (a + 7)).next = n1) (hn2 : (arr (b + 7)).next = n2) :
    swap_whole_sets 80 8 arr set1 set2 =
      if (set1 + 1) % 80 = set2 then
        set_prev (set_next (set_prev (set_next (set_next (set_prev arr b p1) p1 b) (a + 7) n2)
          n2 (a + 7)) (b + 7) a) a (b + 7)
      else if (set2 + 1) % 80 = set1 then
        set_prev (set_next (set_prev (set_next (set_next (set_prev arr a p2) p2 a) (b + 7) n1)
          n1 (b + 7)) (a + 7) b) b (a + 7)
      else
        set_prev (set_next (set_next (set_prev (set_prev (set_next (set_next (set_prev arr a p2)
          p2 a) (a + 7) n2) n2 (a + 7)) b p1) p1 b) (b + 7) n1) n1 (b + 7) := by
  unfold swap_whole_sets
  simp only [nested_walk, ← hadef, ← hbdef, hE1, hE2, hp1, hp2, hn1, hn2,
    show (8 : Nat) - 1 = 7 from rfl]

theorem swap_whole_sets_renamed {arr : Arr} (h : RingInv 640 arr) (hI : Intact 8 640 arr)
    {set1 set2 : Nat} (h12 : set1 < set2) (h2 : set2 < 80) :
    Renamed 640 (blockSwap 8 ((nxt arr)^[set1 * 8] 0 / 8) ((nxt arr)^[set2 * 8] 0 / 8)) arr
      (swap_whole_sets 80 8 arr set1 set2) := by
  obtain ⟨a, b, p1, p2, n1, n2, hadef, hbdef, hE1, hE2, bp, q1, q2, q1', q2'⟩ :=
    two_blocks h hI h12 h2
  rw [← hadef, ← hbdef]
  rw [swap_whole_sets_unfold arr set1 set2 a b p1 p2 n1 n2 hadef hbdef hE1 hE2 bp.hp1 bp.hp2
    bp.hn1 bp.hn2]
  have c1 : (set1 + 1) % 80 = set2 ↔ set1 + 1 = set2 := by omega
  have c2 : (set2 + 1) % 80 = set1 ↔ (set2 = 79 ∧ set1 = 0) := by omega
  have hA : a / 8 < 80 := by have := bp.ha; omega
  have hB : b / 8 < 80 := by have := bp.hb; omega
  refine ⟨fun x hx => blockSwap_lt hA hB hx, fun x _ => blockSwap_invol _ _ x, ?_, ?_⟩
  · intro x hx
    rw [renamed_next_value h hI bp x hx]
    by_cases b1 : set1 + 1 = set2
    · rw [if_pos (c1.2 b1)]
      simp only [set_prev_next, set_next_next]
      have t2 : n2 ≠ a := fun e => by have := q2.1 e; omega
      exact next_table_adjacent x a b p1 p2 n1 n2 _ (q1.2 b1) (q1'.2 b1) t2 bp.hab
    · rw [if_neg (fun e => b1 (c1.1 e))]
      have t1 : n1 ≠ b := fun e => b1 (q1.1 e)
      have t3 : p2 ≠ a + 7 := fun e => b1 (q1'.1 e)
      by_cases b2 : set2 = 79 ∧ set1 = 0
      · rw [if_pos (c2.2 b2)]
        simp only [set_prev_next, set_next_next]
        exact next_table_wrapped x a b p1 p2 n1 n2 _ (q2.2 b2) (q2'.2 b2) t1
      · rw [if_neg (fun e => b2 (c2.1 e))]
        simp only [set_prev_next, set_next_next]
        have t2 : n2 ≠ a := fun e => b2 (q2.1 e)
        have t4 : p1 ≠ b + 7 := fun e => b2 (q2'.1 e)
        exact next_table_apart x a b p1 p2 n1 n2 _ t1 t2 bp.hab bp.p1a t4 t3 bp.p2b bp.p1p2
  · intro x hx
    rw [renamed_prev_value h hI bp x hx]
    by_cases b1 : set1 + 1 = set2
    · rw [if_pos (c1.2 b1)]
      simp only [set_prev_prev, set_next_prev]
      have t2 : n2 ≠ a := fun e => by have := q2.1 e; omega
      have t4 : p1 ≠ b + 7 := fun e => by have := q2'.1 e; omega
      exact prev_table_adjacent x a b p1 p2 n1 n2 _ (q1.2 b1) (q1'.2 b1) t4 bp.n2b
    · rw [if_neg (fun e => b1 (c1.1 e))]
      have t1 : n1 ≠ b := fun e => b1 (q1.1 e)
      have t3 : p2 ≠ a + 7 := fun e => b1 (q1'.1 e)
      by_cases b2 : set2 = 79 ∧ set1 = 0
      · rw [if_pos (c2.2 b2)]
        simp only [set_prev_prev, set_next_prev]
        exact prev_table_wrapped x a b p1 p2 n1 n2 _ (q2.2 b2) (q2'.2 b2) t3 bp.hab bp.n1a t1
      · rw [if_neg (fun e => b2 (c2.1 e))]
        simp only [set_prev_prev, set_next_prev]
        have t2 : n2 ≠ a := fun e => b2 (q2.1 e)
        have t4 : p1 ≠ b + 7 := fun e => b2 (q2'.1 e)
        exact prev_table_apart x a b p1 p2 n1 n2 _ t4 t3 bp.hab bp.n1a t1 t2 bp.n2b bp.n1n2

/-! ## The group-level pass keeps the blocks intact -/

theorem blockSwap_succ {A B y : Nat} (hy : y % 8 + 1 < 8) :
    blockSwap 8 A B (blockSwap 8 A B y + 1) = y + 1 := by
  by_cases h1 : y / 8 = A
  · have e : blockSwap 8 A B y = B * 8 + y % 8 := by
      unfold blockSwap; rw [if_pos h1]
    rw [e]
    unfold blockSwap
    split_ifs <;> omega
  · by_cases h2 : y / 8 = B
    · have e : blockSwap 8 A B y = A * 8 + y % 8 := by
        unfold blockSwap; rw [if_neg h1, if_pos h2]
      rw [e]
      unfold blockSwap
      split_ifs <;> omega
    · have e : blockSwap 8 A B y = y := by
        unfold blockSwap; rw [if_neg h1, if_neg h2]
      rw [e]
      unfold blockSwap
      split_ifs <;> omega

theorem blockSwap_mod (A B y : Nat) : blockSwap 8 A B y % 8 = y % 8 := by
  unfold blockSwap
  split_ifs <;> omega

theorem intact_renamed {arr arr' : Arr} {A B : Nat} (hA : A < 80) (hB : B < 80)
    (hI : Intact 8 640 arr) (c : Renamed 640 (blockSwap 8 A B) arr arr') :
    Intact 8 640 arr' := by
  intro x hx hm
  rw [c.next_eq x hx]
  have h1 : blockSwap 8 A B x < 640 := blockSwap_lt hA hB hx
  have h2 : blockSwap 8 A B x % 8 = x % 8 := blockSwap_mod A B x
  rw [hI _ h1 (by omega)]
  exact blockSwap_succ hm

/-- One call of the group-level pass keeps the single cycle and the intact blocks. -/
theorem sets_step {arr : Arr} {c : Call} (h : RingInv 640 arr ∧ Intact 8 640 arr)
    (hc : SetsCall c) :
    RingInv 640 (Call.run 80 8 arr c) ∧ Intact 8 640 (Call.run 80 8 arr c) := by
  obtain ⟨i, r, rfl, hir, hr⟩ := hc
  have ren := swap_whole_sets_renamed h.1 h.2 hir hr
  have hA : (nxt arr)^[i * 8] 0 / 8 < 80 := by
    have := (walk_start h.1 h.2 i).2; omega
  have hB : (nxt arr)^[r * 8] 0 / 8 < 80 := by
    have := (walk_start h.1 h.2 r).2; omega
  exact ⟨ren.ringInv h.1, intact_renamed hA hB h.2 ren⟩

theorem foldl_calls_inv {P : Arr → Prop} {Q : Call → Prop}
    (step : ∀ arr c, P arr → Q c → P (Call.run 80 8 arr c)) :
    ∀ (l : List Call), (∀ c, c ∈ l → Q c) → ∀ arr, P arr → P (l.foldl (Call.run 80 8) arr) := by
  intro l
  induction l with
  | nil => intro _ arr h; exact h
  | cons c l ih =>
    intro hq arr h
    rw [List.foldl_cons]
    exact ih (fun d hd => hq d (List.mem_cons_of_mem _ hd)) _
      (step arr c h (hq c (List.mem_cons_self _ _)))

/-! ## Layout of an intact ring -/

theorem layout_of_intact {arr : Arr} (h : RingInv 640 arr) (hI : Intact 8 640 arr) :
    Layout 80 8 arr 0 (fun b => (nxt arr)^[b * 8] 0 / 8) := by
  have z : (0 : Nat) < 640 := by omega
  refine ⟨by omega, ?_, ?_, ?_, ?_, ?_⟩
  · intro b _
    have := (walk_start h hI b).2
    show (nxt arr)^[b * 8] 0 / 8 < 80
    omega
  · intro b hb c hc e
    have e' : (nxt arr)^[b * 8] 0 / 8 = (nxt arr)^[c * 8] 0 / 8 := e
    have h1 := walk_start h hI b
    have h2 := walk_start h hI c
    have : (nxt arr)^[b * 8] 0 = (nxt arr)^[c * 8] 0 := by omega
    have := (h.iterate_eq_iff _ _ 0 z).1 this
    omega
  · intro g hg
    obtain ⟨t, ht, e⟩ := h.connected 0 z (g * 8) (by omega)
    refine ⟨t / 8, by omega, ?_⟩
    have e2 : t = t / 8 * 8 + t % 8 := by omega
    rw [e2, walk_offset h hI (t / 8) (t % 8) (by omega)] at e
    have h1 := walk_start h hI (t / 8)
    show (nxt arr)^[t / 8 * 8] 0 / 8 = g
    omega
  · simp
  · intro b _ k hk
    rw [walk_offset h hI b k hk]
    have h1 := walk_start h hI b
    show ((nxt arr)^[b * 8] 0 + k) / 8 = (nxt arr)^[b * 8] 0 / 8
    omega

/-! ## The pass inside the groups keeps the layout -/

theorem swapIdx_div {i j : Nat} (hij : i / 8 = j / 8) (y : Nat) : swapIdx i j y / 8 = y / 8 := by
  unfold swapIdx
  split_ifs with h1 h2
  · rw [h1, hij]
  · rw [h2, hij]
  · rfl

theorem layout_renamed {arr arr' : Arr} {i j s : Nat} {G : Nat → Nat} (h : RingInv 640 arr)
    (hi : i < 640) (hj : j < 640) (hij : i / 8 = j / 8)
    (c : Renamed 640 (swapIdx i j) arr arr') (L : Layout 80 8 arr s G) :
    Layout 80 8 arr' (swapIdx i j s) G := by
  refine ⟨swapIdx_lt hi hj L.base_lt, L.group_lt, L.inj, L.surj, L.first, ?_⟩
  intro b hb k hk
  rw [c.iterate h _ _ (swapIdx_lt hi hj L.base_lt), swapIdx_invol, swapIdx_div hij]
  exact L.run b hb k hk

/-- One call of the pass inside the groups keeps the single cycle and the layout. -/
theorem nodes_step (G : Nat → Nat) {arr : Arr} {c : Call}
    (h : RingInv 640 arr ∧ ∃ s, Layout 80 8 arr s G) (hc : NodesCall c) :
    RingInv 640 (Call.run 80 8 arr c) ∧ ∃ s, Layout 80 8 (Call.run 80 8 arr c) s G := by
  obtain ⟨x, y, rfl, hx, hy, hxy, hg⟩ := hc
  obtain ⟨hr, s, L⟩ := h
  have ren := swap_nodes_renamed hr (by omega) hx hy hxy
  exact ⟨ren.ringInv hr, _, layout_renamed hr hx hy hg ren L⟩

/-! ## The calls of `shuffle_linked_list` -/

theorem shuffle_calls_eq (rand : Nat → Nat) :
    shuffle_calls 80 8 rand =
      (List.range 79).map (fun i => Call.sets i (rand i % (80 - (i + 1)) + i + 1)) ++
      (List.range 80).flatMap (fun i => (List.range 7).map (fun j =>
        Call.nodes (i * 8 + j) (i * 8 + (rand (79 + i * 7 + j) % (8 - (j + 1)) + j + 1)))) :=
  rfl

theorem sets_calls_ok (rand : Nat → Nat) :
    ∀ c, c ∈ (List.range 79).map (fun i => Call.sets i (rand i % (80 - (i + 1)) + i + 1)) →
      SetsCall c := by
  intro c hc
  rw [List.mem_map] at hc
  obtain ⟨i, hi, rfl⟩ := hc
  rw [List.mem_range] at hi
  refine ⟨i, _, rfl, by omega, ?_⟩
  have : rand i % (80 - (i + 1)) < 80 - (i + 1) := Nat.mod_lt _ (by omega)
  omega

theorem nodes_calls_ok (rand : Nat → Nat) :
    ∀ c, c ∈ (List.range 80).flatMap (fun i => (List.range 7).map (fun j =>
        Call.nodes (i * 8 + j) (i * 8 + (rand (79 + i * 7 + j) % (8 - (j + 1)) + j + 1)))) →
      NodesCall c := by
  intro c hc
  rw [List.mem_flatMap] at hc
  obtain ⟨i, hi, hc⟩ := hc
  rw [List.mem_map] at hc
  obtain ⟨j, hj, rfl⟩ := hc
  rw [List.mem_range] at hi hj
  have : rand (79 + i * 7 + j) % (8 - (j + 1)) < 8 - (j + 1) := Nat.mod_lt _ (by omega)
  exact ⟨_, _, rfl, by omega, by omega, by omega, by omega⟩

theorem two_phase_inv (l1 l2 : List Call) (q1 : ∀ c, c ∈ l1 → SetsCall c)
    (q2 : ∀ c, c ∈ l2 → NodesCall c) (arr : Arr) (k : Nat) :
    RingInv 640 (((l1 ++ l2).take k).foldl (Call.run 80 8) (init_link 80 8 arr)) ∧
    ∃ s G, Layout 80 8 (((l1 ++ l2).take k).foldl (Call.run 80 8) (init_link 80 8 arr)) s G := by
  rw [List.take_append_eq_append_take, List.foldl_append]
  have h0 : RingInv 640 (init_link 80 8 arr) ∧ Intact 8 640 (init_link 80 8 arr) := by
    refine ⟨ringInv_init_link 80 8 arr, ?_⟩
    intro x hx hm
    rw [init_link_next 80 8 arr x hx]
    omega
  have h1 := foldl_calls_inv (P := fun a => RingInv 640 a ∧ Intact 8 640 a) (Q := SetsCall)
    (fun a c ha hc => sets_step ha hc) (l1.take k)
    (fun c hc => q1 c (List.mem_of_mem_take hc)) _ h0
  have L := layout_of_intact h1.1 h1.2
  have h2 := foldl_calls_inv
    (P := fun a => RingInv 640 a ∧ ∃ s, Layout 80 8 a s _) (Q := NodesCall)
    (fun a c ha hc => nodes_step _ ha hc) (l2.take (k - l1.length))
    (fun c hc => q2 c (List.mem_of_mem_take hc)) _ ⟨h1.1, _, L⟩
  exact ⟨h2.1, h2.2.choose, _, h2.2.choose_spec⟩

/-- After any number of the calls of `shuffle_linked_list` on the freshly linked ring, the
ring is a single cycle, and it has a layout by address groups. -/
theorem shuffle_upto_inv (rand : Nat → Nat) (arr : Arr) (k : Nat) :
    RingInv 640 (((shuffle_calls 80 8 rand).take k).foldl (Call.run 80 8) (init_link 80 8 arr)) ∧
    ∃ s G, Layout 80 8
      (((shuffle_calls 80 8 rand).take k).foldl (Call.run 80 8) (init_link 80 8 arr)) s G := by
  rw [shuffle_calls_eq]
  exact two_phase_inv _ _ (sets_calls_ok rand) (nodes_calls_ok rand) arr k

theorem shuffle_inv (rand : Nat → Nat) (arr : Arr) :
    RingInv 640 (shuffle_linked_list 80 8 rand (init_link 80 8 arr)) ∧
    ∃ s G, Layout 80 8 (shuffle_linked_list 80 8 rand (init_link 80 8 arr)) s G := by
  have := shuffle_upto_inv rand arr (shuffle_calls 80 8 rand).length
  rw [List.take_length] at this
  exact this

/-! ## Arrays with the same links -/

theorem nxt_congr {arr arr' : Arr} (e : ∀ x, (arr' x).next = (arr x).next) :
    nxt arr' = nxt arr := funext e

theorem prv_congr {arr arr' : Arr} (e : ∀ x, (arr' x).prev = (arr x).prev) :
    prv arr' = prv arr := funext e

theorem RingInv.same_links {n : Nat} {arr arr' : Arr} (h : RingInv n arr)
    (en : ∀ x, (arr' x).next = (arr x).next) (ep : ∀ x, (arr' x).prev = (arr x).prev) :
    RingInv n arr' := by
  have e1 := nxt_congr en
  refine ⟨?_, ?_, ?_, ?_, ?_, ?_, ?_⟩
  · intro x hx; rw [en]; exact h.next_lt x hx
  · intro x hx; rw [ep]; exact h.prev_lt x hx
  · intro x hx; rw [en, ep]; exact h.prev_next x hx
  · intro x hx; rw [ep, en]; exact h.next_prev x hx
  · intro x hx; rw [e1]; exact h.period x hx
  · intro x hx k h0 hk; rw [e1]; exact h.minimal x hx k h0 hk
  · intro x hx y hy; rw [e1]; exact h.connected x hx y hy

theorem Layout.same_next {S W : Nat} {arr arr' : Arr} {s : Nat} {G : Nat → Nat}
    (L : Layout S W arr s G) (en : ∀ x, (arr' x).next = (arr x).next) :
    Layout S W arr' s G := by
  have e1 := nxt_congr en
  refine ⟨L.base_lt, L.group_lt, L.inj, L.surj, L.first, ?_⟩
  rw [e1]
  exact L.run

/-! ## `probe` -/

theorem probe_body_next (tsc : Nat → Nat) (st : ProbeState) (x : Nat) :
    ((probe_body 8 tsc st).arr x).next = (st.arr x).next := by
  simp [probe_body]

theorem probe_body_prev (tsc : Nat → Nat) (st : ProbeState) (x : Nat) :
    ((probe_body 8 tsc st).arr x).prev = (st.arr x).prev := by
  simp [probe_body]

theorem probe_body_time (tsc : Nat → Nat) (st : ProbeState) (x : Nat) :
    ((probe_body 8 tsc st).arr x).time =
      if x = (prv st.arr)^[7] st.curr then
        (tsc (st.reads + 1) % 2 ^ 64 + 2 ^ 64 - tsc st.reads % 2 ^ 64) % 2 ^ 64 / 8
      else (st.arr x).time := by
  simp [probe_body]

theorem probe_body_curr (tsc : Nat → Nat) (st : ProbeState) :
    (probe_body 8 tsc st).curr = (prv st.arr)^[8] st.curr := by
  simp only [probe_body, set_time_prev, show (8 : Nat) - 1 = 7 from rfl]
  rw [show (8 : Nat) = 7 + 1 from rfl, Function.iterate_succ_apply']
  rfl

theorem probe_body_reads (tsc : Nat → Nat) (st : ProbeState) :
    (probe_body 8 tsc st).reads = st.reads + 2 := rfl

/-- State of `probe` after `j` iterations of its loop. -/
theorem probe_iterate (tsc : Nat → Nat) (arr : Arr) (reads j : Nat)
    (hd : ∀ k l, k < l → l < j → chunk_last arr k ≠ chunk_last arr l) :
    let st := (probe_body 8 tsc)^[j] { arr := arr, curr := 0, reads := reads }
    (∀ x, (st.arr x).next = (arr x).next) ∧ (∀ x, (st.arr x).prev = (arr x).prev) ∧
    st.curr = (prv arr)^[8 * j] 0 ∧ st.reads = reads + 2 * j ∧
    (∀ k, k < j → (st.arr (chunk_last arr k)).time = chunk_latency tsc reads k) ∧
    (∀ x, (∀ k, k < j → x ≠ chunk_last arr k) → (st.arr x).time = (arr x).time) := by
  induction j with
  | zero =>
    refine ⟨fun _ => rfl, fun _ => rfl, rfl, rfl, ?_, fun _ _ => rfl⟩
    intro k hk; omega
  | succ j ih =>
    obtain ⟨h1, h2, h3, h4, h5, h6⟩ := ih (fun k l hkl hl => hd k l hkl (by omega))
    simp only [Function.iterate_succ_apply'] at *
    have hprv := prv_congr h2
    have htarget : (prv ((probe_body 8 tsc)^[j] { arr := arr, curr := 0, reads := reads }).arr)^[7]
        ((probe_body 8 tsc)^[j] { arr := arr, curr := 0, reads := reads }).curr =
        chunk_last arr j := by
      rw [hprv, h3, ← Function.iterate_add_apply]
      unfold chunk_last
      rw [Nat.add_comm]
    refine ⟨?_, ?_, ?_, ?_, ?_, ?_⟩
    · intro x; rw [probe_body_next, h1]
    · intro x; rw [probe_body_prev, h2]
    · rw [probe_body_curr, hprv, h3, ← Function.iterate_add_apply]
      congr 1
      ring
    · rw [probe_body_reads, h4]; ring
    · intro k hk
      rw [probe_body_time, htarget]
      by_cases e : k = j
      · subst e
        rw [if_pos rfl, h4]
        rfl
      · rw [if_neg (hd k j (by omega) (by omega)), h5 k (by omega)]
    · intro x hx
      rw [probe_body_time, htarget, if_neg (hx j (by omega))]
      exact h6 x (fun k hk => hx k (by omega))

/-- The loop of `probe` stops at the first iteration that ends on node `0`. -/
theorem probe_loop_exit (tsc : Nat → Nat) (K : Nat) :
    ∀ (st : ProbeState) (fuel : Nat), 0 < K → K ≤ fuel →
      (∀ k, 0 < k → k < K → ((probe_body 8 tsc)^[k] st).curr ≠ 0) →
      ((probe_body 8 tsc)^[K] st).curr = 0 →
      probe_loop 8 tsc fuel st = some ((probe_body 8 tsc)^[K] st) := by
  induction K with
  | zero => intro _ _ h; omega
  | succ K ih =>
    intro st fuel _ hf hne he
    obtain ⟨fuel, rfl⟩ : ∃ f, fuel = f + 1 := ⟨fuel - 1, by omega⟩
    rw [probe_loop]
    by_cases hK : K = 0
    · subst hK
      simp only [Function.iterate_succ, Function.iterate_zero, Function.comp_apply, id] at he
      simp [he]
    · have h1 : (probe_body 8 tsc st).curr ≠ 0 := by
        have := hne 1 (by omega) (by omega)
        simpa using this
      simp only [h1, ne_eq, not_false_eq_true, if_true]
      rw [Function.iterate_succ_apply]
      apply ih _ fuel (by omega) (by omega)
      · intro k hk0 hk
        have := hne (k + 1) (by omega) (by omega)
        rwa [Function.iterate_succ_apply] at this
      · rwa [Function.iterate_succ_apply] at he

/-- With less fuel than iterations needed the loop of `probe` does not return. -/
theorem probe_loop_starved (tsc : Nat → Nat) :
    ∀ (fuel : Nat) (st : ProbeState),
      (∀ k, 0 < k → k ≤ fuel → ((probe_body 8 tsc)^[k] st).curr ≠ 0) →
      probe_loop 8 tsc fuel st = none := by
  intro fuel
  induction fuel with
  | zero => intro _ _; rfl
  | succ fuel ih =>
    intro st hne
    rw [probe_loop]
    have h1 : (probe_body 8 tsc st).curr ≠ 0 := by
      have := hne 1 (by omega) (by omega)
      simpa using this
    simp only [h1, ne_eq, not_false_eq_true, if_true]
    apply ih
    intro k hk0 hk
    have := hne (k + 1) (by omega) (by omega)
    rwa [Function.iterate_succ_apply] at this

theorem prv_walk_eq_zero_iff {arr : Arr} (h : RingInv 640 arr) (t : Nat) (ht : t ≤ 640) :
    (prv arr)^[t] 0 = 0 ↔ (t = 0 ∨ t = 640) := by
  rw [h.prv_iterate_eq t 0 (by omega) ht]
  have := h.iterate_eq_iff (640 - t) 0 0 (by omega)
  simp only [Function.iterate_zero, id] at this
  rw [this]
  omega

theorem chunk_last_eq {arr : Arr} (h : RingInv 640 arr) (k : Nat) (hk : k < 80) :
    chunk_last arr k = (nxt arr)^[640 - (8 * k + 7)] 0 := by
  unfold chunk_last
  exact h.prv_iterate_eq _ 0 (by omega) (by omega)

theorem chunk_last_inj {arr : Arr} (h : RingInv 640 arr) (k l : Nat) (hk : k < 80) (hl : l < 80)
    (e : chunk_last arr k = chunk_last arr l) : k = l := by
  rw [chunk_last_eq h k hk, chunk_last_eq h l hl, h.iterate_eq_iff _ _ 0 (by omega)] at e
  omega

theorem chunk_last_lt {arr : Arr} (h : RingInv 640 arr) (k : Nat) : chunk_last arr k < 640 :=
  h.prv_iterate_lt _ 0 (by omega)

/-- Node `0` lies in the first run of a layout. -/
theorem Layout.zero_pos {arr : Arr} {s : Nat} {G : Nat → Nat} (h : RingInv 640 arr)
    (L : Layout 80 8 arr s G) : ∃ p, p < 8 ∧ (nxt arr)^[p] s = 0 := by
  obtain ⟨t, ht, e⟩ := h.connected s L.base_lt 0 (by omega)
  have h1 := L.run (t / 8) (by omega) (t % 8) (by omega)
  rw [show t / 8 * 8 + t % 8 = t by omega, e] at h1
  have h2 : G (t / 8) = G 0 := by rw [L.first, ← h1]
  have h3 := L.inj (t / 8) (by omega) 0 (by omega) h2
  exact ⟨t, by omega, e⟩

/-- Address group of the node on which iteration `k` of `probe` stores. -/
theorem chunk_last_group {arr : Arr} {s p : Nat} {G : Nat → Nat} (h : RingInv 640 arr)
    (L : Layout 80 8 arr s G) (hp : p < 8) (e0 : (nxt arr)^[p] s = 0) (k : Nat) (hk : k < 80) :
    chunk_last arr k / 8 = G ((640 - (8 * k + 7) + p) % 640 / 8) := by
  rw [chunk_last_eq h k hk, ← e0, ← Function.iterate_add_apply, h.iterate_mod _ s L.base_lt]
  have h1 := L.run ((640 - (8 * k + 7) + p) % 640 / 8) (by omega)
    ((640 - (8 * k + 7) + p) % 640 % 8) (by omega)
  rw [show (640 - (8 * k + 7) + p) % 640 / 8 * 8 + (640 - (8 * k + 7) + p) % 640 % 8 =
    (640 - (8 * k + 7) + p) % 640 by omega] at h1
  exact h1

/-- Every address group holds exactly one of the nodes on which `probe` stores. -/
theorem chunk_last_one_per_group {arr : Arr} {s : Nat} {G : Nat → Nat} (h : RingInv 640 arr)
    (L : Layout 80 8 arr s G) (g : Nat) (hg : g < 80) :
    ∃ k, k < 80 ∧ chunk_last arr k / 8 = g ∧
      ∀ l, l < 80 → chunk_last arr l / 8 = g → l = k := by
  obtain ⟨p, hp, e0⟩ := L.zero_pos h
  obtain ⟨b, hb, hGb⟩ := L.surj g hg
  have key : ∃ k, k < 80 ∧ (640 - (8 * k + 7) + p) % 640 / 8 = b := by
    by_cases h7 : p = 7
    · exact ⟨(80 - b) % 80, by omega, by omega⟩
    · exact ⟨79 - b, by omega, by omega⟩
  obtain ⟨k, hk, ek⟩ := key
  refine ⟨k, hk, ?_, ?_⟩
  · rw [chunk_last_group h L hp e0 k hk, ek, hGb]
  · intro l hl el
    rw [chunk_last_group h L hp e0 l hl, ← hGb] at el
    have := L.inj _ (by omega) _ hb el
    omega

/-! ## Rounding -/

theorem round_even_intCast (z : ℤ) : round_even (z : ℚ) = z := by
  unfold round_even
  simp

theorem round_even_nonneg {q : ℚ} (h : 0 ≤ q) : 0 ≤ round_even q := by
  unfold round_even
  have hf : 0 ≤ ⌊q⌋ := Int.floor_nonneg.2 h
  split_ifs <;> omega

theorem to_double_zero : to_double 0 = 0 := by
  unfold to_double
  simp

theorem to_double_nonneg {q : ℚ} (h : 0 ≤ q) : 0 ≤ to_double q := by
  unfold to_double
  split_ifs with h0
  · exact le_refl _
  · have hp : (0 : ℚ) < (2 : ℚ) ^ (Int.log 2 |q| - 52) := zpow_pos (by norm_num) _
    have h1 : 0 ≤ q / (2 : ℚ) ^ (Int.log 2 |q| - 52) := div_nonneg h hp.le
    have h2 : (0 : ℚ) ≤ (round_even (q / (2 : ℚ) ^ (Int.log 2 |q| - 52)) : ℚ) := by
      exact_mod_cast round_even_nonneg h1
    exact mul_nonneg h2 hp.le

/-- A number with an integer significand below `2^53` is a double: rounding keeps it. -/
theorem to_double_exact (m : ℤ) (e : ℤ) (hm : |m| < 2 ^ 53) :
    to_double ((m : ℚ) * (2 : ℚ) ^ e) = (m : ℚ) * (2 : ℚ) ^ e := by
  by_cases h0 : m = 0
  · subst h0; simp [to_double_zero]
  have h2 : (0 : ℚ) < (2 : ℚ) ^ e := zpow_pos (by norm_num) _
  have hq0 : (m : ℚ) * (2 : ℚ) ^ e ≠ 0 := mul_ne_zero (by exact_mod_cast h0) h2.ne'
  unfold to_double
  rw [if_neg hq0]
  have habs : |(m : ℚ) * (2 : ℚ) ^ e| = (|m| : ℤ) * (2 : ℚ) ^ e := by
    rw [abs_mul, abs_of_pos h2]
    push_cast
    rfl
  have hpos : (0 : ℚ) < |(m : ℚ) * (2 : ℚ) ^ e| := abs_pos.2 hq0
  have hlow := Int.zpow_log_le_self (b := 2) (by norm_num) hpos
  have hlt : |(m : ℚ) * (2 : ℚ) ^ e| < (2 : ℚ) ^ (53 + e) := by
    rw [habs, zpow_add₀ (by norm_num : (2 : ℚ) ≠ 0)]
    apply mul_lt_mul_of_pos_right _ h2
    exact_mod_cast hm
  have hL : Int.log 2 |(m : ℚ) * (2 : ℚ) ^ e| < 53 + e := by
    have h3 : ((2 : ℕ) : ℚ) ^ Int.log 2 |(m : ℚ) * (2 : ℚ) ^ e| < (2 : ℚ) ^ (53 + e) :=
      lt_of_le_of_lt hlow hlt
    have h4 : (2 : ℚ) ^ Int.log 2 |(m : ℚ) * (2 : ℚ) ^ e| < (2 : ℚ) ^ (53 + e) := by
      simpa using h3
    exact (zpow_lt_zpow_iff_right₀ (by norm_num : (1 : ℚ) < 2)).1 h4
  generalize Int.log 2 |(m : ℚ) * (2 : ℚ) ^ e| = L at hL
  obtain ⟨d, hd⟩ : ∃ d : ℕ, e = (L - 52) + d := ⟨(e - (L - 52)).toNat, by omega⟩
  have hdiv : (m : ℚ) * (2 : ℚ) ^ e / (2 : ℚ) ^ (L - 52) = ((m * 2 ^ d : ℤ) : ℚ) := by
    rw [hd, zpow_add₀ (by norm_num : (2 : ℚ) ≠ 0)]
    have hne : (2 : ℚ) ^ (L - 52) ≠ 0 := (zpow_pos (by norm_num) _).ne'
    field_simp
    ring
  rw [hdiv, round_even_intCast]
  rw [hd, zpow_add₀ (by norm_num : (2 : ℚ) ≠ 0), zpow_natCast]
  push_cast
  ring

/-- Natural numbers up to `2^53` are doubles. -/
theorem to_double_natCast (n : ℕ) (hn : n ≤ 2 ^ 53) : to_double (n : ℚ) = (n : ℚ) := by
  by_cases h : n = 2 ^ 53
  · rw [h]
    have := to_double_exact 1 53 (by norm_num)
    norm_num at this ⊢
    exact this
  · have h1 : |(n : ℤ)| < 2 ^ 53 := by
      rw [abs_of_nonneg (by positivity)]
      have : n < 2 ^ 53 := lt_of_le_of_ne hn h
      exact_mod_cast this
    have := to_double_exact (n : ℤ) 0 h1
    simpa using this

/-- Integers of magnitude up to `2^53` are doubles. -/
theorem to_double_intCast (z : ℤ) (hz : |z| ≤ 2 ^ 53) : to_double (z : ℚ) = (z : ℚ) := by
  by_cases h : |z| = 2 ^ 53
  · rcases abs_eq (by norm_num : (0 : ℤ) ≤ 2 ^ 53) |>.1 h with h1 | h1
    · rw [h1]
      have := to_double_exact 1 53 (by norm_num)
      norm_num at this ⊢
      exact this
    · rw [h1]
      have := to_double_exact (-1) 53 (by norm_num)
      norm_num at this ⊢
      exact this
  · have := to_double_exact z 0 (lt_of_le_of_ne hz h)
    simpa using this

theorem of_u64_exact (n : ℕ) (hn : n ≤ 2 ^ 53) : of_u64 n = (n : ℚ) :=
  to_double_natCast n hn

/-! ## The sorting step -/

theorem to_int32_neg_one : to_int32 (-1) = -1 := by
  unfold to_int32
  norm_num

theorem uint64_t_cmp_succ (j : Nat) : uint64_t_cmp j (j + 1) = -1 := by
  unfold uint64_t_cmp
  have : ((j : ℕ) : ℤ) - ((j + 1 : ℕ) : ℤ) = -1 := by push_cast; ring
  rw [this, to_int32_neg_one]

/-- With `uint64_t_cmp` the inner loop never moves an element. -/
theorem qsort_sink_cmp (j : Nat) (l : List Nat) :
    qsort_sink (fun _ a b => uint64_t_cmp a b) j l = l := by
  cases j with
  | zero => rfl
  | succ j =>
    rw [qsort_sink]
    simp [uint64_t_cmp_succ]

/-- With `uint64_t_cmp` the sorting routine returns the array as it received it. -/
theorem qsort_cmp (l : List Nat) (n : Nat) :
    qsort l n (fun _ a b => uint64_t_cmp a b) = l := by
  unfold qsort
  induction n with
  | zero => rfl
  | succ n ih =>
    rw [List.range_succ, List.foldl_append, ih]
    simp [qsort_sink_cmp]

theorem sorted_times_eq (all_times : Nat → Nat → Nat) (i : Nat) :
    sorted_times all_times i = (List.range 1000).map (fun j => all_times j i % 2 ^ 64) := by
  unfold sorted_times
  rw [qsort_cmp]
  rfl

theorem sorted_times_getD (all_times : Nat → Nat → Nat) (i j : Nat) (hj : j < 1000) :
    (sorted_times all_times i).getD j 0 = all_times j i % 2 ^ 64 := by
  rw [sorted_times_eq]
  rw [List.getD_eq_getElem _ _ (by simpa using hj)]
  simp

/-! ## Accumulation loops -/

theorem foldl_range_getD {β : Type} (f : β → Nat → β) (l : List Nat) (n : Nat)
    (hn : n ≤ l.length) (init : β) :
    (List.range n).foldl (fun acc j => f acc (l.getD j 0)) init = (l.take n).foldl f init := by
  induction n with
  | zero => simp
  | succ n ih =>
    rw [List.range_succ, List.foldl_append, ih (by omega)]
    have h1 : l.take (n + 1) = l.take n ++ [l.getD n 0] := by
      rw [List.take_succ]
      congr 1
      rw [List.getD_eq_getElem _ _ (by omega)]
      simp [List.getElem?_eq_getElem (show n < l.length by omega)]
    rw [h1, List.foldl_append]
    rfl

/-- An accumulation of doubles that are multiples `c j * 2^e` of one power of two is exact
as long as the integer total stays within 53 bits. -/
theorem foldl_fadd_exact (e : ℤ) (c : Nat → Nat) (g : Nat → ℚ) (n : Nat)
    (hg : ∀ j, j < n → g j = (c j : ℚ) * (2 : ℚ) ^ e)
    (hs : (Finset.range n).sum c ≤ 2 ^ 53) :
    (List.range n).foldl (fun acc j => fadd acc (g j)) 0 =
      (((Finset.range n).sum c : ℕ) : ℚ) * (2 : ℚ) ^ e := by
  induction n with
  | zero => simp
  | succ n ih =>
    have hle : (Finset.range n).sum c ≤ (Finset.range (n + 1)).sum c := by
      rw [Finset.sum_range_succ]; exact Nat.le_add_right _ _
    rw [List.range_succ, List.foldl_append, ih (fun j hj => hg j (by omega)) (le_trans hle hs)]
    simp only [List.foldl_cons, List.foldl_nil]
    rw [hg n (by omega)]
    unfold fadd
    rw [← add_mul, Finset.sum_range_succ]
    have hcast : (((Finset.range n).sum c : ℕ) : ℚ) + (c n : ℚ) =
        ((((Finset.range n).sum c + c n : ℕ) : ℤ) : ℚ) := by push_cast; rfl
    rw [hcast]
    rw [Finset.sum_range_succ] at hs
    by_cases hmax : (Finset.range n).sum c + c n = 2 ^ 53
    · rw [hmax]
      have := to_double_exact 1 (53 + e) (by norm_num)
      rw [zpow_add₀ (by norm_num : (2 : ℚ) ≠ 0)] at this
      norm_num at this ⊢
      exact this
    · have h1 : |(((Finset.range n).sum c + c n : ℕ) : ℤ)| < 2 ^ 53 := by
        rw [abs_of_nonneg (by positivity)]
        have : (Finset.range n).sum c + c n < 2 ^ 53 := lt_of_le_of_ne hs hmax
        exact_mod_cast this
      rw [to_double_exact _ e h1]
      push_cast
      rfl

/-! ## `calc_mean_var` -/

theorem sorted_times_length (all_times : Nat → Nat → Nat) (i : Nat) :
    (sorted_times all_times i).length = 1000 := by
  rw [sorted_times_eq]
  simp

theorem retained_length (all_times : Nat → Nat → Nat) (i : Nat) :
    (retained all_times i).length = 800 := by
  unfold retained
  rw [List.length_take, sorted_times_length]
  rfl

theorem E_arr_eq_mean_of (all_times : Nat → Nat → Nat) (i : Nat) :
    E_arr all_times i = mean_of (retained all_times i) := by
  unfold E_arr mean_of
  rw [retained_length]
  unfold retained
  rw [foldl_range_getD (fun acc x => fadd acc (of_u64 x)) (sorted_times all_times i) _
    (by rw [sorted_times_length]; decide)]
  rfl

theorem V_arr_eq_population_variance_of (all_times : Nat → Nat → Nat) (i : Nat) :
    V_arr all_times i = population_variance_of (retained all_times i) (E_arr all_times i) := by
  unfold V_arr population_variance_of
  rw [retained_length]
  unfold retained
  rw [foldl_range_getD (fun acc x => fadd acc (fpow2 (fsub (of_u64 x) (E_arr all_times i))))
    (sorted_times all_times i) _ (by rw [sorted_times_length]; decide)]
  rfl

theorem foldl_fadd_nonneg (t : Nat → ℚ) (ht : ∀ x, 0 ≤ t x) (xs : List Nat) (a : ℚ)
    (ha : 0 ≤ a) : 0 ≤ xs.foldl (fun acc x => fadd acc (t x)) a := by
  induction xs generalizing a with
  | nil => exact ha
  | cons x xs ih =>
    rw [List.foldl_cons]
    exact ih _ (to_double_nonneg (add_nonneg ha (ht x)))

theorem population_variance_of_nonneg (xs : List Nat) (mean : ℚ) :
    0 ≤ population_variance_of xs mean := by
  unfold population_variance_of fdiv
  apply to_double_nonneg
  apply div_nonneg
  · exact foldl_fadd_nonneg (fun x => fpow2 (fsub (of_u64 x) mean))
      (fun x => to_double_nonneg (mul_self_nonneg _)) xs 0 (le_refl _)
  · positivity

/-- Column of equal values `v` with `800 * v` within 53 bits: mean `v`, variance `0`. -/
theorem equal_column (all_times : Nat → Nat → Nat) (i v : Nat)
    (hcol : ∀ j, j < 1000 → all_times j i = v) (hv : 800 * v ≤ 2 ^ 53) :
    E_arr all_times i = (v : ℚ) ∧ V_arr all_times i = 0 := by
  have hv64 : v % 2 ^ 64 = v := Nat.mod_eq_of_lt (by omega)
  have hE : E_arr all_times i = (v : ℚ) := by
    unfold E_arr
    have hfold := foldl_fadd_exact 0 (fun _ => v)
      (fun j => of_u64 ((sorted_times all_times i).getD j 0)) 800
      (fun j hj => by
        show of_u64 ((sorted_times all_times i).getD j 0) = (v : ℚ) * (2 : ℚ) ^ (0 : ℤ)
        rw [sorted_times_getD all_times i j (by omega), hcol j (by omega), hv64,
          of_u64_exact v (by omega)]
        simp)
      (by simp; omega)
    have h800 : Config.NUM_MEASUREMENTS - Config.NUM_OUTLIERS = 800 := rfl
    rw [h800, hfold]
    unfold fdiv
    simp only [Finset.sum_const, Finset.card_range, smul_eq_mul, zpow_zero, mul_one]
    have : (((800 * v : ℕ)) : ℚ) / ((800 : ℕ) : ℚ) = (v : ℚ) := by
      push_cast
      field_simp
    rw [this]
    exact to_double_natCast v (by omega)
  refine ⟨hE, ?_⟩
  unfold V_arr
  rw [hE]
  have hfold := foldl_fadd_exact 0 (fun _ => 0)
    (fun j => fpow2 (fsub (of_u64 ((sorted_times all_times i).getD j 0)) (v : ℚ))) 800
    (fun j hj => by
      show fpow2 (fsub (of_u64 ((sorted_times all_times i).getD j 0)) (v : ℚ)) =
        ((0 : ℕ) : ℚ) * (2 : ℚ) ^ (0 : ℤ)
      rw [sorted_times_getD all_times i j (by omega), hcol j (by omega), hv64,
        of_u64_exact v (by omega)]
      unfold fsub fpow2
      simp [to_double_zero])
    (by simp)
  have h800 : Config.NUM_MEASUREMENTS - Config.NUM_OUTLIERS = 800 := rfl
  rw [h800, hfold]
  unfold fdiv
  simp [to_double_zero]

set_option maxRecDepth 100000 in
theorem outliers_first_sum :
    (Finset.range 800).sum (fun j => if j < 200 then 14 else 10) = 8800 := by
  decide

set_option maxRecDepth 100000 in
theorem outliers_first_sum_sq :
    (Finset.range 800).sum (fun j => if j < 200 then 9 else 1) = 2400 := by
  decide

theorem outliers_first_mean (i : Nat) : E_arr outliers_first i = 11 := by
  unfold E_arr
  have hfold := foldl_fadd_exact 0 (fun j => if j < 200 then 14 else 10)
    (fun j => of_u64 ((sorted_times outliers_first i).getD j 0)) 800
    (fun j hj => by
      show of_u64 ((sorted_times outliers_first i).getD j 0) =
        (((if j < 200 then 14 else 10 : ℕ)) : ℚ) * (2 : ℚ) ^ (0 : ℤ)
      rw [sorted_times_getD _ i j (by omega)]
      unfold outliers_first
      by_cases h : j < 200
      · simp only [h, if_true]
        rw [show 14 % 2 ^ 64 = 14 by norm_num, of_u64_exact 14 (by norm_num)]
        simp
      · simp only [h, if_false]
        rw [show 10 % 2 ^ 64 = 10 by norm_num, of_u64_exact 10 (by norm_num)]
        simp)
    (by rw [outliers_first_sum]; norm_num)
  have h800 : Config.NUM_MEASUREMENTS - Config.NUM_OUTLIERS = 800 := rfl
  rw [h800, hfold, outliers_first_sum]
  unfold fdiv
  have : ((8800 : ℕ) : ℚ) * (2 : ℚ) ^ (0 : ℤ) / ((800 : ℕ) : ℚ) = ((11 : ℕ) : ℚ) := by norm_num
  rw [this, to_double_natCast 11 (by norm_num)]
  norm_num

theorem outliers_first_variance (i : Nat) : V_arr outliers_first i = 3 := by
  unfold V_arr
  rw [outliers_first_mean]
  have hfold := foldl_fadd_exact 0 (fun j => if j < 200 then 9 else 1)
    (fun j => fpow2 (fsub (of_u64 ((sorted_times outliers_first i).getD j 0)) 11)) 800
    (fun j hj => by
      show fpow2 (fsub (of_u64 ((sorted_times outliers_first i).getD j 0)) 11) =
        (((if j < 200 then 9 else 1 : ℕ)) : ℚ) * (2 : ℚ) ^ (0 : ℤ)
      rw [sorted_times_getD _ i j (by omega)]
      unfold outliers_first
      by_cases h : j < 200
      · simp only [h, if_true]
        rw [show 14 % 2 ^ 64 = 14 by norm_num, of_u64_exact 14 (by norm_num)]
        unfold fsub fpow2
        have e1 : ((14 : ℕ) : ℚ) - 11 = ((3 : ℕ) : ℚ) := by norm_num
        rw [e1, to_double_natCast 3 (by norm_num)]
        have e2 : ((3 : ℕ) : ℚ) * ((3 : ℕ) : ℚ) = ((9 : ℕ) : ℚ) := by norm_num
        rw [e2, to_double_natCast 9 (by norm_num)]
        simp
      · simp only [h, if_false]
        rw [show 10 % 2 ^ 64 = 10 by norm_num, of_u64_exact 10 (by norm_num)]
        unfold fsub fpow2
        have e1 : ((10 : ℕ) : ℚ) - 11 = ((-1 : ℤ) : ℚ) := by norm_num
        rw [e1, to_double_intCast (-1) (by norm_num)]
        have e2 : ((-1 : ℤ) : ℚ) * ((-1 : ℤ) : ℚ) = ((1 : ℕ) : ℚ) := by norm_num
        rw [e2, to_double_natCast 1 (by norm_num)]
        simp)
    (by rw [outliers_first_sum_sq]; norm_num)
  have h800 : Config.NUM_MEASUREMENTS - Config.NUM_OUTLIERS = 800 := rfl
  rw [h800, hfold, outliers_first_sum_sq]
  unfold fdiv
  have : ((2400 : ℕ) : ℚ) * (2 : ℚ) ^ (0 : ℤ) / ((800 : ℕ) : ℚ) = ((3 : ℕ) : ℚ) := by norm_num
  rw [this, to_double_natCast 3 (by norm_num)]
  norm_num

/-! ## `soft_init` and `prime` -/

theorem soft_init_upto (W : Nat) (arr : Arr) (n x : Nat) :
    (((List.range n).foldl (fun a i => set_time a (i * W + W - 1) 0) arr) x).next = (arr x).next ∧
    (((List.range n).foldl (fun a i => set_time a (i * W + W - 1) 0) arr) x).prev = (arr x).prev ∧
    (((List.range n).foldl (fun a i => set_time a (i * W + W - 1) 0) arr) x).time =
      if ∃ i, i < n ∧ x = i * W + W - 1 then 0 else (arr x).time := by
  induction n with
  | zero => simp
  | succ n ih =>
    obtain ⟨h1, h2, h3⟩ := ih
    rw [List.range_succ, List.foldl_append]
    simp only [List.foldl_cons, List.foldl_nil, set_time_next, set_time_prev, set_time_time]
    refine ⟨h1, h2, ?_⟩
    rw [h3]
    by_cases hx : x = n * W + W - 1
    · rw [if_pos hx, if_pos ⟨n, by omega, hx⟩]
    · rw [if_neg hx]
      by_cases he : ∃ i, i < n ∧ x = i * W + W - 1
      · obtain ⟨i, hi, e⟩ := he
        rw [if_pos ⟨i, hi, e⟩, if_pos ⟨i, by omega, e⟩]
      · rw [if_neg he, if_neg]
        rintro ⟨i, hi, e⟩
        by_cases hin : i = n
        · subst hin; exact hx e
        · exact he ⟨i, by omega, e⟩

theorem soft_init_next (S W : Nat) (arr : Arr) (x : Nat) :
    (soft_init S W arr x).next = (arr x).next := (soft_init_upto W arr S x).1

theorem soft_init_prev (S W : Nat) (arr : Arr) (x : Nat) :
    (soft_init S W arr x).prev = (arr x).prev := (soft_init_upto W arr S x).2.1

theorem soft_init_time (S W : Nat) (arr : Arr) (x : Nat) :
    (soft_init S W arr x).time =
      if ∃ i, i < S ∧ x = i * W + W - 1 then 0 else (arr x).time :=
  (soft_init_upto W arr S x).2.2

/-- The loop of `prime` stops at the first step that reaches node `0`. -/
theorem prime_loop_exit (arr : Arr) (K : Nat) :
    ∀ (curr steps fuel : Nat), 0 < K → K ≤ fuel →
      (∀ k, 0 < k → k < K → (nxt arr)^[k] curr ≠ 0) → (nxt arr)^[K] curr = 0 →
      prime_loop arr fuel curr steps = some (0, steps + K) := by
  induction K with
  | zero => intro _ _ _ h; omega
  | succ K ih =>
    intro curr steps fuel _ hf hne he
    obtain ⟨fuel, rfl⟩ : ∃ f, fuel = f + 1 := ⟨fuel - 1, by omega⟩
    rw [prime_loop]
    by_cases hK : K = 0
    · subst hK
      have : (arr curr).next = 0 := by simpa [nxt] using he
      simp [this]
    · have h1 : (arr curr).next ≠ 0 := by
        have := hne 1 (by omega) (by omega)
        simpa [nxt] using this
      simp only [h1, ne_eq, not_false_eq_true, if_true]
      rw [ih (arr curr).next (steps + 1) fuel (by omega) (by omega)]
      · congr 2; omega
      · intro k hk0 hk
        have := hne (k + 1) (by omega) (by omega)
        rwa [Function.iterate_succ_apply] at this
      · rwa [Function.iterate_succ_apply] at he

/-- On a single cycle of 640 nodes `prime` returns after exactly 640 steps. -/
theorem prime_returns {arr : Arr} (h : RingInv 640 arr) (fuel : Nat) (hf : 640 ≤ fuel) :
    prime arr fuel = some (0, 640) := by
  unfold prime
  have := prime_loop_exit arr 640 0 0 fuel (by omega) hf
    (fun k hk0 hk => h.minimal 0 (by omega) k hk0 hk) (h.period 0 (by omega))
  simpa using this

/-! ## The run of `probe` on a single cycle -/

theorem probe_curr_after {arr : Arr} (h : RingInv 640 arr) (tsc : Nat → Nat) (reads j : Nat)
    (hj : j ≤ 80) :
    ((probe_body 8 tsc)^[j] { arr := arr, curr := 0, reads := reads }).curr =
      (prv arr)^[8 * j] 0 :=
  (probe_iterate tsc arr reads j
    (fun k l hkl hl e => by
      have := chunk_last_inj h k l (by omega) (by omega) e
      omega)).2.2.1

/-- On a single cycle of 640 nodes the loop of `probe` makes exactly 80 iterations. -/
theorem probe_returns {arr : Arr} (h : RingInv 640 arr) (tsc : Nat → Nat) (reads fuel : Nat)
    (hf : 80 ≤ fuel) :
    probe 8 tsc fuel arr reads =
      some ((probe_body 8 tsc)^[80] { arr := arr, curr := 0, reads := reads }) := by
  unfold probe
  apply probe_loop_exit tsc 80 _ fuel (by omega) hf
  · intro k hk0 hk
    rw [probe_curr_after h tsc reads k (by omega)]
    intro e
    have := (prv_walk_eq_zero_iff h (8 * k) (by omega)).1 e
    omega
  · rw [probe_curr_after h tsc reads 80 (by omega)]
    exact (prv_walk_eq_zero_iff h (8 * 80) (by omega)).2 (Or.inr rfl)

/-! ## The shuffle when every `rand()` call returns `0` -/

theorem zero_rand_calls :
    shuffle_calls 80 8 (fun _ => 0) =
      (List.range 79).map (fun i => Call.sets i (0 % (80 - (i + 1)) + i + 1)) ++
      ([Call.nodes 0 1, Call.nodes 1 2, Call.nodes 2 3, Call.nodes 3 4, Call.nodes 4 5,
        Call.nodes 5 6, Call.nodes 6 7] ++
      (List.range 79).flatMap (fun i => (List.range 7).map (fun j =>
        Call.nodes ((i + 1) * 8 + j) ((i + 1) * 8 + (0 % (8 - (j + 1)) + j + 1))))) := by
  rw [shuffle_calls_eq]
  congr 1

theorem high_calls_ok :
    ∀ c, c ∈ (List.range 79).flatMap (fun i => (List.range 7).map (fun j =>
        Call.nodes ((i + 1) * 8 + j) ((i + 1) * 8 + (0 % (8 - (j + 1)) + j + 1)))) →
      HighNodesCall c := by
  intro c hc
  rw [List.mem_flatMap] at hc
  obtain ⟨i, hi, hc⟩ := hc
  rw [List.mem_map] at hc
  obtain ⟨j, hj, rfl⟩ := hc
  rw [List.mem_range] at hi hj
  have : 0 % (8 - (j + 1)) = 0 := Nat.zero_mod _
  exact ⟨_, _, rfl, by omega, by omega, by omega, by omega, by omega⟩

theorem swap_step_first {arr : Arr} (h : RingInv 640 arr) (e : (arr 0).next = 1) :
    RingInv 640 (swap_nodes arr 0 1) ∧ ((swap_nodes arr 0 1) 1).next = 0 := by
  have ren := swap_nodes_renamed h (by omega) (show 0 < 640 by omega) (show 1 < 640 by omega)
    (by omega)
  refine ⟨ren.ringInv h, ?_⟩
  rw [ren.next_eq 1 (by omega)]
  simp [swapIdx, e]

theorem swap_step_next {arr : Arr} (h : RingInv 640 arr) (a : Nat) (ha1 : 1 ≤ a) (ha : a < 7)
    (e : (arr a).next = 0) :
    RingInv 640 (swap_nodes arr a (a + 1)) ∧ ((swap_nodes arr a (a + 1)) (a + 1)).next = 0 := by
  have ren := swap_nodes_renamed h (by omega) (show a < 640 by omega)
    (show a + 1 < 640 by omega) (by omega)
  refine ⟨ren.ringInv h, ?_⟩
  rw [ren.next_eq (a + 1) (by omega)]
  have h1 : swapIdx a (a + 1) (a + 1) = a := by
    unfold swapIdx; rw [if_neg (by omega), if_pos rfl]
  rw [h1, e]
  unfold swapIdx
  rw [if_neg (by omega), if_neg (by omega)]

theorem high_step {arr : Arr} {c : Call} (h : RingInv 640 arr ∧ (arr 7).next = 0)
    (hc : HighNodesCall c) :
    RingInv 640 (Call.run 80 8 arr c) ∧ ((Call.run 80 8 arr c) 7).next = 0 := by
  obtain ⟨x, y, rfl, hx8, hx, hy8, hy, hxy⟩ := hc
  have ren := swap_nodes_renamed h.1 (by omega) hx hy hxy
  refine ⟨ren.ringInv h.1, ?_⟩
  show ((swap_nodes arr x y) 7).next = 0
  rw [ren.next_eq 7 (by omega)]
  have h1 : swapIdx x y 7 = 7 := by
    unfold swapIdx; rw [if_neg (by omega), if_neg (by omega)]
  rw [h1, h.2]
  unfold swapIdx
  rw [if_neg (by omega), if_neg (by omega)]

theorem seven_swaps {m : Arr} (h : RingInv 640 m) (e0 : (m 0).next = 1) :
    RingInv 640 (List.foldl (Call.run 80 8) m
      [Call.nodes 0 1, Call.nodes 1 2, Call.nodes 2 3, Call.nodes 3 4, Call.nodes 4 5,
        Call.nodes 5 6, Call.nodes 6 7]) ∧
    ((List.foldl (Call.run 80 8) m
      [Call.nodes 0 1, Call.nodes 1 2, Call.nodes 2 3, Call.nodes 3 4, Call.nodes 4 5,
        Call.nodes 5 6, Call.nodes 6 7]) 7).next = 0 := by
  simp only [List.foldl_cons, List.foldl_nil, Call.run]
  have s1 := swap_step_first h e0
  have s2 := swap_step_next s1.1 1 (by omega) (by omega) s1.2
  have s3 := swap_step_next s2.1 2 (by omega) (by omega) s2.2
  have s4 := swap_step_next s3.1 3 (by omega) (by omega) s3.2
  have s5 := swap_step_next s4.1 4 (by omega) (by omega) s4.2
  have s6 := swap_step_next s5.1 5 (by omega) (by omega) s5.2
  exact swap_step_next s6.1 6 (by omega) (by omega) s6.2

/-- When every `rand()` call returns `0`, node `7` ends up directly before node `0`. -/
theorem zero_rand_ring (arr : Arr) :
    RingInv 640 (init 80 8 (fun _ => 0) arr) ∧ ((init 80 8 (fun _ => 0) arr) 7).next = 0 := by
  unfold init shuffle_linked_list
  rw [zero_rand_calls, List.foldl_append, List.foldl_append]
  have h0 : RingInv 640 (init_link 80 8 arr) ∧ Intact 8 640 (init_link 80 8 arr) := by
    refine ⟨ringInv_init_link 80 8 arr, ?_⟩
    intro x hx hm
    rw [init_link_next 80 8 arr x hx]
    omega
  have h1 := foldl_calls_inv (P := fun a => RingInv 640 a ∧ Intact 8 640 a) (Q := SetsCall)
    (fun a c ha hc => sets_step ha hc)
    ((List.range 79).map (fun i => Call.sets i (0 % (80 - (i + 1)) + i + 1)))
    (sets_calls_ok (fun _ => 0)) _ h0
  exact foldl_calls_inv (P := fun a => RingInv 640 a ∧ (a 7).next = 0) (Q := HighNodesCall)
    (fun a c ha hc => high_step ha hc) _ high_calls_ok _
    (seven_swaps h1.1 (h1.2 0 (by omega) (by omega)))

/-- When node `7` is directly before node `0`, `probe` never stores on node `7`. -/
theorem chunk_last_ne_seven {arr : Arr} (h : RingInv 640 arr) (e : (arr 7).next = 0) (k : Nat)
    (hk : k < 80) : chunk_last arr k ≠ 7 := by
  intro hc
  rw [chunk_last_eq h k hk] at hc
  have h7 : (nxt arr)^[639] 0 = 7 := by
    have h1 : (nxt arr)^[639] 0 = (prv arr)^[1] 0 := (h.prv_iterate_eq 1 0 (by omega) (by omega)).symm
    rw [h1]
    show (arr 0).prev = 7
    rw [← e, h.prev_next 7 (by omega)]
  rw [← h7, h.iterate_eq_iff _ _ 0 (by omega)] at hc
  omega

/-! ## A column of equal values that is not averaged exactly -/

/-- In `[2^53, 2^54)` an integer `4 m + 1` lies halfway between two doubles and is rounded
down to `4 m`, whose significand `2 m` is even. -/
theorem to_double_halfway (m : Nat) (h1 : 2 ^ 53 ≤ 4 * m + 1) (h2 : 4 * m + 1 < 2 ^ 54) :
    to_double (((4 * m + 1 : ℕ) : ℚ)) = ((4 * m : ℕ) : ℚ) := by
  have hlog : Int.log 2 |(((4 * m + 1 : ℕ) : ℚ))| = 53 := by
    rw [abs_of_nonneg (by positivity), Int.log_natCast,
      Nat.log_eq_of_pow_le_of_lt_pow (m := 53) h1 h2]
    rfl
  unfold to_double
  rw [if_neg (by positivity), hlog]
  have hfl : ⌊(((4 * m + 1 : ℕ) : ℚ)) / (2 : ℚ) ^ ((53 : ℤ) - 52)⌋ = ((2 * m : ℕ) : ℤ) := by
    rw [Int.floor_eq_iff]
    push_cast
    norm_num
    constructor <;> linarith
  unfold round_even
  rw [hfl]
  push_cast
  norm_num
  have hmod : (2 * (m : ℤ)) % 2 = 0 := by omega
  have e1 : ((4 : ℚ) * (m : ℚ) + 1) / 2 - 2 * (m : ℚ) = 1 / 2 := by ring
  rw [e1]
  norm_num
  ring

/-- Running total of `n` copies of `2^44 + 1` accumulated in double arithmetic: exact up to
`512` terms, and from there on every addition loses `1`. -/
theorem running_total (g : Nat → ℚ) (hg : ∀ j, j < 800 → g j = (((2 ^ 44 + 1 : ℕ)) : ℚ))
    (n : Nat) (h512 : 512 ≤ n) (h800 : n ≤ 800) :
    (List.range n).foldl (fun acc j => fadd acc (g j)) 0 = (((n * 2 ^ 44 + 512 : ℕ)) : ℚ) := by
  induction n, h512 using Nat.le_induction with
  | base =>
    have h511 := foldl_fadd_exact 0 (fun _ => 2 ^ 44 + 1) g 511
      (fun j hj => by rw [hg j (by omega)]; simp)
      (by simp)
    rw [show (512 : Nat) = 511 + 1 from rfl, List.range_succ, List.foldl_append, h511]
    simp only [List.foldl_cons, List.foldl_nil, Finset.sum_const, Finset.card_range,
      smul_eq_mul, zpow_zero, mul_one]
    rw [hg 511 (by omega)]
    unfold fadd
    have e : (((511 * (2 ^ 44 + 1) : ℕ)) : ℚ) + (((2 ^ 44 + 1 : ℕ)) : ℚ) =
        (((2 ^ 44 + 1 : ℤ)) : ℚ) * (2 : ℚ) ^ (9 : ℤ) := by norm_num
    rw [e, to_double_exact (2 ^ 44 + 1) 9 (by norm_num)]
    norm_num
  | succ n hn ih =>
    rw [List.range_succ, List.foldl_append, ih (by omega)]
    simp only [List.foldl_cons, List.foldl_nil]
    rw [hg n (by omega)]
    unfold fadd
    have e : (((n * 2 ^ 44 + 512 : ℕ)) : ℚ) + (((2 ^ 44 + 1 : ℕ)) : ℚ) =
        (((4 * ((n + 1) * 2 ^ 42 + 128) + 1 : ℕ)) : ℚ) := by
      push_cast
      ring
    rw [e, to_double_halfway _ (by omega) (by omega)]
    push_cast
    ring

/-- The quotient `(800 * 2^44 + 512) / 800` rounds to `2^44 + 41/64`. -/
theorem to_double_quotient :
    to_double ((((800 * 2 ^ 44 + 512 : ℕ)) : ℚ) / ((800 : ℕ) : ℚ)) = (2 : ℚ) ^ 44 + 41 / 64 := by
  have hq : (((800 * 2 ^ 44 + 512 : ℕ)) : ℚ) / ((800 : ℕ) : ℚ) = (2 : ℚ) ^ 44 + 16 / 25 := by
    norm_num
  rw [hq]
  have hlog : Int.log 2 |(2 : ℚ) ^ 44 + 16 / 25| = 44 := by
    rw [abs_of_nonneg (by positivity), Int.log_of_one_le_right _ (by norm_num)]
    have hfl : ⌊(2 : ℚ) ^ 44 + 16 / 25⌋₊ = 2 ^ 44 := by
      rw [Nat.floor_eq_iff (by positivity)]
      norm_num
    rw [hfl, Nat.log_pow (by norm_num)]
    rfl
  unfold to_double
  rw [if_neg (by positivity), hlog]
  have hfl : ⌊((2 : ℚ) ^ 44 + 16 / 25) / (2 : ℚ) ^ ((44 : ℤ) - 52)⌋ = 2 ^ 52 + 163 := by
    rw [Int.floor_eq_iff]
    norm_num
  unfold round_even
  rw [hfl]
  norm_num

/-- For a column of `1000` copies of `2^44 + 1` the returned mean is `2^44 + 41/64` and the
returned variance is `529/4096`. -/
theorem equal_column_inexact :
    E_arr (fun _ _ => 2 ^ 44 + 1) 0 = (2 : ℚ) ^ 44 + 41 / 64 ∧
    V_arr (fun _ _ => 2 ^ 44 + 1) 0 = 529 / 4096 := by
  have hget : ∀ j, j < 800 →
      of_u64 ((sorted_times (fun _ _ => 2 ^ 44 + 1) 0).getD j 0) = (((2 ^ 44 + 1 : ℕ)) : ℚ) := by
    intro j hj
    rw [sorted_times_getD _ 0 j (by omega)]
    have : (2 ^ 44 + 1) % 2 ^ 64 = 2 ^ 44 + 1 := by norm_num
    rw [this]
    exact of_u64_exact _ (by norm_num)
  have h800 : Config.NUM_MEASUREMENTS - Config.NUM_OUTLIERS = 800 := rfl
  have hE : E_arr (fun _ _ => 2 ^ 44 + 1) 0 = (2 : ℚ) ^ 44 + 41 / 64 := by
    unfold E_arr
    rw [h800, running_total _ hget 800 (by omega) (by omega)]
    unfold fdiv
    exact to_double_quotient
  refine ⟨hE, ?_⟩
  unfold V_arr
  rw [hE]
  have hfold := foldl_fadd_exact (-12) (fun _ => 529)
    (fun j => fpow2 (fsub (of_u64 ((sorted_times (fun _ _ => 2 ^ 44 + 1) 0).getD j 0))
      ((2 : ℚ) ^ 44 + 41 / 64))) 800
    (fun j hj => by
      show fpow2 (fsub (of_u64 ((sorted_times (fun _ _ => 2 ^ 44 + 1) 0).getD j 0))
        ((2 : ℚ) ^ 44 + 41 / 64)) = ((529 : ℕ) : ℚ) * (2 : ℚ) ^ (-12 : ℤ)
      rw [hget j hj]
      unfold fsub fpow2
      have e1 : (((2 ^ 44 + 1 : ℕ)) : ℚ) - ((2 : ℚ) ^ 44 + 41 / 64) =
          ((23 : ℤ) : ℚ) * (2 : ℚ) ^ (-6 : ℤ) := by norm_num
      rw [e1, to_double_exact 23 (-6) (by norm_num)]
      have e2 : ((23 : ℤ) : ℚ) * (2 : ℚ) ^ (-6 : ℤ) * (((23 : ℤ) : ℚ) * (2 : ℚ) ^ (-6 : ℤ)) =
          ((529 : ℤ) : ℚ) * (2 : ℚ) ^ (-12 : ℤ) := by norm_num
      rw [e2, to_double_exact 529 (-12) (by norm_num)]
      norm_num)
    (by simp)
  rw [h800, hfold]
  unfold fdiv
  have e3 : (((Finset.range 800).sum (fun _ => 529) : ℕ) : ℚ) * (2 : ℚ) ^ (-12 : ℤ) /
      ((800 : ℕ) : ℚ) = ((529 : ℤ) : ℚ) * (2 : ℚ) ^ (-12 : ℤ) := by
    simp only [Finset.sum_const, Finset.card_range, smul_eq_mul]
    norm_num
  rw [e3, to_double_exact 529 (-12) (by norm_num)]
  norm_num

/-! ## Settled claims -/

/-- C1: for `S = 80`, `W = 8` and every sequence of `rand()` outputs, after any number `k`
of the `swap_whole_sets` / `swap_nodes` calls that `shuffle_linked_list` makes on the
freshly linked ring, and so also after the whole shuffle, the ring is one cycle of
`S * W` nodes: `next` stays among the nodes, returns to every node after exactly `S * W`
steps and after no smaller positive number of steps, and reaches every node from every
node. -/
theorem C1_shuffle_keeps_single_cycle (rand : Nat → Nat) (arr : Arr) (k : Nat) :
    RingInv (Config.S * Config.W)
      (((shuffle_calls Config.S Config.W rand).take k).foldl (Call.run Config.S Config.W)
        (init_link Config.S Config.W arr)) ∧
    RingInv (Config.S * Config.W)
      (shuffle_linked_list Config.S Config.W rand (init_link Config.S Config.W arr)) :=
  ⟨(shuffle_upto_inv rand arr k).1, (shuffle_inv rand arr).1⟩

/-- C2: for all `S` and `W` (in particular `S ≥ 1`, `W ≥ 1`) the linking loop of `init`
links node `i` to `(i + 1) mod N` by `next` and to `(i - 1) mod N` by `prev`, where
`N = S * W`, and the ring is one cycle: `N` steps of `next` return to the start and `k`
steps with `0 < k < N` never do. -/
theorem C2_init_link_ring (S W : Nat) (arr : Arr) :
    (∀ i, i < S * W →
      (init_link S W arr i).next = (i + 1) % (S * W) ∧
      ((init_link S W arr i).prev : ℤ) = ((i : ℤ) - 1) % ((S * W : ℕ) : ℤ)) ∧
    (∀ x, x < S * W →
      (nxt (init_link S W arr))^[S * W] x = x ∧
      ∀ k, 0 < k → k < S * W → (nxt (init_link S W arr))^[k] x ≠ x) := by
  refine ⟨?_, ?_⟩
  · intro i hi
    refine ⟨init_link_next S W arr i hi, ?_⟩
    rw [init_link_prev S W arr i hi]
    have e : ((i : ℤ) - 1) % ((S * W : ℕ) : ℤ) =
        (((i + (S * W - 1) : ℕ)) : ℤ) % ((S * W : ℕ) : ℤ) := by
      have h1 : (((i + (S * W - 1) : ℕ)) : ℤ) = ((i : ℤ) - 1) + ((S * W : ℕ) : ℤ) := by
        have : 1 ≤ S * W := by omega
        push_cast [Nat.cast_sub this]
        ring
      rw [h1, Int.add_emod_self]
    rw [e]
    exact Int.natCast_mod _ _
  · intro x hx
    have h := ringInv_init_link S W arr
    exact ⟨h.period x hx, h.minimal x hx⟩

/-- Witness of C2 at the configured geometry: node `0` of the freshly linked ring. -/
theorem C2_init_link_ring_witness :
    (init_link 80 8 zero_mem 0).next = (0 + 1) % (80 * 8) ∧
    (nxt (init_link 80 8 zero_mem))^[80 * 8] 0 = 0 :=
  ⟨((C2_init_link_ring 80 8 zero_mem).1 0 (by decide)).1,
    ((C2_init_link_ring 80 8 zero_mem).2 0 (by decide)).1⟩

/-- C3, counterexample: on the ring of two nodes `swap_nodes(arr, 0, 1)` leaves node `0`
pointing to itself, so the result is not a cycle over the two nodes. -/
theorem C3_counterexample_two_nodes :
    RingInv 2 ring2 ∧ ((swap_nodes ring2 0 1) 0).next = 0 ∧
      ¬ RingInv 2 (swap_nodes ring2 0 1) := by
  have hnext : ((swap_nodes ring2 0 1) 0).next = 0 := by
    simp [swap_nodes, ring2]
  refine ⟨?_, hnext, ?_⟩
  · refine ⟨?_, ?_, ?_, ?_, ?_, ?_, ?_⟩
    · intro x hx
      have : x = 0 ∨ x = 1 := by omega
      rcases this with rfl | rfl <;> simp [ring2]
    · intro x hx
      have : x = 0 ∨ x = 1 := by omega
      rcases this with rfl | rfl <;> simp [ring2]
    · intro x hx
      have : x = 0 ∨ x = 1 := by omega
      rcases this with rfl | rfl <;> simp [ring2]
    · intro x hx
      have : x = 0 ∨ x = 1 := by omega
      rcases this with rfl | rfl <;> simp [ring2]
    · intro x hx
      have : x = 0 ∨ x = 1 := by omega
      rcases this with rfl | rfl <;> simp [ring2, nxt]
    · intro x hx k hk0 hk
      have hk1 : k = 1 := by omega
      subst hk1
      have : x = 0 ∨ x = 1 := by omega
      rcases this with rfl | rfl <;> simp [ring2, nxt]
    · intro x hx y hy
      have hx' : x = 0 ∨ x = 1 := by omega
      have hy' : y = 0 ∨ y = 1 := by omega
      rcases hx' with rfl | rfl <;> rcases hy' with rfl | rfl
      · exact ⟨0, by omega, rfl⟩
      · exact ⟨1, by omega, by simp [ring2, nxt]⟩
      · exact ⟨1, by omega, by simp [ring2, nxt]⟩
      · exact ⟨0, by omega, rfl⟩
  · intro h
    exact h.next_ne_self (le_refl 2) (show 0 < 2 by omega) hnext

/-- C3, amended: on every single cycle of `n ≥ 3` nodes and for all nodes `i ≠ j`,
`swap_nodes(arr, i, j)` gives a single cycle over the same nodes in which `i` and `j`
have exchanged places: the node `t` steps after `x` is replaced by its image under the
exchange of `i` and `j`, every link is the old link renamed, the neighbours are exchanged
as the adjacency case dictates, and no `time` field changes. -/
theorem C3_swap_nodes_exchanges (n : Nat) (arr : Arr) (i j : Nat) (h : RingInv n arr)
    (hn : 3 ≤ n) (hi : i < n) (hj : j < n) (hij : i ≠ j) :
    RingInv n (swap_nodes arr i j) ∧
    (∀ x, x < n → ∀ t, (nxt (swap_nodes arr i j))^[t] (swapIdx i j x) =
      swapIdx i j ((nxt arr)^[t] x)) ∧
    (∀ x, x < n →
      ((swap_nodes arr i j) x).next = swapIdx i j ((arr (swapIdx i j x)).next) ∧
      ((swap_nodes arr i j) x).prev = swapIdx i j ((arr (swapIdx i j x)).prev)) ∧
    ((arr i).next = j →
      ((swap_nodes arr i j) j).prev = (arr i).prev ∧ ((swap_nodes arr i j) j).next = i ∧
      ((swap_nodes arr i j) i).prev = j ∧ ((swap_nodes arr i j) i).next = (arr j).next) ∧
    ((arr j).next = i →
      ((swap_nodes arr i j) i).prev = (arr j).prev ∧ ((swap_nodes arr i j) i).next = j ∧
      ((swap_nodes arr i j) j).prev = i ∧ ((swap_nodes arr i j) j).next = (arr i).next) ∧
    ((arr i).next ≠ j → (arr j).next ≠ i →
      ((swap_nodes arr i j) i).prev = (arr j).prev ∧
      ((swap_nodes arr i j) i).next = (arr j).next ∧
      ((swap_nodes arr i j) j).prev = (arr i).prev ∧
      ((swap_nodes arr i j) j).next = (arr i).next) ∧
    (∀ x, ((swap_nodes arr i j) x).time = (arr x).time) := by
  have ren := swap_nodes_renamed h hn hi hj hij
  have hn2 : 2 ≤ n := by omega
  have hNi := h.next_ne_self hn2 hi
  have hNj := h.next_ne_self hn2 hj
  have hPi := h.prev_ne_self hn2 hi
  have hPj := h.prev_ne_self hn2 hj
  have si : swapIdx i j i = j := by simp [swapIdx]
  have sj : swapIdx i j j = i := by simp [swapIdx, Ne.symm hij]
  have so : ∀ y, y ≠ i → y ≠ j → swapIdx i j y = y := by
    intro y h1 h2; simp [swapIdx, h1, h2]
  refine ⟨ren.ringInv h, ?_, fun x hx => ⟨ren.next_eq x hx, ren.prev_eq x hx⟩, ?_, ?_, ?_, ?_⟩
  · intro x hx t
    rw [ren.iterate h t _ (swapIdx_lt hi hj hx), swapIdx_invol]
  · intro c
    have hP2 : (arr j).prev = i := by rw [← c, h.prev_next i hi]
    have hN2i : (arr j).next ≠ i := by rw [← c]; exact h.next_next_ne_self hn hi
    have hP1j : (arr i).prev ≠ j := by
      intro e; apply hN2i; rw [← e, h.next_prev i hi]
    refine ⟨?_, ?_, ?_, ?_⟩
    · rw [ren.prev_eq j hj, sj, so _ hPi hP1j]
    · rw [ren.next_eq j hj, sj, c, sj]
    · rw [ren.prev_eq i hi, si, hP2, si]
    · rw [ren.next_eq i hi, si, so _ hN2i hNj]
  · intro c
    have hP1 : (arr i).prev = j := by rw [← c, h.prev_next j hj]
    have hN1j : (arr i).next ≠ j := by rw [← c]; exact h.next_next_ne_self hn hj
    have hP2i : (arr j).prev ≠ i := by
      intro e; apply hN1j; rw [← e, h.next_prev j hj]
    refine ⟨?_, ?_, ?_, ?_⟩
    · rw [ren.prev_eq i hi, si, so _ hP2i hPj]
    · rw [ren.next_eq i hi, si, c, si]
    · rw [ren.prev_eq j hj, sj, hP1, sj]
    · rw [ren.next_eq j hj, sj, so _ hNi hN1j]
  · intro c1 c2
    have hP1j : (arr i).prev ≠ j := by
      intro e; apply c2; rw [← e, h.next_prev i hi]
    have hP2i : (arr j).prev ≠ i := by
      intro e; apply c1; rw [← e, h.next_prev j hj]
    refine ⟨?_, ?_, ?_, ?_⟩
    · rw [ren.prev_eq i hi, si, so _ hP2i hPj]
    · rw [ren.next_eq i hi, si, so _ c2 hNj]
    · rw [ren.prev_eq j hj, sj, so _ hPi hP1j]
    · rw [ren.next_eq j hj, sj, so _ hNi c1]
  · intro x
    unfold swap_nodes
    split_ifs <;> simp

/-- Witness of C3 (amended): nodes `0` and `1` of the freshly linked ring of three nodes. -/
theorem C3_swap_nodes_exchanges_witness :
    RingInv (3 * 1) (init_link 3 1 zero_mem) ∧
    RingInv (3 * 1) (swap_nodes (init_link 3 1 zero_mem) 0 1) :=
  ⟨ringInv_init_link 3 1 zero_mem,
    (C3_swap_nodes_exchanges (3 * 1) (init_link 3 1 zero_mem) 0 1
      (ringInv_init_link 3 1 zero_mem) (by decide) (by decide) (by decide) (by decide)).1⟩

/-- Run `b` of a layout holds exactly the nodes of the address group `G b`. -/
theorem Layout.run_eq_group {arr : Arr} {s : Nat} {G : Nat → Nat} (h : RingInv 640 arr)
    (L : Layout 80 8 arr s G) (b : Nat) (hb : b < 80) (x : Nat) :
    (∃ k, k < 8 ∧ x = (nxt arr)^[b * 8 + k] s) ↔ x / 8 = G b := by
  constructor
  · rintro ⟨k, hk, rfl⟩
    exact L.run b hb k hk
  · intro hx
    have hGb := L.group_lt b hb
    obtain ⟨t, ht, e⟩ := h.connected s L.base_lt x (by omega)
    have h1 := L.run (t / 8) (by omega) (t % 8) (by omega)
    rw [show t / 8 * 8 + t % 8 = t by omega, e, hx] at h1
    have h2 := L.inj b hb (t / 8) (by omega) h1
    refine ⟨t % 8, by omega, ?_⟩
    rw [h2, show t / 8 * 8 + t % 8 = t by omega, e]

/-- C4: for `S = 80`, `W = 8` and every sequence of `rand()` outputs, after
`shuffle_linked_list` on the freshly linked ring there is a node `s`, the first node of the
block of node `0`, such that counted from `s` every aligned run of `8` consecutive ring
nodes is exactly one address group `{8 g, ..., 8 g + 7}`, and every address group is
exactly one such run. -/
theorem C4_shuffle_keeps_groups (rand : Nat → Nat) (arr : Arr) :
    ∃ s, s < 640 ∧ s / 8 = 0 ∧
      (∃ p, p < 8 ∧
        (nxt (shuffle_linked_list Config.S Config.W rand (init_link Config.S Config.W arr)))^[p]
          s = 0) ∧
      (∀ b, b < 80 → ∃ g, g < 80 ∧ ∀ x,
        (∃ k, k < 8 ∧ x = (nxt (shuffle_linked_list Config.S Config.W rand
          (init_link Config.S Config.W arr)))^[b * 8 + k] s) ↔ x / 8 = g) ∧
      (∀ g, g < 80 → ∃ b, b < 80 ∧
        (∀ x, (∃ k, k < 8 ∧ x = (nxt (shuffle_linked_list Config.S Config.W rand
          (init_link Config.S Config.W arr)))^[b * 8 + k] s) ↔ x / 8 = g) ∧
        ∀ c, c < 80 →
          (∀ x, (∃ k, k < 8 ∧ x = (nxt (shuffle_linked_list Config.S Config.W rand
            (init_link Config.S Config.W arr)))^[c * 8 + k] s) ↔ x / 8 = g) → c = b) := by
  obtain ⟨h, s, G, L⟩ := shuffle_inv rand arr
  show ∃ s, s < 640 ∧ s / 8 = 0 ∧
      (∃ p, p < 8 ∧ (nxt (shuffle_linked_list 80 8 rand (init_link 80 8 arr)))^[p] s = 0) ∧
      (∀ b, b < 80 → ∃ g, g < 80 ∧ ∀ x,
        (∃ k, k < 8 ∧ x = (nxt (shuffle_linked_list 80 8 rand
          (init_link 80 8 arr)))^[b * 8 + k] s) ↔ x / 8 = g) ∧
      (∀ g, g < 80 → ∃ b, b < 80 ∧
        (∀ x, (∃ k, k < 8 ∧ x = (nxt (shuffle_linked_list 80 8 rand
          (init_link 80 8 arr)))^[b * 8 + k] s) ↔ x / 8 = g) ∧
        ∀ c, c < 80 →
          (∀ x, (∃ k, k < 8 ∧ x = (nxt (shuffle_linked_list 80 8 rand
            (init_link 80 8 arr)))^[c * 8 + k] s) ↔ x / 8 = g) → c = b)
  generalize shuffle_linked_list 80 8 rand (init_link 80 8 arr) = ring at h L
  have hs0 : s / 8 = 0 := by
    have := L.run 0 (by omega) 0 (by omega)
    simpa [L.first] using this
  refine ⟨s, L.base_lt, hs0, L.zero_pos h, ?_, ?_⟩
  · intro b hb
    exact ⟨G b, L.group_lt b hb, fun x => L.run_eq_group h b hb x⟩
  · intro g hg
    obtain ⟨b, hb, rfl⟩ := L.surj g hg
    refine ⟨b, hb, fun x => L.run_eq_group h b hb x, ?_⟩
    intro c hc hrun
    have h1 := (hrun ((nxt ring)^[c * 8 + 0] s)).1 ⟨0, by omega, rfl⟩
    rw [L.run c hc 0 (by omega)] at h1
    exact L.inj c hc b hb h1

/-- Witness of C4: the shuffle with every `rand()` output `0` on zeroed memory. -/
theorem C4_shuffle_keeps_groups_witness :
    ∃ s, s < 640 ∧ s / 8 = 0 ∧
      ∃ p, p < 8 ∧
        (nxt (shuffle_linked_list Config.S Config.W (fun _ => 0)
          (init_link Config.S Config.W zero_mem)))^[p] s = 0 := by
  obtain ⟨s, h1, h2, h3, _⟩ := C4_shuffle_keeps_groups (fun _ => 0) zero_mem
  exact ⟨s, h1, h2, h3⟩

theorem with_times_next (arr : Arr) (tm : Nat → Nat) (x : Nat) :
    (with_times arr tm x).next = (arr x).next := rfl

theorem with_times_prev (arr : Arr) (tm : Nat → Nat) (x : Nat) :
    (with_times arr tm x).prev = (arr x).prev := rfl

theorem chunk_latency_lt (tsc : Nat → Nat) (reads k : Nat) :
    chunk_latency tsc reads k < 2 ^ 64 := by
  unfold chunk_latency
  have : (tsc (reads + 2 * k + 1) % 2 ^ 64 + 2 ^ 64 - tsc (reads + 2 * k) % 2 ^ 64) % 2 ^ 64
      < 2 ^ 64 := Nat.mod_lt _ (by norm_num)
  omega

/-- The run of `probe` on a single cycle of 640 nodes with a layout by address groups. -/
theorem probe_on_layout {ring : Arr} {s : Nat} {G : Nat → Nat} (h : RingInv 640 ring)
    (L : Layout 80 8 ring s G) (tsc : Nat → Nat) (reads fuel : Nat) (hf : 80 ≤ fuel) :
    ∃ st, probe 8 tsc fuel ring reads = some st ∧
      st = (probe_body 8 tsc)^[80] { arr := ring, curr := 0, reads := reads } ∧
      st.curr = 0 ∧
      (∀ k, 0 < k → k < 80 →
        ((probe_body 8 tsc)^[k] { arr := ring, curr := 0, reads := reads }).curr ≠ 0) ∧
      (∀ f, f < 80 → probe 8 tsc f ring reads = none) ∧
      (∀ k l, k < 80 → l < 80 → chunk_last ring k = chunk_last ring l → k = l) ∧
      (∀ k, k < 80 →
        (st.arr (chunk_last ring k)).time = chunk_latency tsc reads k ∧
          chunk_latency tsc reads k < 2 ^ 64) ∧
      (∀ x, (∀ k, k < 80 → x ≠ chunk_last ring k) → (st.arr x).time = (ring x).time) ∧
      (∀ g, g < 80 → ∃ k, k < 80 ∧ chunk_last ring k / 8 = g ∧
        ∀ l, l < 80 → chunk_last ring l / 8 = g → l = k) := by
  have hne : ∀ k, 0 < k → k < 80 →
      ((probe_body 8 tsc)^[k] { arr := ring, curr := 0, reads := reads }).curr ≠ 0 := by
    intro k hk0 hk
    rw [probe_curr_after h tsc reads k (by omega)]
    intro e
    have := (prv_walk_eq_zero_iff h (8 * k) (by omega)).1 e
    omega
  have hit := probe_iterate tsc ring reads 80
    (fun k l hkl hl e => by
      have := chunk_last_inj h k l (by omega) (by omega) e
      omega)
  obtain ⟨_, _, hcurr, _, htime, hrest⟩ := hit
  refine ⟨_, probe_returns h tsc reads fuel hf, rfl, ?_, hne, ?_, ?_, ?_, hrest, ?_⟩
  · rw [hcurr]
    exact (prv_walk_eq_zero_iff h (8 * 80) (by omega)).2 (Or.inr rfl)
  · intro f hf80
    unfold probe
    apply probe_loop_starved
    intro k hk0 hk
    exact hne k hk0 (by omega)
  · intro k l hk hl e
    exact chunk_last_inj h k l hk hl e
  · intro k hk
    exact ⟨htime k hk, chunk_latency_lt tsc reads k⟩
  · intro g hg
    exact chunk_last_one_per_group h L g hg

/-- C5: on the ring produced by `init` (`S = 80`, `W = 8`, any `rand()` outputs, any
contents of the `time` fields) and for any cycle-counter readings, `probe` returns when
given fuel for at least `80` iterations and does not return on less; it makes exactly `80`
iterations, the cursor being back on `arr` (node `0`) after the 80th and after no earlier
one; the `80` nodes it stores on are distinct, every address group holds exactly one of
them, each of them holds the latency of its chunk, a 64-bit unsigned value, and every other
`time` field is unchanged. -/
theorem C5_probe_one_value_per_group (rand : Nat → Nat) (arr : Arr) (tm : Nat → Nat)
    (tsc : Nat → Nat) (reads fuel : Nat) (hf : 80 ≤ fuel) :
    ∃ st, probe Config.W tsc fuel (with_times (init Config.S Config.W rand arr) tm) reads
        = some st ∧
      st = (probe_body Config.W tsc)^[80]
        { arr := with_times (init Config.S Config.W rand arr) tm, curr := 0, reads := reads } ∧
      st.curr = 0 ∧
      (∀ k, 0 < k → k < 80 → ((probe_body Config.W tsc)^[k]
        { arr := with_times (init Config.S Config.W rand arr) tm, curr := 0,
          reads := reads }).curr ≠ 0) ∧
      (∀ f, f < 80 →
        probe Config.W tsc f (with_times (init Config.S Config.W rand arr) tm) reads = none) ∧
      (∀ k l, k < 80 → l < 80 →
        chunk_last (with_times (init Config.S Config.W rand arr) tm) k =
          chunk_last (with_times (init Config.S Config.W rand arr) tm) l → k = l) ∧
      (∀ k, k < 80 →
        (st.arr (chunk_last (with_times (init Config.S Config.W rand arr) tm) k)).time =
          chunk_latency tsc reads k ∧ chunk_latency tsc reads k < 2 ^ 64) ∧
      (∀ x, (∀ k, k < 80 → x ≠ chunk_last (with_times (init Config.S Config.W rand arr) tm) k) →
        (st.arr x).time = tm x) ∧
      (∀ g, g < 80 → ∃ k, k < 80 ∧
        chunk_last (with_times (init Config.S Config.W rand arr) tm) k / 8 = g ∧
        ∀ l, l < 80 →
          chunk_last (with_times (init Config.S Config.W rand arr) tm) l / 8 = g → l = k) := by
  obtain ⟨h0, s, G, L0⟩ := shuffle_inv rand arr
  have h : RingInv 640 (with_times (init 80 8 rand arr) tm) :=
    h0.same_links (with_times_next _ tm) (with_times_prev _ tm)
  have L : Layout 80 8 (with_times (init 80 8 rand arr) tm) s G :=
    L0.same_next (with_times_next _ tm)
  show ∃ st, probe 8 tsc fuel (with_times (init 80 8 rand arr) tm) reads = some st ∧
      st = (probe_body 8 tsc)^[80]
        { arr := with_times (init 80 8 rand arr) tm, curr := 0, reads := reads } ∧
      st.curr = 0 ∧
      (∀ k, 0 < k → k < 80 → ((probe_body 8 tsc)^[k]
        { arr := with_times (init 80 8 rand arr) tm, curr := 0, reads := reads }).curr ≠ 0) ∧
      (∀ f, f < 80 → probe 8 tsc f (with_times (init 80 8 rand arr) tm) reads = none) ∧
      (∀ k l, k < 80 → l < 80 →
        chunk_last (with_times (init 80 8 rand arr) tm) k =
          chunk_last (with_times (init 80 8 rand arr) tm) l → k = l) ∧
      (∀ k, k < 80 →
        (st.arr (chunk_last (with_times (init 80 8 rand arr) tm) k)).time =
          chunk_latency tsc reads k ∧ chunk_latency tsc reads k < 2 ^ 64) ∧
      (∀ x, (∀ k, k < 80 → x ≠ chunk_last (with_times (init 80 8 rand arr) tm) k) →
        (st.arr x).time = tm x) ∧
      (∀ g, g < 80 → ∃ k, k < 80 ∧
        chunk_last (with_times (init 80 8 rand arr) tm) k / 8 = g ∧
        ∀ l, l < 80 → chunk_last (with_times (init 80 8 rand arr) tm) l / 8 = g → l = k)
  exact probe_on_layout h L tsc reads fuel hf

/-- Witness of C5: zeroed memory, every `rand()` output `0`, a steady counter, fuel `80`. -/
theorem C5_probe_one_value_per_group_witness :
    80 ≤ 80 ∧ ∃ st, probe Config.W steady_tsc 80
      (with_times (init Config.S Config.W (fun _ => 0) zero_mem) (fun _ => 0)) 0 = some st ∧
      st.curr = 0 := by
  obtain ⟨st, h1, _, h3, _⟩ :=
    C5_probe_one_value_per_group (fun _ => 0) zero_mem (fun _ => 0) steady_tsc 0 80 (le_refl 80)
  exact ⟨le_refl 80, st, h1, h3⟩

theorem steady_latency (k : Nat) (hk : k < 80) : chunk_latency steady_tsc 0 k = 10 := by
  unfold chunk_latency steady_tsc
  norm_num
  omega

theorem measure_once_eq {S W : Nat} {tsc : Nat → Nat} {fuel : Nat} {arr : Arr} {reads : Nat}
    {p : Nat × Nat} {st : ProbeState} (hp : prime arr fuel = some p)
    (hs : probe W tsc fuel arr reads = some st) :
    measure_once S W tsc fuel arr reads =
      some (st, (List.range S).map (fun i => (st.arr (i * W + W - 1)).time)) := by
  unfold measure_once
  rw [hp, hs]

/-- With every `rand()` output `0`: the row copied by `measure_once` and the nodes on which
`probe` stored. -/
theorem measure_zero_rand (arr : Arr) :
    ∃ st times,
      measure_once 80 8 steady_tsc 640 (soft_init 80 8 (init 80 8 (fun _ => 0) arr)) 0
        = some (st, times) ∧
      times.length = 80 ∧ times[0]? = some 0 ∧
      (∀ k, k < 80 → chunk_last (soft_init 80 8 (init 80 8 (fun _ => 0) arr)) k ≠ 7) ∧
      ∃ k, k < 80 ∧
        chunk_last (soft_init 80 8 (init 80 8 (fun _ => 0) arr)) k / 8 = 0 ∧
        (st.arr (chunk_last (soft_init 80 8 (init 80 8 (fun _ => 0) arr)) k)).time = 10 := by
  obtain ⟨h0, e0⟩ := zero_rand_ring arr
  obtain ⟨_, s, G, L0⟩ := shuffle_inv (fun _ => 0) arr
  have h : RingInv 640 (soft_init 80 8 (init 80 8 (fun _ => 0) arr)) :=
    h0.same_links (soft_init_next 80 8 _) (soft_init_prev 80 8 _)
  have L : Layout 80 8 (soft_init 80 8 (init 80 8 (fun _ => 0) arr)) s G :=
    L0.same_next (soft_init_next 80 8 _)
  have e7 : ((soft_init 80 8 (init 80 8 (fun _ => 0) arr)) 7).next = 0 := by
    rw [soft_init_next]; exact e0
  have t7 : ((soft_init 80 8 (init 80 8 (fun _ => 0) arr)) 7).time = 0 := by
    rw [soft_init_time, if_pos ⟨0, by omega, rfl⟩]
  obtain ⟨st, hst, _, _, _, _, _, htime, hrest, hgroup⟩ :=
    probe_on_layout h L steady_tsc 0 640 (by omega)
  have hm : measure_once 80 8 steady_tsc 640 (soft_init 80 8 (init 80 8 (fun _ => 0) arr)) 0 =
      some (st, (List.range 80).map (fun i => (st.arr (i * 8 + 8 - 1)).time)) :=
    measure_once_eq (prime_returns h 640 (le_refl _)) hst
  have hne := chunk_last_ne_seven h e7
  have h7 : (st.arr 7).time = 0 := by
    rw [hrest 7 (fun k hk => (hne k hk).symm), t7]
  refine ⟨st, _, hm, ?_, ?_, hne, ?_⟩
  · rw [List.length_map, List.length_range]
  · rw [List.getElem?_map, List.getElem?_range (by omega)]
    show some (st.arr 7).time = some 0
    rw [h7]
  · obtain ⟨k, hk, hg, _⟩ := hgroup 0 (by omega)
    exact ⟨k, hk, hg, by rw [(htime k hk).1, steady_latency k hk]⟩

/-- C6, failing input: `rand()` returning `0` at every call (any initial memory, a counter
advancing by `80` per read).  After `soft_init` the call `measure_once` returns a row of
`80` values whose entry `0` is `0`, read from node `arr[7]`; `probe` stored on no node
`arr[7]`, and the node of group `0` on which it did store holds the chunk latency `10`. -/
theorem C6_measure_reads_unwritten_node (arr : Arr) :
    ∃ st times,
      measure_once Config.S Config.W steady_tsc 640
        (soft_init Config.S Config.W (init Config.S Config.W (fun _ => 0) arr)) 0
        = some (st, times) ∧
      times.length = 80 ∧ times[0]? = some 0 ∧
      (∀ k, k < 80 →
        chunk_last (soft_init Config.S Config.W (init Config.S Config.W (fun _ => 0) arr)) k
          ≠ 0 * Config.W + Config.W - 1) ∧
      ∃ k, k < 80 ∧
        chunk_last (soft_init Config.S Config.W (init Config.S Config.W (fun _ => 0) arr)) k / 8
          = 0 ∧
        (st.arr (chunk_last (soft_init Config.S Config.W
          (init Config.S Config.W (fun _ => 0) arr)) k)).time = 10 :=
  measure_zero_rand arr

theorem probe_body_stored (tsc : Nat → Nat) (st : ProbeState) :
    ((probe_body 8 tsc st).arr ((prv st.arr)^[7] st.curr)).time =
      (tsc (st.reads + 1) % 2 ^ 64 + 2 ^ 64 - tsc st.reads % 2 ^ 64) % 2 ^ 64 / 8 := by
  rw [probe_body_time, if_pos rfl]

theorem pulse_stored (arr : Arr) :
    ((probe_body 8 pulse_tsc { arr := arr, curr := 0, reads := 0 }).arr
      ((prv arr)^[7] 0)).time = 7 := by
  have h := probe_body_stored pulse_tsc { arr := arr, curr := 0, reads := 0 }
  simp only [pulse_tsc] at h
  rw [h]
  norm_num

/-- C7, counterexample: on the freshly linked ring, with counter readings `t0 = 0` and
`t1 = 56`, one iteration of `probe` stores `7` on the last node of its chunk, not
`(t1 - t0) / (W - 1) = 8`. -/
theorem C7_counterexample_divisor :
    ((probe_body Config.W pulse_tsc
        { arr := init_link Config.S Config.W zero_mem, curr := 0, reads := 0 }).arr
      ((prv (init_link Config.S Config.W zero_mem))^[Config.W - 1] 0)).time = 7 ∧
    (pulse_tsc 1 - pulse_tsc 0) / (Config.W - 1) = 8 :=
  ⟨pulse_stored (init_link Config.S Config.W zero_mem), by simp [pulse_tsc, Config.W]⟩

/-- C7, amended: for every chunk of `probe`, with counter readings `t0` before and `t1`
after the `W - 1` steps of `prev`, the value stored on the last node of the chunk is the
64-bit unsigned difference `t1 - t0` divided by `W = 8` (integer division). -/
theorem C7_probe_divides_by_W (tsc : Nat → Nat) (st : ProbeState) :
    ((probe_body Config.W tsc st).arr ((prv st.arr)^[Config.W - 1] st.curr)).time =
      (tsc (st.reads + 1) % 2 ^ 64 + 2 ^ 64 - tsc st.reads % 2 ^ 64) % 2 ^ 64 / Config.W ∧
    Config.W = 8 :=
  ⟨probe_body_stored tsc st, rfl⟩

set_option maxRecDepth 100000 in
/-- C8, failing input: a column with `14` in rows `0 .. 199` and `10` in the other `800`
rows.  Its `800` smallest values are all `10`, yet `calc_mean_var` returns mean `11` and
variance `3`: the rows kept are rows `0 .. 799`, the `200` large values among them. -/
theorem C8_outliers_not_discarded :
    ((List.range 1000).filter (fun j => outliers_first j 0 = 10)).length = 800 ∧
    ((List.range 1000).filter (fun j => outliers_first j 0 = 14)).length = 200 ∧
    (calc_mean_var outliers_first).1 0 = 11 ∧ (calc_mean_var outliers_first).2 0 = 3 ∧
    retained outliers_first 0 = (List.range 800).map (fun j => outliers_first j 0) := by
  refine ⟨by decide, by decide, outliers_first_mean 0, outliers_first_variance 0, ?_⟩
  unfold retained
  rw [sorted_times_eq]
  show List.take 800 _ = _
  rw [← List.map_take, List.take_range]
  apply List.map_congr_left
  intro j hj
  unfold outliers_first
  split_ifs <;> rfl

/-- C9, counterexample: for the column of `1000` copies of `v = 2^44 + 1`, `calc_mean_var`
returns the mean `2^44 + 41/64`, which is not `v`, and the variance `529/4096`, which is
not `0`. -/
theorem C9_counterexample_large_value :
    (calc_mean_var (fun _ _ => 2 ^ 44 + 1)).1 0 = (2 : ℚ) ^ 44 + 41 / 64 ∧
    (calc_mean_var (fun _ _ => 2 ^ 44 + 1)).1 0 ≠ (((2 ^ 44 + 1 : ℕ)) : ℚ) ∧
    (calc_mean_var (fun _ _ => 2 ^ 44 + 1)).2 0 = 529 / 4096 ∧
    (calc_mean_var (fun _ _ => 2 ^ 44 + 1)).2 0 ≠ 0 := by
  have h := equal_column_inexact
  refine ⟨h.1, ?_, h.2, ?_⟩
  · show E_arr (fun _ _ => 2 ^ 44 + 1) 0 ≠ _
    rw [h.1]
    norm_num
  · show V_arr (fun _ _ => 2 ^ 44 + 1) 0 ≠ _
    rw [h.2]
    norm_num

/-- C9, amended: for every value `v` with `800 * v ≤ 2^53` and every column whose `1000`
entries all equal `v`, `calc_mean_var` returns mean `v` and variance `0` for the column. -/
theorem C9_equal_column (all_times : Nat → Nat → Nat) (i v : Nat)
    (hcol : ∀ j, j < Config.NUM_MEASUREMENTS → all_times j i = v) (hv : 800 * v ≤ 2 ^ 53) :
    (calc_mean_var all_times).1 i = (v : ℚ) ∧ (calc_mean_var all_times).2 i = 0 :=
  equal_column all_times i v hcol hv

/-- Witness of C9 (amended): the column of `1000` copies of `5`. -/
theorem C9_equal_column_witness :
    (calc_mean_var (fun _ _ => 5)).1 0 = ((5 : ℕ) : ℚ) ∧ (calc_mean_var (fun _ _ => 5)).2 0 = 0 :=
  C9_equal_column (fun _ _ => 5) 0 5 (fun _ _ => rfl) (by decide)

theorem retained_equal_column (v : Nat) (hv : v < 2 ^ 64) :
    retained (fun _ _ => v) 0 = List.replicate 800 v := by
  unfold retained
  rw [sorted_times_eq]
  show List.take 800 _ = _
  rw [Nat.mod_eq_of_lt hv, List.map_const', List.take_replicate]
  simp

theorem exact_population_variance_replicate (n v : Nat) :
    exact_population_variance (List.replicate n v) = 0 := by
  by_cases hn : n = 0
  · subst hn
    simp [exact_population_variance]
  · have hmean : exact_mean (List.replicate n v) = (v : ℚ) := by
      unfold exact_mean
      rw [List.map_replicate, List.sum_replicate, List.length_replicate]
      have : (n : ℚ) ≠ 0 := by exact_mod_cast hn
      field_simp
    unfold exact_population_variance
    rw [hmean, List.map_replicate, List.sum_replicate]
    simp

/-- C10, counterexample: for the column of `1000` copies of `2^44 + 1` the retained values
are `800` copies of `2^44 + 1`, whose population variance is `0`, and `calc_mean_var`
returns the variance `529/4096`. -/
theorem C10_counterexample_rounded_mean :
    retained (fun _ _ => 2 ^ 44 + 1) 0 = List.replicate 800 (2 ^ 44 + 1) ∧
    exact_population_variance (retained (fun _ _ => 2 ^ 44 + 1) 0) = 0 ∧
    (calc_mean_var (fun _ _ => 2 ^ 44 + 1)).2 0 = 529 / 4096 ∧
    (calc_mean_var (fun _ _ => 2 ^ 44 + 1)).2 0 ≠
      exact_population_variance (retained (fun _ _ => 2 ^ 44 + 1) 0) := by
  have hr := retained_equal_column (2 ^ 44 + 1) (by norm_num)
  have hx : exact_population_variance (retained (fun _ _ => 2 ^ 44 + 1) 0) = 0 := by
    rw [hr]
    exact exact_population_variance_replicate 800 _
  have hV : V_arr (fun _ _ => 2 ^ 44 + 1) 0 = 529 / 4096 := equal_column_inexact.2
  refine ⟨hr, hx, hV, ?_⟩
  show V_arr (fun _ _ => 2 ^ 44 + 1) 0 ≠ _
  rw [hx, hV]
  norm_num

/-- C10, amended: for every column the variance returned by `calc_mean_var` is the
population variance of the retained values as the program's double arithmetic evaluates
it: the retained values are the first `N - K = 800` entries of the column as the sorting
step left it, the same entries whose double-arithmetic mean is the returned mean; their
squared deviations from the returned mean are added up and the sum is divided by `800`,
the number of retained values, every operation rounded to the nearest double.  The
returned variance is not negative. -/
theorem C10_population_variance (all_times : Nat → Nat → Nat) (i : Nat) :
    (calc_mean_var all_times).2 i =
      population_variance_of (retained all_times i) ((calc_mean_var all_times).1 i) ∧
    (calc_mean_var all_times).1 i = mean_of (retained all_times i) ∧
    retained all_times i =
      (sorted_times all_times i).take (Config.NUM_MEASUREMENTS - Config.NUM_OUTLIERS) ∧
    (retained all_times i).length = Config.NUM_MEASUREMENTS - Config.NUM_OUTLIERS ∧
    Config.NUM_MEASUREMENTS - Config.NUM_OUTLIERS = 800 ∧
    0 ≤ (calc_mean_var all_times).2 i := by
  refine ⟨V_arr_eq_population_variance_of all_times i, E_arr_eq_mean_of all_times i, rfl,
    retained_length all_times i, rfl, ?_⟩
  show 0 ≤ V_arr all_times i
  rw [V_arr_eq_population_variance_of]
  exact population_variance_of_nonneg _ _

/-! ## `init` through the pointer returned by the allocator -/

theorem renumbered_set_next {n : Nat} {σ : Nat → Nat} {a c : Arr}
    (hinj : ∀ s t, s < n → t < n → σ s = σ t → s = t) (R : Renumbered n σ a c) (p v : Nat)
    (hp : p < n) : Renumbered n σ (set_next a (σ p) (σ v)) (set_next c p v) := by
  intro t ht
  simp only [set_next_next, set_next_prev]
  refine ⟨?_, (R t ht).2⟩
  by_cases e : t = p
  · subst e
    rw [if_pos rfl, if_pos rfl]
  · rw [if_neg (fun e' => e (hinj _ _ ht hp e')), if_neg e]
    exact (R t ht).1

theorem renumbered_set_prev {n : Nat} {σ : Nat → Nat} {a c : Arr}
    (hinj : ∀ s t, s < n → t < n → σ s = σ t → s = t) (R : Renumbered n σ a c) (p v : Nat)
    (hp : p < n) : Renumbered n σ (set_prev a (σ p) (σ v)) (set_prev c p v) := by
  intro t ht
  simp only [set_prev_next, set_prev_prev]
  refine ⟨(R t ht).1, ?_⟩
  by_cases e : t = p
  · subst e
    rw [if_pos rfl, if_pos rfl]
  · rw [if_neg (fun e' => e (hinj _ _ ht hp e')), if_neg e]
    exact (R t ht).2

theorem renumbered_iterate {n : Nat} {σ : Nat → Nat} {a c : Arr} (hc : RingInv n c)
    (R : Renumbered n σ a c) (k t : Nat) (ht : t < n) :
    (nxt a)^[k] (σ t) = σ ((nxt c)^[k] t) := by
  induction k with
  | zero => rfl
  | succ k ih =>
    rw [Function.iterate_succ_apply', Function.iterate_succ_apply', ih]
    exact (R _ (hc.iterate_lt k t ht)).1

/-- A renumbering of a single cycle by a bijection of the nodes is a single cycle. -/
theorem renumbered_ringInv {n : Nat} {σ : Nat → Nat} {a c : Arr} (hc : RingInv n c)
    (hlt : ∀ t, t < n → σ t < n)
    (hinj : ∀ s t, s < n → t < n → σ s = σ t → s = t)
    (hsurj : ∀ x, x < n → ∃ t, t < n ∧ σ t = x)
    (R : Renumbered n σ a c) : RingInv n a := by
  refine ⟨?_, ?_, ?_, ?_, ?_, ?_, ?_⟩
  · intro x hx
    obtain ⟨t, ht, rfl⟩ := hsurj x hx
    rw [(R t ht).1]
    exact hlt _ (hc.next_lt t ht)
  · intro x hx
    obtain ⟨t, ht, rfl⟩ := hsurj x hx
    rw [(R t ht).2]
    exact hlt _ (hc.prev_lt t ht)
  · intro x hx
    obtain ⟨t, ht, rfl⟩ := hsurj x hx
    rw [(R t ht).1, (R _ (hc.next_lt t ht)).2, hc.prev_next t ht]
  · intro x hx
    obtain ⟨t, ht, rfl⟩ := hsurj x hx
    rw [(R t ht).2, (R _ (hc.prev_lt t ht)).1, hc.next_prev t ht]
  · intro x hx
    obtain ⟨t, ht, rfl⟩ := hsurj x hx
    rw [renumbered_iterate hc R n t ht, hc.period t ht]
  · intro x hx k hk0 hk
    obtain ⟨t, ht, rfl⟩ := hsurj x hx
    rw [renumbered_iterate hc R k t ht]
    intro e
    exact hc.minimal t ht k hk0 hk (hinj _ _ (hc.iterate_lt k t ht) ht e)
  · intro x hx y hy
    obtain ⟨t, ht, rfl⟩ := hsurj x hx
    obtain ⟨u, hu, rfl⟩ := hsurj y hy
    obtain ⟨k, hk, e⟩ := hc.connected t ht u hu
    exact ⟨k, hk, by rw [renumbered_iterate hc R k t ht, e]⟩

/-- The function `swap_whole_sets` in terms of the eight nodes it walks to. -/
theorem swap_whole_sets_eq (arr : Arr) (set1 set2 s1 e1 s2 e2 p1 n1 p2 n2 : Nat)
    (hs1 : (nxt arr)^[set1 * 8] 0 = s1) (he1 : (nxt arr)^[7] s1 = e1)
    (hs2 : (nxt arr)^[set2 * 8] 0 = s2) (he2 : (nxt arr)^[7] s2 = e2)
    (hp1 : (arr s1).prev = p1) (hn1 : (arr e1).next = n1)
    (hp2 : (arr s2).prev = p2) (hn2 : (arr e2).next = n2) :
    swap_whole_sets 80 8 arr set1 set2 =
      if (set1 + 1) % 80 = set2 then
        set_prev (set_next (set_prev (set_next (set_next (set_prev arr s2 p1) p1 s2) e1 n2)
          n2 e1) e2 s1) s1 e2
      else if (set2 + 1) % 80 = set1 then
        set_prev (set_next (set_prev (set_next (set_next (set_prev arr s1 p2) p2 s1) e2 n1)
          n1 e2) e1 s2) s2 e1
      else
        set_prev (set_next (set_next (set_prev (set_prev (set_next (set_next (set_prev arr s1 p2)
          p2 s1) e1 n2) n2 e1) s2 p1) p1 s2) e2 n1) n1 e2 := by
  unfold swap_whole_sets
  simp only [nested_walk, show (8 : Nat) - 1 = 7 from rfl, hs1, hs2, he1, he2, hp1, hp2, hn1,
    hn2]

/-- The function `swap_whole_sets` commutes with renumbering the nodes of the ring. -/
theorem swap_whole_sets_renumbered {σ : Nat → Nat} {a c : Arr} (hc : RingInv 640 c)
    (hinj : ∀ s t, s < 640 → t < 640 → σ s = σ t → s = t) (h0 : σ 0 = 0)
    (R : Renumbered 640 σ a c) (set1 set2 : Nat) :
    Renumbered 640 σ (swap_whole_sets 80 8 a set1 set2) (swap_whole_sets 80 8 c set1 set2) := by
  have hs1 : (nxt c)^[set1 * 8] 0 < 640 := hc.iterate_lt _ 0 (by omega)
  have hs2 : (nxt c)^[set2 * 8] 0 < 640 := hc.iterate_lt _ 0 (by omega)
  have he1 : (nxt c)^[7] ((nxt c)^[set1 * 8] 0) < 640 := hc.iterate_lt _ _ hs1
  have he2 : (nxt c)^[7] ((nxt c)^[set2 * 8] 0) < 640 := hc.iterate_lt _ _ hs2
  have hp1 := hc.prev_lt _ hs1
  have hp2 := hc.prev_lt _ hs2
  have hn1 := hc.next_lt _ he1
  have hn2 := hc.next_lt _ he2
  have as1 : (nxt a)^[set1 * 8] 0 = σ ((nxt c)^[set1 * 8] 0) := by
    have := renumbered_iterate hc R (set1 * 8) 0 (by omega)
    rwa [h0] at this
  have as2 : (nxt a)^[set2 * 8] 0 = σ ((nxt c)^[set2 * 8] 0) := by
    have := renumbered_iterate hc R (set2 * 8) 0 (by omega)
    rwa [h0] at this
  rw [swap_whole_sets_eq c set1 set2 _ _ _ _ _ _ _ _ rfl rfl rfl rfl rfl rfl rfl rfl,
    swap_whole_sets_eq a set1 set2 _ _ _ _ _ _ _ _ as1
      (renumbered_iterate hc R 7 _ hs1) as2 (renumbered_iterate hc R 7 _ hs2)
      (R _ hs1).2 (R _ he1).1 (R _ hs2).2 (R _ he2).1]
  have sn := @renumbered_set_next 640 σ
  have sp := @renumbered_set_prev 640 σ
  split_ifs
  · exact sp hinj (sn hinj (sp hinj (sn hinj (sn hinj (sp hinj R _ _ hs2) _ _ hp1) _ _ he1)
      _ _ hn2) _ _ he2) _ _ hs1
  · exact sp hinj (sn hinj (sp hinj (sn hinj (sn hinj (sp hinj R _ _ hs1) _ _ hp2) _ _ he2)
      _ _ hn1) _ _ he1) _ _ hs2
  · exact sp hinj (sn hinj (sn hinj (sp hinj (sp hinj (sn hinj (sn hinj (sp hinj R _ _ hs1)
      _ _ hp2) _ _ he1) _ _ hn2) _ _ hs2) _ _ hp1) _ _ he2) _ _ hn1

/-- Every single cycle of `640` nodes is the freshly linked ring renumbered by ring
position: node `t` of the freshly linked ring is replaced by the node `t` steps after
`arr`. -/
theorem renumbered_by_position {arr : Arr} (h : RingInv 640 arr) (m : Arr) :
    Renumbered 640 (fun t => (nxt arr)^[t] 0) arr (init_link 80 8 m) := by
  intro t ht
  have en : (init_link 80 8 m t).next = (t + 1) % 640 := init_link_next 80 8 m t ht
  have ep : (init_link 80 8 m t).prev = (t + 639) % 640 := init_link_prev 80 8 m t ht
  rw [en, ep]
  have step : ∀ k, (arr ((nxt arr)^[k] 0)).next = (nxt arr)^[k + 1] 0 := by
    intro k
    rw [Function.iterate_succ_apply']
    rfl
  refine ⟨?_, ?_⟩
  · show (arr ((nxt arr)^[t] 0)).next = (nxt arr)^[(t + 1) % 640] 0
    rw [← h.iterate_mod (t + 1) 0 (by omega)]
    exact step t
  · show (arr ((nxt arr)^[t] 0)).prev = (nxt arr)^[(t + 639) % 640] 0
    rw [← h.iterate_mod (t + 639) 0 (by omega)]
    have hlt : (nxt arr)^[t + 639] 0 < 640 := h.iterate_lt (t + 639) 0 (by omega)
    have hmod : (t + 639 + 1) % 640 = t := by omega
    have e : (arr ((nxt arr)^[t + 639] 0)).next = (nxt arr)^[t] 0 :=
      (step (t + 639)).trans ((h.iterate_mod (t + 639 + 1) 0 (by omega)).trans
        (congrArg (fun k => (nxt arr)^[k] 0) hmod))
    rw [← e, h.prev_next _ hlt]

theorem blockSwap_pred {A B y : Nat} (hy : y % 8 ≠ 0) :
    blockSwap 8 A B (blockSwap 8 A B y - 1) = y - 1 := by
  by_cases h1 : y / 8 = A
  · have e : blockSwap 8 A B y = B * 8 + y % 8 := by
      unfold blockSwap; rw [if_pos h1]
    rw [e]
    unfold blockSwap
    split_ifs <;> omega
  · by_cases h2 : y / 8 = B
    · have e : blockSwap 8 A B y = A * 8 + y % 8 := by
        unfold blockSwap; rw [if_neg h1, if_pos h2]
      rw [e]
      unfold blockSwap
      split_ifs <;> omega
    · have e : blockSwap 8 A B y = y := by
        unfold blockSwap; rw [if_neg h1, if_neg h2]
      rw [e]
      unfold blockSwap
      split_ifs <;> omega

theorem swap_whole_sets_time (arr : Arr) (set1 set2 x : Nat) :
    ((swap_whole_sets 80 8 arr set1 set2) x).time = (arr x).time := by
  rw [swap_whole_sets_eq arr set1 set2 _ _ _ _ _ _ _ _ rfl rfl rfl rfl rfl rfl rfl rfl]
  split_ifs <;> simp only [set_prev_time, set_next_time]

theorem set_next_other (arr : Arr) (p v x : Nat) (h : x ≠ p) : set_next arr p v x = arr x := by
  unfold set_next
  exact Function.update_noteq h _ _

theorem set_prev_other (arr : Arr) (p v x : Nat) (h : x ≠ p) : set_prev arr p v x = arr x := by
  unfold set_prev
  exact Function.update_noteq h _ _

/-- Only the first and last nodes of the two blocks and the nodes next to them are
assigned to by `swap_whole_sets`. -/
theorem swap_whole_sets_frame (arr : Arr) (set1 set2 x : Nat)
    (h1 : x ≠ (nxt arr)^[set1 * 8] 0) (h2 : x ≠ (nxt arr)^[7] ((nxt arr)^[set1 * 8] 0))
    (h3 : x ≠ (nxt arr)^[set2 * 8] 0) (h4 : x ≠ (nxt arr)^[7] ((nxt arr)^[set2 * 8] 0))
    (h5 : x ≠ (arr ((nxt arr)^[set1 * 8] 0)).prev)
    (h6 : x ≠ (arr ((nxt arr)^[7] ((nxt arr)^[set1 * 8] 0))).next)
    (h7 : x ≠ (arr ((nxt arr)^[set2 * 8] 0)).prev)
    (h8 : x ≠ (arr ((nxt arr)^[7] ((nxt arr)^[set2 * 8] 0))).next) :
    (swap_whole_sets 80 8 arr set1 set2) x = arr x := by
  rw [swap_whole_sets_eq arr set1 set2 _ _ _ _ _ _ _ _ rfl rfl rfl rfl rfl rfl rfl rfl]
  split_ifs
  · rw [set_prev_other _ _ _ _ h1, set_next_other _ _ _ _ h4, set_prev_other _ _ _ _ h8,
      set_next_other _ _ _ _ h2, set_next_other _ _ _ _ h5, set_prev_other _ _ _ _ h3]
  · rw [set_prev_other _ _ _ _ h3, set_next_other _ _ _ _ h2, set_prev_other _ _ _ _ h6,
      set_next_other _ _ _ _ h4, set_next_other _ _ _ _ h7, set_prev_other _ _ _ _ h1]
  · rw [set_prev_other _ _ _ _ h6, set_next_other _ _ _ _ h4, set_next_other _ _ _ _ h5,
      set_prev_other _ _ _ _ h3, set_prev_other _ _ _ _ h8, set_next_other _ _ _ _ h2,
      set_next_other _ _ _ _ h7, set_prev_other _ _ _ _ h1]

/-- The ring left by `swap_whole_sets` on a single cycle of `640` nodes, by ring
position. -/
theorem swap_whole_sets_positions {arr : Arr} (h : RingInv 640 arr) {i j : Nat} (hij : i < j)
    (hj : j < 80) :
    RingInv 640 (swap_whole_sets 80 8 arr i j) ∧
    (∀ t, t < 640 →
      ((swap_whole_sets 80 8 arr i j) ((nxt arr)^[t] 0)).next =
        (nxt arr)^[blockSwap 8 i j ((blockSwap 8 i j t + 1) % 640)] 0) ∧
    (∀ t, t < 640 →
      ((swap_whole_sets 80 8 arr i j) ((nxt arr)^[t] 0)).prev =
        (nxt arr)^[blockSwap 8 i j ((blockSwap 8 i j t + 639) % 640)] 0) := by
  have hc : RingInv 640 (init_link 80 8 zero_mem) := ringInv_init_link 80 8 zero_mem
  have hI : Intact 8 640 (init_link 80 8 zero_mem) := by
    intro x hx hm
    rw [init_link_next 80 8 zero_mem x hx]
    omega
  have hinj : ∀ s t, s < 640 → t < 640 →
      (fun t => (nxt arr)^[t] 0) s = (fun t => (nxt arr)^[t] 0) t → s = t := by
    intro s t hs ht e
    have := (h.iterate_eq_iff s t 0 (by omega)).1 e
    omega
  have R0 := renumbered_by_position h zero_mem
  have R1 := swap_whole_sets_renumbered hc hinj rfl R0 i j
  have ren := swap_whole_sets_renamed hc hI hij hj
  have ei : (nxt (init_link 80 8 zero_mem))^[i * 8] 0 / 8 = i := by
    rw [init_link_iterate 80 8 zero_mem _ 0 (by omega)]
    omega
  have ej : (nxt (init_link 80 8 zero_mem))^[j * 8] 0 / 8 = j := by
    rw [init_link_iterate 80 8 zero_mem _ 0 (by omega)]
    omega
  rw [ei, ej] at ren
  refine ⟨?_, ?_, ?_⟩
  · apply renumbered_ringInv (ren.ringInv hc) (fun t _ => h.iterate_lt t 0 (by omega)) hinj _ R1
    intro x hx
    exact h.connected 0 (by omega) x hx
  · intro t ht
    have hb : blockSwap 8 i j t < 640 := blockSwap_lt (by omega) hj ht
    have := (R1 t ht).1
    rw [ren.next_eq t ht, init_link_next 80 8 zero_mem _ hb] at this
    exact this
  · intro t ht
    have hb : blockSwap 8 i j t < 640 := blockSwap_lt (by omega) hj ht
    have := (R1 t ht).2
    rw [ren.prev_eq t ht, init_link_prev 80 8 zero_mem _ hb] at this
    exact this

/-- The node at ring position `β (t + 1)` follows the node at ring position `β t` after
`swap_whole_sets`, where `β` exchanges the positions of blocks `i` and `j`. -/
theorem swap_whole_sets_order {arr : Arr} (h : RingInv 640 arr) {i j : Nat} (hij : i < j)
    (hj : j < 80) (t : Nat) (ht : t < 640) :
    ((swap_whole_sets 80 8 arr i j) ((nxt arr)^[blockSwap 8 i j t] 0)).next =
      (nxt arr)^[blockSwap 8 i j ((t + 1) % 640)] 0 := by
  have hb : blockSwap 8 i j t < 640 := blockSwap_lt (by omega) hj ht
  rw [(swap_whole_sets_positions h hij hj).2.1 _ hb, blockSwap_invol]

theorem swap_whole_sets_walk {arr : Arr} (h : RingInv 640 arr) {i j : Nat} (hij : i < j)
    (hj : j < 80) (t : Nat) :
    (nxt (swap_whole_sets 80 8 arr i j))^[t] ((nxt arr)^[blockSwap 8 i j 0] 0) =
      (nxt arr)^[blockSwap 8 i j (t % 640)] 0 := by
  induction t with
  | zero => rfl
  | succ t ih =>
    rw [Function.iterate_succ_apply', ih]
    show ((swap_whole_sets 80 8 arr i j) _).next = _
    rw [swap_whole_sets_order h hij hj _ (Nat.mod_lt _ (by omega))]
    congr 2
    omega

theorem swap_whole_sets_inner_next {arr : Arr} (h : RingInv 640 arr) {i j : Nat} (hij : i < j)
    (hj : j < 80) (t : Nat) (ht : t < 640) (hm : t % 8 ≠ 7) :
    ((swap_whole_sets 80 8 arr i j) ((nxt arr)^[t] 0)).next = (arr ((nxt arr)^[t] 0)).next := by
  have hb : blockSwap 8 i j t < 640 := blockSwap_lt (by omega) hj ht
  have hbm : blockSwap 8 i j t % 8 = t % 8 := blockSwap_mod i j t
  have e1 : (blockSwap 8 i j t + 1) % 640 = blockSwap 8 i j t + 1 :=
    Nat.mod_eq_of_lt (by omega)
  have e2 : blockSwap 8 i j (blockSwap 8 i j t + 1) = t + 1 := blockSwap_succ (by omega)
  have e3 : (t + 1) % 640 = t + 1 := Nat.mod_eq_of_lt (by omega)
  have R0 := (renumbered_by_position h zero_mem t ht).1
  rw [init_link_next 80 8 zero_mem t ht] at R0
  rw [(swap_whole_sets_positions h hij hj).2.1 t ht, e1, e2]
  rw [show (80 * 8 : Nat) = 640 from rfl, e3] at R0
  exact R0.symm

theorem swap_whole_sets_inner_prev {arr : Arr} (h : RingInv 640 arr) {i j : Nat} (hij : i < j)
    (hj : j < 80) (t : Nat) (ht : t < 640) (hm : t % 8 ≠ 0) :
    ((swap_whole_sets 80 8 arr i j) ((nxt arr)^[t] 0)).prev = (arr ((nxt arr)^[t] 0)).prev := by
  have hb : blockSwap 8 i j t < 640 := blockSwap_lt (by omega) hj ht
  have hbm : blockSwap 8 i j t % 8 = t % 8 := blockSwap_mod i j t
  have e1 : (blockSwap 8 i j t + 639) % 640 = blockSwap 8 i j t - 1 := by omega
  have e2 : blockSwap 8 i j (blockSwap 8 i j t - 1) = t - 1 := blockSwap_pred hm
  have e3 : (t + (80 * 8 - 1)) % (80 * 8) = t - 1 := by omega
  have R0 := (renumbered_by_position h zero_mem t ht).2
  rw [init_link_prev 80 8 zero_mem t ht, e3] at R0
  rw [(swap_whole_sets_positions h hij hj).2.2 t ht, e1, e2]
  exact R0.symm

/-- C12: for `S = 80`, `W = 8`, every single cycle `arr` of `S * W` nodes and all block
positions `i < j ≤ S - 1`, the call `swap_whole_sets(arr, i, j)` leaves a single cycle of
`S * W` nodes in which the blocks at positions `i` and `j` have changed places: walking
along `next` from the node that stood first in the block now at position `0`, the node
reached after `t` steps is the node that stood at position `β t`, where `β` exchanges the
positions of block `i` and block `j`, offset by offset, and keeps every other position.
A `next` link that does not leave a block and a `prev` link that does not enter one are not
changed, only the first and last nodes of the two blocks and the four nodes next to them
are assigned to, and no `time` field changes.  All three branches of the function occur:
the first for `j = i + 1`, the second for `i = 0`, `j = S - 1`, the third otherwise. -/
theorem C12_swap_whole_sets_exchanges_blocks (arr : Arr) (i j : Nat)
    (h : RingInv (Config.S * Config.W) arr) (hij : i < j) (hj : j ≤ Config.S - 1) :
    RingInv (Config.S * Config.W) (swap_whole_sets Config.S Config.W arr i j) ∧
    (∀ t, (nxt (swap_whole_sets Config.S Config.W arr i j))^[t]
        ((nxt arr)^[blockSwap Config.W i j 0] 0) =
      (nxt arr)^[blockSwap Config.W i j (t % (Config.S * Config.W))] 0) ∧
    (∀ t, t < Config.S * Config.W →
      (t / Config.W = i → blockSwap Config.W i j t = j * Config.W + t % Config.W) ∧
      (t / Config.W = j → blockSwap Config.W i j t = i * Config.W + t % Config.W) ∧
      (t / Config.W ≠ i → t / Config.W ≠ j → blockSwap Config.W i j t = t)) ∧
    (∀ t, t < Config.S * Config.W → t % Config.W ≠ Config.W - 1 →
      ((swap_whole_sets Config.S Config.W arr i j) ((nxt arr)^[t] 0)).next =
        (arr ((nxt arr)^[t] 0)).next) ∧
    (∀ t, t < Config.S * Config.W → t % Config.W ≠ 0 →
      ((swap_whole_sets Config.S Config.W arr i j) ((nxt arr)^[t] 0)).prev =
        (arr ((nxt arr)^[t] 0)).prev) ∧
    (∀ x, x ≠ (nxt arr)^[i * 8] 0 → x ≠ (nxt arr)^[7] ((nxt arr)^[i * 8] 0) →
      x ≠ (nxt arr)^[j * 8] 0 → x ≠ (nxt arr)^[7] ((nxt arr)^[j * 8] 0) →
      x ≠ (arr ((nxt arr)^[i * 8] 0)).prev →
      x ≠ (arr ((nxt arr)^[7] ((nxt arr)^[i * 8] 0))).next →
      x ≠ (arr ((nxt arr)^[j * 8] 0)).prev →
      x ≠ (arr ((nxt arr)^[7] ((nxt arr)^[j * 8] 0))).next →
      (swap_whole_sets Config.S Config.W arr i j) x = arr x) ∧
    (∀ x, ((swap_whole_sets Config.S Config.W arr i j) x).time = (arr x).time) ∧
    ((i + 1) % Config.S = j ↔ j = i + 1) ∧
    ((j + 1) % Config.S = i ↔ (i = 0 ∧ j = Config.S - 1)) := by
  have h' : RingInv 640 arr := h
  have hj' : j < 80 := by
    have : Config.S - 1 = 79 := rfl
    omega
  refine ⟨(swap_whole_sets_positions h' hij hj').1, swap_whole_sets_walk h' hij hj', ?_,
    ?_, ?_, ?_, swap_whole_sets_time arr i j, ?_, ?_⟩
  · intro t _
    show (t / 8 = i → blockSwap 8 i j t = j * 8 + t % 8) ∧
      (t / 8 = j → blockSwap 8 i j t = i * 8 + t % 8) ∧
      (t / 8 ≠ i → t / 8 ≠ j → blockSwap 8 i j t = t)
    unfold blockSwap
    refine ⟨fun e => by rw [if_pos e], fun e => by rw [if_neg (by omega), if_pos e],
      fun e1 e2 => by rw [if_neg e1, if_neg e2]⟩
  · intro t ht hm
    exact swap_whole_sets_inner_next h' hij hj' t ht hm
  · intro t ht hm
    exact swap_whole_sets_inner_prev h' hij hj' t ht hm
  · intro x h1 h2 h3 h4 h5 h6 h7 h8
    exact swap_whole_sets_frame arr i j x h1 h2 h3 h4 h5 h6 h7 h8
  · show (i + 1) % 80 = j ↔ j = i + 1
    omega
  · show (j + 1) % 80 = i ↔ (i = 0 ∧ j = 80 - 1)
    omega

/-- Witness of C12: blocks `0` and `1` of the freshly linked ring. -/
theorem C12_swap_whole_sets_exchanges_blocks_witness :
    RingInv (Config.S * Config.W) (init_link Config.S Config.W zero_mem) ∧
    RingInv (Config.S * Config.W)
      (swap_whole_sets Config.S Config.W (init_link Config.S Config.W zero_mem) 0 1) :=
  ⟨ringInv_init_link Config.S Config.W zero_mem,
    (C12_swap_whole_sets_exchanges_blocks (init_link Config.S Config.W zero_mem) 0 1
      (ringInv_init_link Config.S Config.W zero_mem) (by decide) (by decide)).1⟩

/-! ## The node before node `7` when every `rand()` call returns `0` -/

theorem uint64_t_cmp_self (a : Nat) : uint64_t_cmp a a = 0 := by
  unfold uint64_t_cmp to_int32
  norm_num

theorem uint64_t_cmp_before (a b : Nat) (h : a < b) (hb : b < a + 2 ^ 31) :
    uint64_t_cmp a b < 0 := by
  unfold uint64_t_cmp to_int32
  norm_num at hb ⊢
  omega

theorem uint64_t_cmp_after (a b : Nat) (h : b < a) (ha : a < b + 2 ^ 31) :
    0 < uint64_t_cmp a b := by
  unfold uint64_t_cmp to_int32
  norm_num at ha ⊢
  omega

/-- C14, failing input: `a` points to the first element of the array `{5, 3}` and `b` to
the second.  `*a > *b`, yet `uint64_t_cmp(a, b)` is `-1`, and `uint64_t_cmp(b, a)` is `1`:
the result is the distance between the two pointers, negative whenever `a` lies before `b`,
zero only for `a == b`, positive whenever `a` lies after `b`, whatever the values are. -/
theorem C14_comparator_orders_by_address :
    two_values.getD 0 0 = 5 ∧ two_values.getD 1 0 = 3 ∧
    uint64_t_cmp 0 1 = -1 ∧ uint64_t_cmp 1 0 = 1 ∧
    (∀ a : Nat, uint64_t_cmp a a = 0) ∧
    (∀ a b : Nat, a < b → b < a + 2 ^ 31 → uint64_t_cmp a b < 0) ∧
    (∀ a b : Nat, b < a → a < b + 2 ^ 31 → 0 < uint64_t_cmp a b) := by
  refine ⟨rfl, rfl, ?_, ?_, uint64_t_cmp_self, uint64_t_cmp_before, uint64_t_cmp_after⟩
  · unfold uint64_t_cmp to_int32
    norm_num
  · unfold uint64_t_cmp to_int32
    norm_num

/-! ## The draws -/

theorem shuffle_calls_draws (S W : Nat) (rand : Nat → Nat) :
    shuffle_calls S W rand =
      (List.range (S - 1)).map (fun i => Call.sets i (set_draw S i (rand i))) ++
      (List.range S).flatMap (fun i => (List.range (W - 1)).map (fun j =>
        Call.nodes (i * W + j) (i * W + line_draw W j (rand ((S - 1) + i * (W - 1) + j))))) :=
  rfl

/-- C15: at step `i ≤ S - 2` of the group-level pass the modulus `S - (i+1)` is not zero and
the drawn index `r = rand() % (S - (i+1)) + i+1` satisfies `i+1 ≤ r ≤ S-1`; at local
position `j ≤ W - 2` of the pass inside the groups the modulus `W - (j+1)` is not zero and
`r = rand() % (W - (j+1)) + j+1` satisfies `j+1 ≤ r ≤ W-1`, for every non-negative `rand()`
output `v`; every value of either range is drawn for some output below the modulus; and
these are the indices `shuffle_linked_list` passes on. -/
theorem C15_draws_in_range (S W i j v : Nat) :
    (i + 2 ≤ S →
      S - (i + 1) ≠ 0 ∧ i + 1 ≤ set_draw S i v ∧ set_draw S i v ≤ S - 1 ∧
      ∀ r, i + 1 ≤ r → r ≤ S - 1 → ∃ u, u < S - (i + 1) ∧ set_draw S i u = r) ∧
    (j + 2 ≤ W →
      W - (j + 1) ≠ 0 ∧ j + 1 ≤ line_draw W j v ∧ line_draw W j v ≤ W - 1 ∧
      ∀ r, j + 1 ≤ r → r ≤ W - 1 → ∃ u, u < W - (j + 1) ∧ line_draw W j u = r) ∧
    (∀ rand : Nat → Nat, shuffle_calls S W rand =
      (List.range (S - 1)).map (fun i => Call.sets i (set_draw S i (rand i))) ++
      (List.range S).flatMap (fun i => (List.range (W - 1)).map (fun j =>
        Call.nodes (i * W + j)
          (i * W + line_draw W j (rand ((S - 1) + i * (W - 1) + j)))))) := by
  refine ⟨?_, ?_, shuffle_calls_draws S W⟩
  · intro hi
    have hm : v % (S - (i + 1)) < S - (i + 1) := Nat.mod_lt _ (by omega)
    refine ⟨by omega, ?_, ?_, ?_⟩
    · unfold set_draw; omega
    · unfold set_draw; omega
    · intro r h1 h2
      refine ⟨r - (i + 1), by omega, ?_⟩
      unfold set_draw
      rw [Nat.mod_eq_of_lt (by omega)]
      omega
  · intro hj
    have hm : v % (W - (j + 1)) < W - (j + 1) := Nat.mod_lt _ (by omega)
    refine ⟨by omega, ?_, ?_, ?_⟩
    · unfold line_draw; omega
    · unfold line_draw; omega
    · intro r h1 h2
      refine ⟨r - (j + 1), by omega, ?_⟩
      unfold line_draw
      rw [Nat.mod_eq_of_lt (by omega)]
      omega

/-- Witness of C15 at the configured geometry: step `3` of the group-level pass and local
position `2` of the pass inside the groups, for the `rand()` output `41`. -/
theorem C15_draws_in_range_witness :
    (3 + 1 ≤ set_draw 80 3 41 ∧ set_draw 80 3 41 ≤ 80 - 1) ∧
    (2 + 1 ≤ line_draw 8 2 41 ∧ line_draw 8 2 41 ≤ 8 - 1) :=
  ⟨⟨((C15_draws_in_range 80 8 3 2 41).1 (by decide)).2.1,
      ((C15_draws_in_range 80 8 3 2 41).1 (by decide)).2.2.1⟩,
    ⟨((C15_draws_in_range 80 8 3 2 41).2.1 (by decide)).2.1,
      ((C15_draws_in_range 80 8 3 2 41).2.1 (by decide)).2.2.1⟩⟩

/-! ## The walk of `prime` -/

/-- As long as the cursor does not come back to node `0`, `k` iterations of the loop of
`prime` use up `k` units of fuel and move the cursor `k` steps along `next`. -/
theorem prime_loop_unroll (arr : Arr) :
    ∀ (k fuel curr steps : Nat), (∀ t, 0 < t → t ≤ k → (nxt arr)^[t] curr ≠ 0) →
      prime_loop arr (fuel + k) curr steps =
        prime_loop arr fuel ((nxt arr)^[k] curr) (steps + k) := by
  intro k
  induction k with
  | zero => intro fuel curr steps _; rfl
  | succ k ih =>
    intro fuel curr steps hne
    rw [show fuel + (k + 1) = (fuel + k) + 1 by omega, prime_loop]
    have h1 : (arr curr).next ≠ 0 := by
      have := hne 1 (by omega) (by omega)
      simpa [nxt] using this
    simp only [h1, ne_eq, not_false_eq_true, if_true]
    rw [ih fuel (arr curr).next (steps + 1)]
    · rw [Function.iterate_succ_apply]
      congr 1
      omega
    · intro t ht0 ht
      have := hne (t + 1) (by omega) (by omega)
      rwa [Function.iterate_succ_apply] at this

/-- With less fuel than steps needed the loop of `prime` does not return. -/
theorem prime_loop_starved (arr : Arr) :
    ∀ (fuel curr steps : Nat), (∀ t, 0 < t → t ≤ fuel → (nxt arr)^[t] curr ≠ 0) →
      prime_loop arr fuel curr steps = none := by
  intro fuel
  induction fuel with
  | zero => intro _ _ _; rfl
  | succ fuel ih =>
    intro curr steps hne
    rw [prime_loop]
    have h1 : (arr curr).next ≠ 0 := by
      have := hne 1 (by omega) (by omega)
      simpa [nxt] using this
    simp only [h1, ne_eq, not_false_eq_true, if_true]
    apply ih
    intro t ht0 ht
    have := hne (t + 1) (by omega) (by omega)
    rwa [Function.iterate_succ_apply] at this

/-- C16: on every ring that is a single cycle of `S * W` nodes `prime` returns, given fuel
for at least `S * W` steps, after exactly `S * W` steps of `next` with the cursor on its
start node `arr` (node `0`), and it does not return on less fuel; after `k < S * W` steps
the cursor is on the node `k` steps after `arr`, which is not `arr` for `0 < k`; and every
node of the ring is the cursor after exactly one number of steps between `1` and
`S * W`. -/
theorem C16_prime_walks_ring_once (S W : Nat) (arr : Arr) (h : RingInv (S * W) arr)
    (hpos : 0 < S * W) :
    (∀ fuel, S * W ≤ fuel → prime arr fuel = some (0, S * W)) ∧
    (∀ fuel, fuel < S * W → prime arr fuel = none) ∧
    (∀ k fuel, k < S * W →
      prime arr (fuel + k) = prime_loop arr fuel ((nxt arr)^[k] 0) k) ∧
    (∀ k, 0 < k → k < S * W → (nxt arr)^[k] 0 ≠ 0) ∧
    (nxt arr)^[S * W] 0 = 0 ∧
    (∀ x, x < S * W → ∃ k, 0 < k ∧ k ≤ S * W ∧ (nxt arr)^[k] 0 = x ∧
      ∀ l, 0 < l → l ≤ S * W → (nxt arr)^[l] 0 = x → l = k) := by
  have hmin : ∀ k, 0 < k → k < S * W → (nxt arr)^[k] 0 ≠ 0 :=
    fun k hk0 hk => h.minimal 0 hpos k hk0 hk
  refine ⟨?_, ?_, ?_, hmin, h.period 0 hpos, ?_⟩
  · intro fuel hf
    unfold prime
    have := prime_loop_exit arr (S * W) 0 0 fuel hpos hf hmin (h.period 0 hpos)
    simpa using this
  · intro fuel hf
    unfold prime
    exact prime_loop_starved arr fuel 0 0 (fun t ht0 ht => hmin t ht0 (by omega))
  · intro k fuel hk
    unfold prime
    have := prime_loop_unroll arr k fuel 0 0 (fun t ht0 ht => hmin t ht0 (by omega))
    simpa using this
  · intro x hx
    obtain ⟨k, hk, e⟩ := h.connected 0 hpos x hx
    by_cases hk0 : k = 0
    · subst hk0
      have hx0 : x = 0 := by simpa using e.symm
      subst hx0
      refine ⟨S * W, hpos, le_refl _, h.period 0 hpos, ?_⟩
      intro l hl0 hl el
      by_contra hne
      exact hmin l hl0 (by omega) el
    · refine ⟨k, by omega, by omega, e, ?_⟩
      intro l hl0 hl el
      have := (h.iterate_eq_iff l k 0 hpos).1 (by rw [el, e])
      by_cases hlN : l = S * W
      · subst hlN
        rw [Nat.mod_self, Nat.mod_eq_of_lt hk] at this
        omega
      · rw [Nat.mod_eq_of_lt (by omega), Nat.mod_eq_of_lt hk] at this
        exact this

/-- Witness of C16: the freshly linked ring of the configured geometry. -/
theorem C16_prime_walks_ring_once_witness :
    RingInv (80 * 8) (init_link 80 8 zero_mem) ∧
    prime (init_link 80 8 zero_mem) (80 * 8) = some (0, 80 * 8) :=
  ⟨ringInv_init_link 80 8 zero_mem,
    (C16_prime_walks_ring_once 80 8 (init_link 80 8 zero_mem) (ringInv_init_link 80 8 zero_mem)
      (by decide)).1 (80 * 8) (le_refl _)⟩

/-! ## Consistency of the two link directions -/

/-- C17: after the linking loop of `init` and after any number `k` of the `swap_whole_sets`
/ `swap_nodes` calls made by `shuffle_linked_list` (`S = 80`, `W = 8`, any `rand()`
outputs), every node `x` satisfies `prev(next(x)) = x` and `next(prev(x)) = x`; so `t`
steps of `prev` undo `t` steps of `next` and the other way round, and `t ≤ S * W` steps of
`prev` lead to the same node as `S * W - t` steps of `next`: the walk of `probe` is the
walk of `prime` on the same single cycle, in reverse order. -/
theorem C17_prev_inverts_next (rand : Nat → Nat) (arr : Arr) (k x : Nat)
    (hx : x < Config.S * Config.W) :
    ((((shuffle_calls Config.S Config.W rand).take k).foldl (Call.run Config.S Config.W)
        (init_link Config.S Config.W arr))
      ((((shuffle_calls Config.S Config.W rand).take k).foldl (Call.run Config.S Config.W)
        (init_link Config.S Config.W arr)) x).next).prev = x ∧
    ((((shuffle_calls Config.S Config.W rand).take k).foldl (Call.run Config.S Config.W)
        (init_link Config.S Config.W arr))
      ((((shuffle_calls Config.S Config.W rand).take k).foldl (Call.run Config.S Config.W)
        (init_link Config.S Config.W arr)) x).prev).next = x ∧
    (∀ t,
      (prv (((shuffle_calls Config.S Config.W rand).take k).foldl (Call.run Config.S Config.W)
        (init_link Config.S Config.W arr)))^[t]
        ((nxt (((shuffle_calls Config.S Config.W rand).take k).foldl
          (Call.run Config.S Config.W) (init_link Config.S Config.W arr)))^[t] x) = x ∧
      (nxt (((shuffle_calls Config.S Config.W rand).take k).foldl (Call.run Config.S Config.W)
        (init_link Config.S Config.W arr)))^[t]
        ((prv (((shuffle_calls Config.S Config.W rand).take k).foldl
          (Call.run Config.S Config.W) (init_link Config.S Config.W arr)))^[t] x) = x ∧
      (t ≤ Config.S * Config.W →
        (prv (((shuffle_calls Config.S Config.W rand).take k).foldl
          (Call.run Config.S Config.W) (init_link Config.S Config.W arr)))^[t] x =
        (nxt (((shuffle_calls Config.S Config.W rand).take k).foldl
          (Call.run Config.S Config.W) (init_link Config.S Config.W arr)))^[
            Config.S * Config.W - t] x)) ∧
    ((init_link Config.S Config.W arr) ((init_link Config.S Config.W arr) x).next).prev = x ∧
    ((init_link Config.S Config.W arr) ((init_link Config.S Config.W arr) x).prev).next = x ∧
    (shuffle_calls Config.S Config.W rand).foldl (Call.run Config.S Config.W)
        (init_link Config.S Config.W arr) =
      ((shuffle_calls Config.S Config.W rand).take
        (shuffle_calls Config.S Config.W rand).length).foldl (Call.run Config.S Config.W)
        (init_link Config.S Config.W arr) := by
  have h := (shuffle_upto_inv rand arr k).1
  have h0 := ringInv_init_link 80 8 arr
  have hx' : x < 640 := hx
  refine ⟨h.prev_next x hx', h.next_prev x hx', ?_, h0.prev_next x hx', h0.next_prev x hx', ?_⟩
  · intro t
    exact ⟨h.prv_iterate_nxt_iterate t x hx', h.nxt_iterate_prv_iterate t x hx',
      fun ht => h.prv_iterate_eq t x hx' ht⟩
  · rw [List.take_length]

/-- Witness of C17: node `5` after the first three calls of the shuffle with every `rand()`
output `0`. -/
theorem C17_prev_inverts_next_witness :
    ((((shuffle_calls Config.S Config.W (fun _ => 0)).take 3).foldl
        (Call.run Config.S Config.W) (init_link Config.S Config.W zero_mem))
      ((((shuffle_calls Config.S Config.W (fun _ => 0)).take 3).foldl
        (Call.run Config.S Config.W) (init_link Config.S Config.W zero_mem)) 5).next).prev = 5 :=
  (C17_prev_inverts_next (fun _ => 0) zero_mem 3 5 (by decide)).1

/-! ## The measurement loop -/

theorem chunk_last_congr {arr arr' : Arr} (ep : ∀ x, (arr' x).prev = (arr x).prev) (k : Nat) :
    chunk_last arr' k = chunk_last arr k := by
  unfold chunk_last
  rw [prv_congr ep]

/-- The run of `probe` on a single cycle of 640 nodes. -/
theorem probe_on_ring {ring : Arr} (h : RingInv 640 ring) (tsc : Nat → Nat)
    (reads fuel : Nat) (hf : 80 ≤ fuel) :
    ∃ st, probe 8 tsc fuel ring reads = some st ∧
      (∀ x, (st.arr x).next = (ring x).next) ∧ (∀ x, (st.arr x).prev = (ring x).prev) ∧
      st.curr = 0 ∧ st.reads = reads + 160 ∧
      (∀ k, k < 80 → (st.arr (chunk_last ring k)).time = chunk_latency tsc reads k) ∧
      (∀ x, (∀ k, k < 80 → x ≠ chunk_last ring k) → (st.arr x).time = (ring x).time) := by
  have hit := probe_iterate tsc ring reads 80
    (fun k l hkl hl e => by
      have := chunk_last_inj h k l (by omega) (by omega) e
      omega)
  obtain ⟨hn, hp, hcurr, hreads, htime, hrest⟩ := hit
  refine ⟨_, probe_returns h tsc reads fuel hf, hn, hp, ?_, hreads, htime, hrest⟩
  rw [hcurr]
  exact (prv_walk_eq_zero_iff h (8 * 80) (by omega)).2 (Or.inr rfl)

/-- One call of `measure_once` after `soft_init` on an array with the links of a single
cycle `ring`. -/
theorem measure_after_soft_init {ring : Arr} (h : RingInv 640 ring) (tsc : Nat → Nat)
    (fuel : Nat) (hf : 640 ≤ fuel) (a : Arr) (reads : Nat)
    (en : ∀ x, (a x).next = (ring x).next) (ep : ∀ x, (a x).prev = (ring x).prev) :
    ∃ st row, measure_once 80 8 tsc fuel (soft_init 80 8 a) reads = some (st, row) ∧
      probe 8 tsc fuel (soft_init 80 8 a) reads = some st ∧
      (∀ x, (st.arr x).next = (ring x).next) ∧ (∀ x, (st.arr x).prev = (ring x).prev) ∧
      st.reads = reads + 160 ∧ RowOfRound ring tsc reads row := by
  have en' : ∀ x, (soft_init 80 8 a x).next = (ring x).next := by
    intro x; rw [soft_init_next, en]
  have ep' : ∀ x, (soft_init 80 8 a x).prev = (ring x).prev := by
    intro x; rw [soft_init_prev, ep]
  have hs : RingInv 640 (soft_init 80 8 a) := h.same_links en' ep'
  obtain ⟨st, hst, hn, hp, _, hreads, htime, hrest⟩ :=
    probe_on_ring hs tsc reads fuel (by omega)
  have hm := measure_once_eq (S := 80) (prime_returns hs fuel hf) hst
  refine ⟨st, _, hm, hst, fun x => by rw [hn, en'], fun x => by rw [hp, ep'], hreads, ?_, ?_⟩
  · rw [List.length_map, List.length_range]
  · intro i hi
    have hrow : ((List.range 80).map (fun i => (st.arr (i * 8 + 8 - 1)).time))[i]? =
        some (st.arr (i * 8 + 8 - 1)).time := by
      rw [List.getElem?_map, List.getElem?_range hi]
      rfl
    rw [hrow]
    have e7 : i * 8 + 8 - 1 = i * 8 + 7 := by omega
    by_cases hc : ∃ k, k < 80 ∧ chunk_last ring k = i * 8 + 7
    · obtain ⟨k, hk, ek⟩ := hc
      right
      refine ⟨k, hk, ek, ?_⟩
      have := htime k hk
      rw [chunk_last_congr ep' k, ek] at this
      rw [e7, this]
    · left
      have hno : ∀ k, k < 80 → chunk_last ring k ≠ i * 8 + 7 :=
        fun k hk e => hc ⟨k, hk, e⟩
      refine ⟨?_, hno⟩
      rw [hrest (i * 8 + 8 - 1) (fun k hk => by
        rw [chunk_last_congr ep' k, e7]
        exact (hno k hk).symm)]
      rw [soft_init_time, if_pos ⟨i, hi, rfl⟩]

theorem main_round_eq {S W : Nat} {tsc : Nat → Nat} {fuel : Nat} {ms : MainState}
    {st : ProbeState} {row : List Nat}
    (hm : measure_once S W tsc fuel (soft_init S W ms.arr) ms.reads = some (st, row)) :
    main_round S W tsc fuel ms =
      some { arr := st.arr, reads := st.reads, all_times := ms.all_times ++ [row] } := by
  unfold main_round
  rw [hm]

theorem main_loop_succ {S W : Nat} {tsc : Nat → Nat} {fuel : Nat} {ms ms' : MainState}
    (n : Nat) (hr : main_round S W tsc fuel ms = some ms') :
    main_loop S W tsc fuel (n + 1) ms = main_loop S W tsc fuel n ms' := by
  rw [main_loop, hr]

/-- The measurement loop on an array with the links of a single cycle `ring`: every round
returns, keeps the links, makes `160` counter reads and appends one row. -/
theorem main_loop_rounds {ring : Arr} (h : RingInv 640 ring) (tsc : Nat → Nat) (fuel : Nat)
    (hf : 640 ≤ fuel) :
    ∀ (n : Nat) (ms : MainState),
      (∀ x, (ms.arr x).next = (ring x).next) → (∀ x, (ms.arr x).prev = (ring x).prev) →
      ∃ ms' rows, main_loop 80 8 tsc fuel n ms = some ms' ∧
        (∀ x, (ms'.arr x).next = (ring x).next) ∧ (∀ x, (ms'.arr x).prev = (ring x).prev) ∧
        ms'.reads = ms.reads + 160 * n ∧
        ms'.all_times = ms.all_times ++ rows ∧ rows.length = n ∧
        ∀ r, r < n → ∃ row, rows[r]? = some row ∧
          RowOfRound ring tsc (ms.reads + 160 * r) row := by
  intro n
  induction n with
  | zero =>
    intro ms en ep
    exact ⟨ms, [], rfl, en, ep, rfl, by simp, rfl, fun r hr => by omega⟩
  | succ n ih =>
    intro ms en ep
    obtain ⟨st, row, hm, _, hn, hp, hreads, hrow⟩ :=
      measure_after_soft_init h tsc fuel hf ms.arr ms.reads en ep
    have hr := main_round_eq hm
    obtain ⟨ms', rows, hl, hn', hp', hreads', hall, hlen, hrows⟩ :=
      ih { arr := st.arr, reads := st.reads, all_times := ms.all_times ++ [row] } hn hp
    refine ⟨ms', row :: rows, ?_, hn', hp', ?_, ?_, ?_, ?_⟩
    · rw [main_loop_succ n hr, hl]
    · rw [hreads']
      show st.reads + 160 * n = ms.reads + 160 * (n + 1)
      rw [hreads]
      ring
    · rw [hall]
      show (ms.all_times ++ [row]) ++ rows = ms.all_times ++ row :: rows
      simp
    · simp [hlen]
    · intro r hr
      cases r with
      | zero => exact ⟨row, by simp, hrow⟩
      | succ r =>
        obtain ⟨row', e, ok⟩ := hrows r (by omega)
        refine ⟨row', by simpa using e, ?_⟩
        have e2 : st.reads + 160 * r = ms.reads + 160 * (r + 1) := by
          rw [hreads]; ring
        show RowOfRound ring tsc (ms.reads + 160 * (r + 1)) row'
        rw [← e2]
        exact ok

/-- C18: in the measurement loop on the ring produced by `init` (`S = 80`, `W = 8`, any
`rand()` outputs, any initial `time` fields, any counter readings) every one of the `n`
rounds returns and fills one row of `80` values.  Entry `i` of the row of round `r`, read
from node `arr[i*W + W-1]`, is `0` or the latency that the chunk of `probe` ending on that
node computed from the counter readings of round `r`; and `soft_init` writes `0` into the
`time` field of exactly the nodes `arr[i*W + W-1]`, `i < S`. -/
theorem C18_row_holds_this_round (rand : Nat → Nat) (arr : Arr) (tsc : Nat → Nat)
    (reads fuel n : Nat) (hf : Config.S * Config.W ≤ fuel) :
    (∃ ms, main_loop Config.S Config.W tsc fuel n
        { arr := init Config.S Config.W rand arr, reads := reads, all_times := [] } = some ms ∧
      ms.all_times.length = n ∧ ms.reads = reads + 2 * Config.S * n ∧
      ∀ r, r < n → ∃ row, ms.all_times[r]? = some row ∧
        RowOfRound (init Config.S Config.W rand arr) tsc (reads + 2 * Config.S * r) row) ∧
    (∀ (a : Arr) (x : Nat), (soft_init Config.S Config.W a x).time =
      if ∃ i, i < Config.S ∧ x = i * Config.W + Config.W - 1 then 0 else (a x).time) ∧
    (∀ (a : Arr) (st : ProbeState) (times : List Nat),
      measure_once Config.S Config.W tsc fuel a reads = some (st, times) →
        times = (List.range Config.S).map
          (fun i => (st.arr (i * Config.W + Config.W - 1)).time)) := by
  have h := (shuffle_inv rand arr).1
  obtain ⟨ms, rows, hl, _, _, hreads, hall, hlen, hrows⟩ :=
    main_loop_rounds h tsc fuel hf n
      { arr := init 80 8 rand arr, reads := reads, all_times := [] }
      (fun _ => rfl) (fun _ => rfl)
  refine ⟨⟨ms, hl, ?_, ?_, ?_⟩, fun a x => soft_init_time Config.S Config.W a x, ?_⟩
  · rw [hall]
    simpa using hlen
  · rw [hreads]
    show reads + 160 * n = reads + 2 * 80 * n
    ring
  · intro r hr
    obtain ⟨row, e, ok⟩ := hrows r hr
    refine ⟨row, ?_, ?_⟩
    · rw [hall]
      simpa using e
    · have e2 : reads + 2 * Config.S * r = reads + 160 * r := by
        show reads + 2 * 80 * r = reads + 160 * r
        ring
      rw [e2]
      exact ok
  · intro a st times hm
    unfold measure_once at hm
    split at hm
    · exact absurd hm (by simp)
    · split at hm
      · exact absurd hm (by simp)
      · simp only [Option.some.injEq, Prod.mk.injEq] at hm
        rw [← hm.2, ← hm.1]

/-- Witness of C18: one round on zeroed memory with every `rand()` output `0` and a
steady counter. -/
theorem C18_row_holds_this_round_witness :
    ∃ ms, main_loop Config.S Config.W steady_tsc 640 1
        { arr := init Config.S Config.W (fun _ => 0) zero_mem, reads := 0, all_times := [] }
          = some ms ∧
      ms.all_times.length = 1 := by
  obtain ⟨⟨ms, h1, h2, _⟩, _⟩ :=
    C18_row_holds_this_round (fun _ => 0) zero_mem steady_tsc 0 640 1 (by decide)
  exact ⟨ms, h1, h2⟩

/-- C19: `soft_init` and every iteration of `probe` leave all `next` and `prev` fields as
they are; `prime` returns a cursor and a step count and assigns to nothing, so that
`measure_once` runs `probe` on the array it was handed; and after any number `n` of rounds
of the measurement loop on the ring produced by `init` (`S = 80`, `W = 8`, any `rand()`
outputs) every node has the `next` and `prev` links `init` gave it, so the array is the
same single cycle in every round. -/
theorem C19_rounds_keep_links (rand : Nat → Nat) (arr : Arr) (tsc : Nat → Nat)
    (reads fuel n : Nat) (hf : Config.S * Config.W ≤ fuel) :
    (∀ (a : Arr) (x : Nat),
      (soft_init Config.S Config.W a x).next = (a x).next ∧
      (soft_init Config.S Config.W a x).prev = (a x).prev) ∧
    (∀ (st : ProbeState) (x : Nat),
      ((probe_body Config.W tsc st).arr x).next = (st.arr x).next ∧
      ((probe_body Config.W tsc st).arr x).prev = (st.arr x).prev) ∧
    (∀ a : Arr, RingInv (Config.S * Config.W) a →
      prime a fuel = some (0, Config.S * Config.W) ∧
      ∃ st times, measure_once Config.S Config.W tsc fuel a reads = some (st, times) ∧
        probe Config.W tsc fuel a reads = some st ∧
        ∀ x, (st.arr x).next = (a x).next ∧ (st.arr x).prev = (a x).prev) ∧
    (∃ ms, main_loop Config.S Config.W tsc fuel n
        { arr := init Config.S Config.W rand arr, reads := reads, all_times := [] } = some ms ∧
      (∀ x, (ms.arr x).next = ((init Config.S Config.W rand arr) x).next ∧
        (ms.arr x).prev = ((init Config.S Config.W rand arr) x).prev) ∧
      RingInv (Config.S * Config.W) ms.arr) := by
  have h := (shuffle_inv rand arr).1
  have hf' : 640 ≤ fuel := hf
  refine ⟨fun a x => ⟨soft_init_next _ _ a x, soft_init_prev _ _ a x⟩,
    fun st x => ⟨probe_body_next tsc st x, probe_body_prev tsc st x⟩, ?_, ?_⟩
  · intro a ha
    have ha' : RingInv 640 a := ha
    obtain ⟨st, hst, hn, hp, _⟩ := probe_on_ring ha' tsc reads fuel (by omega)
    have hpr := prime_returns ha' fuel hf'
    exact ⟨hpr, st, _, measure_once_eq (S := 80) hpr hst, hst, fun x => ⟨hn x, hp x⟩⟩
  · obtain ⟨ms, rows, hl, hn, hp, _⟩ :=
      main_loop_rounds h tsc fuel hf' n
        { arr := init 80 8 rand arr, reads := reads, all_times := [] }
        (fun _ => rfl) (fun _ => rfl)
    exact ⟨ms, hl, fun x => ⟨hn x, hp x⟩, h.same_links hn hp⟩

/-- Witness of C19: three rounds on zeroed memory with every `rand()` output `0` and a
steady counter. -/
theorem C19_rounds_keep_links_witness :
    ∃ ms, main_loop Config.S Config.W steady_tsc 640 3
        { arr := init Config.S Config.W (fun _ => 0) zero_mem, reads := 0, all_times := [] }
          = some ms ∧
      RingInv (Config.S * Config.W) ms.arr := by
  obtain ⟨_, _, _, ms, h1, _, h3⟩ :=
    C19_rounds_keep_links (fun _ => 0) zero_mem steady_tsc 0 640 3 (by decide)
  exact ⟨ms, h1, h3⟩

/-! ## The run of `main` and the pointer returned by the allocator -/

end PrimeProbe
